import Mathlib

/-!
# fileseqmini: a shallow embedding of `include/fileseqmini.hpp`

`std::string` is a list of characters, the `char*` cursor of the slice parser is
the list of characters that are still unread (the empty list is the terminating
NUL), `int32_t` is an `Int` reduced by `toInt32`, `uint8_t` is a `Nat` reduced
modulo 256 and `size_t` is a `Nat` reduced modulo `2 ^ 64`.

`long` has 64 bits, as on the platforms where `size_t` has.  Where C++ leaves
the result of an addition, a multiplication or a conversion open the embedding
takes the two's complement result: `i += step` wraps around, a `long` that
does not fit `int32_t` is reduced modulo `2 ^ 32`; a `double` that does not
fit `int32_t` converts to `INT32_MIN`.  What makes the program
stop or never come back is reported as `none`: the integer division of
`SequenceDesc::isOk` and `SequenceDesc::size` traps on a step 0 and on
`INT32_MIN / -1`, so these two return an `Option`, and so does everything that
calls them, `parsePatterns` and both constructors included; a loop that would
not end, a division by zero of a `size_t` and an index outside a vector are
`none` as well.  Memory is not modelled: a vector takes any size.

The first part holds the definitions: the program, function by function under
the names of the source; the reference definitions `spec...`, `intDigits`,
`dashesOk` and `sliceNoOverflow`, which are there to state the claims; and, in
the last section, the functions `wrap...`, which are no part of the program
and occur in no claim: they are the functions above with a quotient that wraps
around where the division traps, total where the program is partial, and the
proofs go through them.  The second part holds the theorems; the claims of the
specification are the theorems `C1_...`, `C2_...`, ...
-/

namespace fileseqmini

/-- The text type of the embedding: `std::string` as its list of characters. -/
abbrev Str := List Char

/-! ## Machine integers -/

/-- Smallest `int32_t`. -/
def INT32_MIN : Int := -2147483648

/-- Largest `int32_t`. -/
def INT32_MAX : Int := 2147483647

/-- Number of values of `size_t` (64 bit). -/
def SIZE_MOD : Nat := 2 ^ 64

/-- Conversion to `int32_t`: the low 32 bits, read in two's complement. -/
def toInt32 (x : Int) : Int := (x + 2147483648) % 4294967296 - 2147483648

/-- Conversion of a signed value to `size_t`. -/
def toSizeT (x : Int) : Nat := (x % (SIZE_MOD : Int)).toNat

/-- Clamping of `strtol` to the range of `long` (64 bit). -/
def clampLong (x : Int) : Int :=
  if x < -9223372036854775808 then -9223372036854775808
  else if 9223372036854775807 < x then 9223372036854775807
  else x

/-! ## Data model -/

/-- One parsed slice, `FileSequenceBase::SequenceDesc`; the field `end` of the
source is `end_` here. -/
structure SequenceDesc where
  beg : Int
  end_ : Int
  step : Int
  pad : Nat
  deriving DecidableEq, Repr

/-- The quotient `( end - beg ) / step` on `int32_t`, truncating; `none` when
the division traps: a step of 0, or `INT32_MIN / -1`. -/
def SequenceDesc.quot (d : SequenceDesc) : Option Int :=
  if d.step = 0 ∨ (toInt32 (d.end_ - d.beg) = INT32_MIN ∧ d.step = -1) then none
  else some (toInt32 (Int.tdiv (toInt32 (d.end_ - d.beg)) d.step))

/-- `SequenceDesc::isOk`: `none` when its division traps. -/
def SequenceDesc.isOk (d : SequenceDesc) : Option Bool :=
  match d.quot with
  | none => none
  | some q => some (decide (0 ≤ q))

/-- `SequenceDesc::size`: `none` when a division traps. -/
def SequenceDesc.size (d : SequenceDesc) : Option Nat :=
  match d.isOk with
  | none => none
  | some false => some 0
  | some true =>
    match d.quot with
    | none => none
    | some q => some (toSizeT (toInt32 (q + 1)))

/-- `PackedSequence`. -/
abbrev PackedSequence := List SequenceDesc

/-- `PackedPath`. -/
abbrev PackedPath := List PackedSequence

/-! ## Tokenizer -/

/-- The delimiter set the base class keeps: the default when none is given. -/
def effectiveDelimiters (delimiters : Str) : Str :=
  if delimiters = [] then ['\\', '/', '.'] else delimiters

/-- The call `std::string( s, pos, len )`. -/
def substr (s : Str) (pos len : Nat) : Str := (s.drop pos).take len

/-- One round of the loop of `splitOriginalPattern`; the state is
`( startToken, result )`. -/
def splitStep (pattern delims : Str) (st : Nat × List Str) (i : Nat) : Nat × List Str :=
  match pattern[i]? with
  | some c =>
    if c ∈ delims then
      let result := if st.1 < i then st.2 ++ [substr pattern st.1 (i - st.1)] else st.2
      (i + 1, result ++ [substr pattern i 1])
    else st
  | none => st

/-- `FileSequenceBase::splitOriginalPattern`, on the delimiters in force. -/
def splitOriginalPattern (pattern delims : Str) : List Str :=
  let st := (List.range pattern.length).foldl (splitStep pattern delims) (0, [])
  if st.1 < pattern.length then st.2 ++ [pattern.drop st.1] else st.2

/-! ## Integer parsing -/

/-- The characters `isspace` accepts in the C locale. -/
def isspace (c : Char) : Bool :=
  c = ' ' || c = '\t' || c = '\n' || c = '\x0b' || c = '\x0c' || c = '\r'

/-- Leading white space, which `strtol` skips. -/
def skipSpace : Str → Str
  | [] => []
  | c :: cs => if isspace c then skipSpace cs else c :: cs

/-- Value of a decimal digit character. -/
def digitVal (c : Char) : Nat := c.toNat - 48

/-- The digit run `strtol` reads: the value so far and the unread rest. -/
def readDigits : Str → Nat → Nat × Str
  | [], acc => (acc, [])
  | c :: cs, acc => if c.isDigit then readDigits cs (acc * 10 + digitVal c) else (acc, c :: cs)

/-- The sign `strtol` reads: whether it is a minus, and the unread rest. -/
def readSign : Str → Bool × Str
  | '-' :: cs => (true, cs)
  | '+' :: cs => (false, cs)
  | cs => (false, cs)

/-- `std::strtol( str, &parseEnd, 10 )`: `none` when no conversion is done
(`parseEnd == str`), else the `long` value and the text from `parseEnd` on. -/
def strtol (s : Str) : Option (Int × Str) :=
  let signed := readSign (skipSpace s)
  match signed.2 with
  | [] => none
  | c :: cs =>
    if c.isDigit then
      let r := readDigits (c :: cs) 0
      some (clampLong (if signed.1 then -(r.1 : Int) else (r.1 : Int)), r.2)
    else none

/-- `FileSequenceBase::parseInteger` at `int32_t`: `none` when it returns
false, else the value stored and the advanced cursor. -/
def parseInteger (s : Str) : Option (Int × Str) :=
  match strtol s with
  | none => none
  | some (v, rest) => some (toInt32 v, rest)

/-! ## Slice parser -/

/-- `FileSequenceBase::checkPatternCharset`. -/
def checkPatternCharset (pattern : Str) : Bool :=
  pattern.all (fun c => c = '#' || c = ',' || c = '-' || c.isDigit || c = '@' || c = 'x')

/-- `FileSequenceBase::parsePatternPad`: the value returned, the cursor and the
descriptor it leaves behind (both are changed also when it returns false). -/
def parsePatternPad : Str → SequenceDesc → Bool × Str × SequenceDesc
  | [], d => (true, [], d)
  | c :: cs, d =>
    if c = '@' then parsePatternPad cs ⟨d.beg, d.end_, d.step, (d.pad + 1) % 256⟩
    else if c = '#' then parsePatternPad cs ⟨d.beg, d.end_, d.step, (d.pad + 4) % 256⟩
    else (false, c :: cs, d)

/-- The value `static_cast<int32_t>( std::pow( 10, pad ) - 1 )`; `std::pow` is
taken as exact, which it is as long as the result fits `int32_t`. -/
def powTenMinusOne (pad : Nat) : Int :=
  if ((10 : Int) ^ pad - 1) ≤ INT32_MAX then (10 : Int) ^ pad - 1 else INT32_MIN

/-- The part of `parsePatternStart` after the padding shorthand: an explicit
start. -/
def parseStartInteger (p : Str) (d : SequenceDesc) : Option (Str × SequenceDesc) :=
  match parseInteger p with
  | none => none
  | some (v, rest) => some (rest, ⟨v, v, d.step, d.pad⟩)

/-- `FileSequenceBase::parsePatternStart`: `none` when it returns false. -/
def parsePatternStart (p : Str) (d : SequenceDesc) : Option (Str × SequenceDesc) :=
  match p with
  | c :: _ =>
    if c = '#' || c = '@' then
      match parsePatternPad p d with
      | (true, p1, d1) => some (p1, ⟨d1.beg, powTenMinusOne d1.pad, d1.step, d1.pad⟩)
      | (false, p1, d1) => parseStartInteger p1 d1
    else parseStartInteger p d
  | [] => parseStartInteger p d

/-- The end of `parsePatternEnd`: a descending range steps by -1. -/
def fixStep (d : SequenceDesc) : SequenceDesc :=
  if d.end_ < d.beg then ⟨d.beg, d.end_, -1, d.pad⟩ else d

/-- `FileSequenceBase::parsePatternEnd`: `none` when it returns false. -/
def parsePatternEnd (p : Str) (d : SequenceDesc) : Option (Str × SequenceDesc) :=
  match p with
  | [] => some ([], d)
  | c :: cs =>
    if c = '-' then
      match parseInteger cs with
      | none => none
      | some (v, rest) => some (rest, fixStep ⟨d.beg, v, d.step, d.pad⟩)
    else if c ≠ '#' ∧ c ≠ '@' then none
    else some (c :: cs, fixStep d)

/-- `FileSequenceBase::parsePatternStep`: `none` when it returns false. -/
def parsePatternStep (p : Str) (d : SequenceDesc) : Option (Str × SequenceDesc) :=
  match p with
  | [] => some ([], d)
  | c :: cs =>
    if c = 'x' then
      match parseInteger cs with
      | none => none
      | some (v, rest) => if v = 0 then none else some (rest, ⟨d.beg, d.end_, v, d.pad⟩)
    else if c ≠ '#' ∧ c ≠ '@' then none
    else some (c :: cs, d)

/-- The body of the loop of `parsePatterns` for one alternative `buf`: the four
stages and `desc.isOk()` on a fresh `{ 0, 0, 1, 0 }`. The result is `none`
when `desc.isOk()` traps, `some none` when `success` ends false, and
`some ( some desc )` when the alternative is accepted. -/
def parseSlice (buf : Str) : Option (Option SequenceDesc) :=
  match parsePatternStart buf ⟨0, 0, 1, 0⟩ with
  | none => some none
  | some (p1, d1) =>
    match parsePatternEnd p1 d1 with
    | none => some none
    | some (p2, d2) =>
      match parsePatternStep p2 d2 with
      | none => some none
      | some (p3, d3) =>
        match parsePatternPad p3 d3 with
        | (false, _, _) => some none
        | (true, _, d4) =>
          match d4.isOk with
          | none => none
          | some true => some (some d4)
          | some false => some none

/-- One call `std::getline( ss, buf, ',' )` on the unread text of the stream:
`none` when nothing is extracted (the stream turns false), else `buf` and the
text left unread. -/
def getline (ss : Str) : Option (Str × Str) :=
  match ss with
  | [] => none
  | _ :: _ => some (ss.takeWhile (fun c => c ≠ ','), (ss.dropWhile (fun c => c ≠ ',')).drop 1)

/-- The values of `buf` that the calls of `std::getline` give in turn until the
stream turns false. -/
def getlineAll : Str → List Str
  | [] => []
  | c :: cs =>
    if c = ',' then [] :: getlineAll cs
    else
      match getlineAll cs with
      | [] => [[c]]
      | b :: bs => (c :: b) :: bs

/-- The loop `while ( success && std::getline( ss, buf, ',' ) )` over the
alternatives still to come: `none` when `desc.isOk()` traps, `some none` when
`success` ends false, else the slices. -/
def parseSliceLoop : List Str → PackedSequence → Option (Option PackedSequence)
  | [], acc => some (some acc)
  | buf :: rest, acc =>
    if buf = [] then some none
    else
      match parseSlice buf with
      | none => none
      | some none => some none
      | some (some d) => parseSliceLoop rest (acc ++ [d])

/-- The entry `result[i]` of `parsePatterns` for one token: its slices, empty
when the token stays a literal; `none` when `desc.isOk()` traps. -/
def parseToken (token : Str) : Option PackedSequence :=
  if checkPatternCharset token then
    match parseSliceLoop (getlineAll token) [] with
    | none => none
    | some (some slices) => some slices
    | some none => some []
  else some []

/-- `FileSequenceBase::parsePatterns`: `none` when `desc.isOk()` traps on a
token. -/
def parsePatterns : List Str → Option PackedPath
  | [] => some []
  | token :: tokens =>
    match parseToken token with
    | none => none
    | some slices =>
      match parsePatterns tokens with
      | none => none
      | some result => some (slices :: result)

/-! ## Padded formatting -/

/-- The character of a decimal digit. -/
def digitChar (n : Nat) : Char := Char.ofNat (48 + n)

/-- Decimal digits of `n` in front of `acc`; `fuel` bounds the number of digits. -/
def natDigitsAux : Nat → Nat → Str → Str
  | 0, _, acc => acc
  | fuel + 1, n, acc =>
    if n < 10 then digitChar n :: acc
    else natDigitsAux fuel (n / 10) (digitChar (n % 10) :: acc)

/-- Decimal digits of a natural number, as `operator<<` writes them. -/
def natDigits (n : Nat) : Str := natDigitsAux (n + 1) n []

/-- `FileSequenceBase::writePadded`: `setw( pad )`, `setfill( m_padChar )` and
`std::internal`, so the fill goes between the sign and the digits. -/
def writePadded (padChar : Char) (value : Int) (pad : Nat) : Str :=
  if value < 0 then
    '-' :: (List.replicate (pad - ((natDigits value.natAbs).length + 1)) padChar
      ++ natDigits value.natAbs)
  else
    List.replicate (pad - (natDigits value.natAbs).length) padChar ++ natDigits value.natAbs

/-! ## Eager expander -/

/-- The lambda `inBounds` of `FileSequenceBase::unpackSequence`. -/
def inBounds (slice : SequenceDesc) (i : Int) : Bool :=
  if slice.step < 0 then decide (slice.end_ ≤ i) else decide (i ≤ slice.end_)

/-- Rounds after which the loop over one slice has been through every
`int32_t` and so never ends. -/
def loopFuel : Nat := 4294967297

/-- The loop `for ( int32_t i = slice.beg; inBounds( i ); i += slice.step )`
started at `i`, with `fuel` rounds left: the texts it adds, `none` when the
rounds run out. -/
def unpackSlice (padChar : Char) (slice : SequenceDesc) : Nat → Int → Option (List Str)
  | 0, _ => none
  | fuel + 1, i =>
    if inBounds slice i then
      match unpackSlice padChar slice fuel (toInt32 (i + slice.step)) with
      | none => none
      | some rest => some (writePadded padChar i slice.pad :: rest)
    else some []

/-- `FileSequenceBase::unpackSequence` (the eager one): `none` when a loop
never ends. -/
def unpackSequence (padChar : Char) : PackedSequence → Option (List Str)
  | [] => some []
  | slice :: rest =>
    match unpackSlice padChar slice loopFuel slice.beg, unpackSequence padChar rest with
    | some a, some b => some (a ++ b)
    | _, _ => none

/-- The loop of the constructor of `FileSequence` that fills `pathParts`. -/
def pathPartsOf (padChar : Char) : List Str → PackedPath → Option (List (List Str))
  | token :: tokens, currentPattern :: parsed =>
    match (if currentPattern.isEmpty then some [token] else unpackSequence padChar currentPattern),
        pathPartsOf padChar tokens parsed with
    | some part, some parts => some (part :: parts)
    | _, _ => none
  | _, _ => some []

/-- The product `totalPaths` computed by `generatePaths`, started at `acc`. -/
def totalPathsOf (pathParts : List (List Str)) (acc : Nat) : Nat :=
  pathParts.foldl (fun total part => (total * part.length) % SIZE_MOD) acc

/-- The inner loop of `generatePaths` for one path: the text appended for the
parts still to come; `none` on a division by zero or an index outside `part`. -/
def pathOf : List (List Str) → Nat → Nat → Option Str
  | [], _, _ => some []
  | part :: rest, branchId, branchesLeft =>
    if branchesLeft = 0 ∨ part.length = 0 ∨ branchesLeft / part.length = 0 then none
    else
      match part[(branchId % branchesLeft) / (branchesLeft / part.length)]?,
          pathOf rest (branchId % branchesLeft) (branchesLeft / part.length) with
      | some s, some t => some (s ++ t)
      | _, _ => none

/-- The results `f i`, `f (i + 1)`, ... of `count` calls in turn, `none` when
one of them is. -/
def collect (f : Nat → Option Str) : Nat → Nat → Option (List Str)
  | 0, _ => some []
  | count + 1, i =>
    match f i, collect f count (i + 1) with
    | some p, some ps => some (p :: ps)
    | _, _ => none

/-- `FileSequence::generatePaths`: the value of `m_paths` it leaves. -/
def generatePaths (pathParts : List (List Str)) : Option (List Str) :=
  collect (fun i => pathOf pathParts i (totalPathsOf pathParts 1)) (totalPathsOf pathParts 1) 0

/-- The eager expander `FileSequence`; `m_invalidDesc` stays the empty text. -/
structure FileSequence where
  m_paths : List Str
  deriving DecidableEq, Repr

/-- The constructor of `FileSequence`: `none` when it does not come back:
`parsePatterns` traps, a loop of `unpackSequence` never ends, or
`generatePaths` runs into undefined behaviour. -/
def FileSequence.ctor (pattern delimiters : Str) (padChar : Char) : Option FileSequence :=
  let tokens := splitOriginalPattern pattern (effectiveDelimiters delimiters)
  match parsePatterns tokens with
  | none => none
  | some parsedPatterns =>
    match pathPartsOf padChar tokens parsedPatterns with
    | none => none
    | some pathParts =>
      match generatePaths pathParts with
      | none => none
      | some paths => some ⟨paths⟩

/-- `FileSequence::isOk`. -/
def FileSequence.isOk (s : FileSequence) : Bool := decide (1 < s.m_paths.length)

/-- `FileSequence::size`. -/
def FileSequence.size (s : FileSequence) : Nat := if s.isOk then s.m_paths.length else 0

/-- `FileSequence::getFullPaths`. -/
def FileSequence.getFullPaths (s : FileSequence) : List Str := s.m_paths

/-- `FileSequence::operator[]`. -/
def FileSequence.index (s : FileSequence) (index : Nat) : Str :=
  match s.m_paths[index]? with
  | some path => path
  | none => []

/-- Iteration over a `FileSequence` from `begin()` to `end()`, which are
`m_paths.cbegin()` and `m_paths.cend()`: the paths visited. -/
def FileSequence.beginToEnd (s : FileSequence) : List Str := s.m_paths

/-! ## Lazy expander -/

/-- The lazy expander `FileSequenceLazy`. -/
structure FileSequenceLazy where
  m_padChar : Char
  m_packedPaths : PackedPath
  m_pathParts : List Str
  m_size : Nat
  m_isOk : Bool
  deriving DecidableEq, Repr

/-- The loop of `FileSequenceLazy::sequenceSize` over the slices still to come,
with `result` so far: `none` when a `size()` traps. -/
def sequenceSizeFrom : PackedSequence → Nat → Option Nat
  | [], result => some result
  | slice :: rest, result =>
    match slice.size with
    | none => none
    | some n => sequenceSizeFrom rest ((result + n) % SIZE_MOD)

/-- `FileSequenceLazy::sequenceSize`: `none` when a `size()` traps. -/
def sequenceSize (seq : PackedSequence) : Option Nat := sequenceSizeFrom seq 0

/-- The loop of the constructor of `FileSequenceLazy` over the tokens still to
come; the state is `( pathCount, m_isOk )`; `none` when a `size()` traps. -/
def countPathsFrom : PackedPath → Nat × Bool → Option (Nat × Bool)
  | [], st => some st
  | seq :: rest, st =>
    if seq.isEmpty then countPathsFrom rest st
    else
      match sequenceSize seq with
      | none => none
      | some n =>
        countPathsFrom rest ((st.1 * n) % SIZE_MOD, decide (1 < (st.1 * n) % SIZE_MOD))

/-- The loop of the constructor of `FileSequenceLazy`: the final
`( pathCount, m_isOk )`. -/
def countPaths (packedPaths : PackedPath) : Option (Nat × Bool) :=
  countPathsFrom packedPaths (1, false)

/-- The constructor of `FileSequenceLazy`: `none` when it does not come back
(`parsePatterns` or a `size()` traps). -/
def FileSequenceLazy.ctor (pattern delimiters : Str) (padChar : Char) :
    Option FileSequenceLazy :=
  let pathParts := splitOriginalPattern pattern (effectiveDelimiters delimiters)
  match parsePatterns pathParts with
  | none => none
  | some packedPaths =>
    match countPaths packedPaths with
    | none => none
    | some st => some ⟨padChar, packedPaths, pathParts, if st.2 then st.1 else 0, st.2⟩

/-- `FileSequenceLazy::isOk`. -/
def FileSequenceLazy.isOk (s : FileSequenceLazy) : Bool := s.m_isOk

/-- `FileSequenceLazy::size`. -/
def FileSequenceLazy.size (s : FileSequenceLazy) : Nat := s.m_size

/-- `FileSequenceLazy::unpackSequence`: the empty text when no slice holds
`branch`, `none` when a `size()` traps. -/
def unpackSequenceLazy (padChar : Char) : PackedSequence → Nat → Option Str
  | [], _ => some []
  | slice :: rest, branch =>
    match slice.size with
    | none => none
    | some subBranchSize =>
      if branch < subBranchSize then
        some (writePadded padChar (toInt32 (slice.beg + slice.step * (branch : Int))) slice.pad)
      else unpackSequenceLazy padChar rest (branch - subBranchSize)

/-- The loop of `FileSequenceLazy::operator[]` over the tokens still to come:
the text appended; `none` on a division by zero and when a `size()` traps. -/
def lazyPathOf (padChar : Char) : List Str → PackedPath → Nat → Nat → Option Str
  | part :: parts, packed :: packedPaths, branchId, branchesLeft =>
    if packed.isEmpty then
      match lazyPathOf padChar parts packedPaths branchId branchesLeft with
      | some t => some (part ++ t)
      | none => none
    else
      match sequenceSize packed with
      | none => none
      | some seqSize =>
        if branchesLeft = 0 ∨ seqSize = 0 ∨ branchesLeft / seqSize = 0 then none
        else
          match unpackSequenceLazy padChar packed
              ((branchId % branchesLeft) / (branchesLeft / seqSize)),
            lazyPathOf padChar parts packedPaths (branchId % branchesLeft)
              (branchesLeft / seqSize) with
          | some s, some t => some (s ++ t)
          | _, _ => none
  | _, _, _, _ => some []

/-- `FileSequenceLazy::operator[]`. -/
def FileSequenceLazy.index (s : FileSequenceLazy) (index : Nat) : Option Str :=
  lazyPathOf s.m_padChar s.m_pathParts s.m_packedPaths index s.m_size

/-- `FileSequenceLazy::getFullPaths`. -/
def FileSequenceLazy.getFullPaths (s : FileSequenceLazy) : Option (List Str) :=
  collect s.index s.m_size 0

/-- Iteration over a `FileSequenceLazy` from `begin()` to `end()`, the
positions 0 to `m_size`, each dereferenced with `operator[]`: the paths
visited. -/
def FileSequenceLazy.beginToEnd (s : FileSequenceLazy) : Option (List Str) :=
  collect s.index s.m_size 0

/-- The slice and the offset in it that the loop of
`FileSequenceLazy::unpackSequence` stops at for `branch`: the cardinality of
every earlier slice is taken off `branch`; `none` when the loop falls through
to `return {}` or a `size()` traps. -/
def lazySlice : PackedSequence → Nat → Option (SequenceDesc × Nat)
  | [], _ => none
  | slice :: rest, branch =>
    match slice.size with
    | none => none
    | some subBranchSize =>
      if branch < subBranchSize then some (slice, branch)
      else lazySlice rest (branch - subBranchSize)

/-- The states `( seq, seqSize, branchId, branchesLeft )` of the loop of
`FileSequenceLazy::operator[]` at the sequence tokens, in order, with the
division and the modulo of `Nat`; `none` when a `size()` traps. -/
def lazyRounds : PackedPath → Nat → Nat → Option (List (PackedSequence × Nat × Nat × Nat))
  | [], _, _ => some []
  | packed :: rest, branchId, branchesLeft =>
    if packed.isEmpty then lazyRounds rest branchId branchesLeft
    else
      match sequenceSize packed with
      | none => none
      | some seqSize =>
        match lazyRounds rest (branchId % branchesLeft) (branchesLeft / seqSize) with
        | none => none
        | some rounds => some ((packed, seqSize, branchId, branchesLeft) :: rounds)

/-! ## Reference definitions for the statements -/

/-- The cartesian product of the per-token expansion lists of the spec: one
text per choice of one expansion from every list, concatenated in token order,
in row-major order (the last list varies fastest). -/
def specCartesian : List (List Str) → List Str
  | [] => [[]]
  | part :: rest => part.flatMap (fun s => (specCartesian rest).map (fun t => s ++ t))

/-- The product of the lengths of the expansion lists. -/
def prodLengths (parts : List (List Str)) : Nat := (parts.map List.length).prod

/-- Whether every `-` of a text is followed by an integer, that is by text on
which `strtol` converts something. -/
def dashesOk : Str → Bool
  | [] => true
  | c :: cs => (c != '-' || (strtol cs).isSome) && dashesOk cs

/-- The width a pad run stands for in the spec: each `@` counts 1, each `#`
counts 4. -/
def specPadWidth : Str → Nat
  | [] => 0
  | c :: cs => (if c = '@' then 1 else if c = '#' then 4 else 0) + specPadWidth cs

/-- The decimal text of an integer, as `operator<<` writes it with no width:
`writePadded` at pad 0. -/
def intDigits (value : Int) : Str :=
  if value < 0 then '-' :: natDigits value.natAbs else natDigits value.natAbs

/-- The integers from `B` to `E` inclusive, in order from `B` towards `E`:
ascending when `B <= E`, descending when `B > E`. -/
def specRangeValues (B E : Int) : List Int :=
  (List.range ((E - B).natAbs + 1)).map
    (fun (k : Nat) => if B ≤ E then B + (k : Int) else B - (k : Int))

/-- The values `B`, `B + S`, `B + 2S`, ... that do not exceed `E`, for
`B <= E` and a positive step `S`. -/
def specStepValues (B E S : Int) : List Int :=
  (List.range (((E - B) / S).toNat + 1)).map (fun (k : Nat) => B + (k : Int) * S)

/-! ## Reference definitions for the lazy expander -/

/-- The entry of the product list picked by the mixed-radix digits of `idx`:
from every list the element at `(idx / product of the later lengths) mod` its
own length; `none` when a list is empty. -/
def specPick : List (List Str) → Nat → Option Str
  | [], _ => some []
  | part :: rest, idx =>
    match part[(idx / prodLengths rest) % part.length]?, specPick rest idx with
    | some s, some t => some (s ++ t)
    | _, _ => none

/-- The cardinality of a slice in the spec, `( end - begin ) / step + 1` when
that quotient is at least 0 and else 0: the value of `size()`, and 0 where
`size()` traps. -/
def specSliceCardinality (d : SequenceDesc) : Nat := d.size.getD 0

/-- The cardinality of a sequence token in the spec: the sum of the
cardinalities of its slices. -/
def specCardinality (seq : PackedSequence) : Nat := (seq.map specSliceCardinality).sum

/-- The total of a pattern in the spec: the product of the cardinalities of
its sequence tokens. -/
def specTotal (packed : PackedPath) : Nat :=
  (packed.map (fun seq => if seq.isEmpty then 1 else specCardinality seq)).prod

/-- The mixed-radix digits of `idx`, one per sequence token in order: the
digit of a token is `(idx / total of the tokens after it) mod` its
cardinality. -/
def specDigits : PackedPath → Nat → List Nat
  | [], _ => []
  | seq :: packed, idx =>
    if seq.isEmpty then specDigits packed idx
    else (idx / specTotal packed) % specCardinality seq :: specDigits packed idx

/-- The slice and the offset in it that a digit `d` of a sequence token selects
in the spec: the cardinality of every earlier slice is taken off `d`. -/
def specSelect : PackedSequence → Nat → Option (SequenceDesc × Nat)
  | [], _ => none
  | slice :: rest, d =>
    if d < specSliceCardinality slice then some (slice, d)
    else specSelect rest (d - specSliceCardinality slice)

/-- The text of a sequence token at the digit `d` in the spec:
`writePadded( begin + step * offset, pad )` for the slice and the offset that
`d` selects, the value taken as an `int32_t`. -/
def specSliceText (padChar : Char) (seq : PackedSequence) (d : Nat) : Option Str :=
  (specSelect seq d).map (fun p =>
    writePadded padChar (toInt32 (p.1.beg + p.1.step * (p.2 : Int))) p.1.pad)

/-- The path at `idx` in the spec: the concatenation over the tokens in order
of the text of a literal token and, for a sequence token, of `specSliceText`
at its mixed-radix digit. -/
def specLazyPath (padChar : Char) : List Str → PackedPath → Nat → Option Str
  | tok :: toks, seq :: packed, idx =>
    match (if seq.isEmpty then some tok
        else specSliceText padChar seq ((idx / specTotal packed) % specCardinality seq)),
      specLazyPath padChar toks packed idx with
    | some s, some t => some (s ++ t)
    | _, _ => none
  | _, _, _ => some []

/-- The texts a token stands for in the spec, by digit: its own text for a
literal token, and for a sequence token the text of every digit below the
token's cardinality. -/
def specTokenTexts (padChar : Char) (tok : Str) (seq : PackedSequence) : List Str :=
  if seq.isEmpty then [tok]
  else (List.range (specCardinality seq)).map
    (fun d => (specSliceText padChar seq d).getD [])

/-- The lists of `specTokenTexts` of the tokens of a pattern, in order. -/
def specPathParts (padChar : Char) : List Str → PackedPath → List (List Str)
  | tok :: toks, seq :: packed =>
    specTokenTexts padChar tok seq :: specPathParts padChar toks packed
  | _, _ => []

/-- No `int32_t` computation on the slice overflows: begin, end and the span
`end - begin` fit, the count `( end - begin ) / step + 1` fits, and when the
eager loop runs at all, the first value past the end, which is the last value
it computes, fits. -/
def sliceNoOverflow (d : SequenceDesc) : Bool :=
  decide (INT32_MIN ≤ d.beg ∧ d.beg ≤ INT32_MAX ∧ INT32_MIN ≤ d.end_ ∧ d.end_ ≤ INT32_MAX
    ∧ INT32_MIN ≤ d.end_ - d.beg ∧ d.end_ - d.beg ≤ INT32_MAX
    ∧ Int.tdiv (d.end_ - d.beg) d.step < INT32_MAX
    ∧ (inBounds d d.beg = true →
        INT32_MIN ≤ d.beg + (Int.tdiv (d.end_ - d.beg) d.step + 1) * d.step
        ∧ d.beg + (Int.tdiv (d.end_ - d.beg) d.step + 1) * d.step ≤ INT32_MAX))

/-! ## The program with the wrapping quotient

Auxiliary definitions for the proofs, which occur in no claim.  They repeat
every function that goes through `SequenceDesc::isOk` with a quotient that
does not trap: `INT32_MIN / -1` is given its two's complement value
`INT32_MIN`, which is negative, so that the slice is rejected, and a division
by 0 is given the value 0.  So they are total where the program is partial,
and they are not the program: on the token "0--2147483648" the program traps
and `wrapParseToken` is the empty list.  The section "The program against the
wrapping quotient" of the second part proves that they give what the program
gives wherever the program comes back. -/

/-- The quotient `( end - beg ) / step` on `int32_t`, truncating, with the wrapped
value where the division traps: `INT32_MIN / -1` is `INT32_MIN` and a division
by 0 is 0. -/
def SequenceDesc.wrapQuot (d : SequenceDesc) : Int :=
  toInt32 (Int.tdiv (toInt32 (d.end_ - d.beg)) d.step)

/-- Auxiliary: `SequenceDesc.isOk` on the wrapping quotient, total. -/
def SequenceDesc.wrapIsOk (d : SequenceDesc) : Bool := decide (0 ≤ d.wrapQuot)

/-- Auxiliary: `SequenceDesc.size` on the wrapping quotient, total. -/
def SequenceDesc.wrapSize (d : SequenceDesc) : Nat :=
  if d.wrapIsOk then toSizeT (toInt32 (d.wrapQuot + 1)) else 0

/-- Auxiliary: `parseSlice` with `wrapIsOk` for `desc.isOk()`; `none` when
`success` ends false. -/
def wrapParseSlice (buf : Str) : Option SequenceDesc :=
  match parsePatternStart buf ⟨0, 0, 1, 0⟩ with
  | none => none
  | some (p1, d1) =>
    match parsePatternEnd p1 d1 with
    | none => none
    | some (p2, d2) =>
      match parsePatternStep p2 d2 with
      | none => none
      | some (p3, d3) =>
        match parsePatternPad p3 d3 with
        | (false, _, _) => none
        | (true, _, d4) => if d4.wrapIsOk then some d4 else none

/-- Auxiliary: `parseSliceLoop` with `wrapParseSlice`; `none` when `success`
ends false. -/
def wrapParseSliceLoop : List Str → PackedSequence → Option PackedSequence
  | [], acc => some acc
  | buf :: rest, acc =>
    if buf = [] then none
    else
      match wrapParseSlice buf with
      | none => none
      | some d => wrapParseSliceLoop rest (acc ++ [d])

/-- Auxiliary: `parseToken` with `wrapParseSliceLoop`: the slices of the token,
empty when the token stays a literal. -/
def wrapParseToken (token : Str) : PackedSequence :=
  if checkPatternCharset token then
    match wrapParseSliceLoop (getlineAll token) [] with
    | some slices => slices
    | none => []
  else []

/-- Auxiliary: `parsePatterns` with `wrapParseToken`, total. -/
def wrapParsePatterns (tokens : List Str) : PackedPath := tokens.map wrapParseToken

/-- Auxiliary: `FileSequence.ctor` with `wrapParsePatterns`; `none` when a loop
of `unpackSequence` never ends or `generatePaths` runs into undefined
behaviour. -/
def FileSequence.wrapCtor (pattern delimiters : Str) (padChar : Char) : Option FileSequence :=
  let tokens := splitOriginalPattern pattern (effectiveDelimiters delimiters)
  match pathPartsOf padChar tokens (wrapParsePatterns tokens) with
  | none => none
  | some pathParts =>
    match generatePaths pathParts with
    | none => none
    | some paths => some ⟨paths⟩

/-- Auxiliary: `sequenceSize` with `wrapSize`, total. -/
def wrapSequenceSize (seq : PackedSequence) : Nat :=
  seq.foldl (fun result slice => (result + slice.wrapSize) % SIZE_MOD) 0

/-- Auxiliary: one round of `countPathsFrom` with `wrapSequenceSize`; the state
is `( pathCount, m_isOk )`. -/
def wrapCountStep (st : Nat × Bool) (seq : PackedSequence) : Nat × Bool :=
  if seq.isEmpty then st
  else ((st.1 * wrapSequenceSize seq) % SIZE_MOD, decide (1 < (st.1 * wrapSequenceSize seq) % SIZE_MOD))

/-- Auxiliary: `countPaths` with `wrapCountStep`, total. -/
def wrapCountPaths (packedPaths : PackedPath) : Nat × Bool :=
  packedPaths.foldl wrapCountStep (1, false)

/-- Auxiliary: `FileSequenceLazy.ctor` with `wrapParsePatterns` and
`wrapCountPaths`, total. -/
def FileSequenceLazy.wrapCtor (pattern delimiters : Str) (padChar : Char) : FileSequenceLazy :=
  let pathParts := splitOriginalPattern pattern (effectiveDelimiters delimiters)
  let packedPaths := wrapParsePatterns pathParts
  let st := wrapCountPaths packedPaths
  ⟨padChar, packedPaths, pathParts, if st.2 then st.1 else 0, st.2⟩

/-- Auxiliary: `unpackSequenceLazy` with `wrapSize`, total: the empty text when
no slice holds `branch`. -/
def wrapUnpackSequenceLazy (padChar : Char) : PackedSequence → Nat → Str
  | [], _ => []
  | slice :: rest, branch =>
    if branch < slice.wrapSize then
      writePadded padChar (toInt32 (slice.beg + slice.step * (branch : Int))) slice.pad
    else wrapUnpackSequenceLazy padChar rest (branch - slice.wrapSize)

/-- Auxiliary: `lazyPathOf` with `wrapSequenceSize` and
`wrapUnpackSequenceLazy`; `none` on a division by zero. -/
def wrapLazyPathOf (padChar : Char) : List Str → PackedPath → Nat → Nat → Option Str
  | part :: parts, packed :: packedPaths, branchId, branchesLeft =>
    if packed.isEmpty then
      match wrapLazyPathOf padChar parts packedPaths branchId branchesLeft with
      | some t => some (part ++ t)
      | none => none
    else if branchesLeft = 0 ∨ wrapSequenceSize packed = 0
        ∨ branchesLeft / wrapSequenceSize packed = 0 then none
    else
      match wrapLazyPathOf padChar parts packedPaths (branchId % branchesLeft)
          (branchesLeft / wrapSequenceSize packed) with
      | some t =>
        some (wrapUnpackSequenceLazy padChar packed
          ((branchId % branchesLeft) / (branchesLeft / wrapSequenceSize packed)) ++ t)
      | none => none
  | _, _, _, _ => some []

/-- Auxiliary: `FileSequenceLazy.index` with `wrapLazyPathOf`. -/
def FileSequenceLazy.wrapIndex (s : FileSequenceLazy) (index : Nat) : Option Str :=
  wrapLazyPathOf s.m_padChar s.m_pathParts s.m_packedPaths index s.m_size

/-- Auxiliary: `FileSequenceLazy.getFullPaths` with `wrapIndex`. -/
def FileSequenceLazy.wrapGetFullPaths (s : FileSequenceLazy) : Option (List Str) :=
  collect s.wrapIndex s.m_size 0

/-- Auxiliary: `FileSequenceLazy.beginToEnd` with `wrapIndex`. -/
def FileSequenceLazy.wrapBeginToEnd (s : FileSequenceLazy) : Option (List Str) :=
  collect s.wrapIndex s.m_size 0

/-- Auxiliary: `lazySlice` with `wrapSize`; `none` when the loop falls through
to `return {}`. -/
def wrapLazySlice : PackedSequence → Nat → Option (SequenceDesc × Nat)
  | [], _ => none
  | slice :: rest, branch =>
    if branch < slice.wrapSize then some (slice, branch)
    else wrapLazySlice rest (branch - slice.wrapSize)

/-- Auxiliary: `lazyRounds` with `wrapSequenceSize`: the states
`( seq, branchId, branchesLeft )` at the sequence tokens, in order. -/
def wrapLazyRounds : PackedPath → Nat → Nat → List (PackedSequence × Nat × Nat)
  | [], _, _ => []
  | packed :: rest, branchId, branchesLeft =>
    if packed.isEmpty then wrapLazyRounds rest branchId branchesLeft
    else (packed, branchId, branchesLeft)
      :: wrapLazyRounds rest (branchId % branchesLeft) (branchesLeft / wrapSequenceSize packed)

/-- Auxiliary: the texts a token stands for in the lazy expander, by branch: its
own text for a literal token, and for a sequence token the text of
`wrapUnpackSequenceLazy` at every branch below `wrapSequenceSize`. -/
def wrapLazyPart (padChar : Char) (tok : Str) (seq : PackedSequence) : List Str :=
  if seq.isEmpty then [tok]
  else (List.range (wrapSequenceSize seq)).map (wrapUnpackSequenceLazy padChar seq)

/-- Auxiliary: the lists of `wrapLazyPart` of the tokens of a pattern, in order. -/
def wrapLazyParts (padChar : Char) : List Str → PackedPath → List (List Str)
  | tok :: toks, seq :: packed => wrapLazyPart padChar tok seq :: wrapLazyParts padChar toks packed
  | _, _ => []

/-- Auxiliary: the product of `wrapSequenceSize` over the sequence tokens (a
literal token counts 1), with no reduction modulo `2 ^ 64`. -/
def wrapCardProduct (packed : PackedPath) : Nat :=
  (packed.map (fun seq => if seq.isEmpty then 1 else wrapSequenceSize seq)).prod

/-- Auxiliary: `specCardinality` with `wrapSize`. -/
def wrapCardinality (seq : PackedSequence) : Nat := (seq.map SequenceDesc.wrapSize).sum

/-- Auxiliary: `specTotal` with `wrapCardinality`. -/
def wrapTotal (packed : PackedPath) : Nat :=
  (packed.map (fun seq => if seq.isEmpty then 1 else wrapCardinality seq)).prod

/-- Auxiliary: `specDigits` with `wrapTotal` and `wrapCardinality`. -/
def wrapDigits : PackedPath → Nat → List Nat
  | [], _ => []
  | seq :: packed, idx =>
    if seq.isEmpty then wrapDigits packed idx
    else (idx / wrapTotal packed) % wrapCardinality seq :: wrapDigits packed idx

/-- Auxiliary: `specSliceText` with `wrapLazySlice`. -/
def wrapSliceText (padChar : Char) (seq : PackedSequence) (d : Nat) : Option Str :=
  (wrapLazySlice seq d).map (fun p =>
    writePadded padChar (toInt32 (p.1.beg + p.1.step * (p.2 : Int))) p.1.pad)

/-- Auxiliary: `specLazyPath` with `wrapSliceText`, `wrapTotal` and
`wrapCardinality`. -/
def wrapSpecLazyPath (padChar : Char) : List Str → PackedPath → Nat → Option Str
  | tok :: toks, seq :: packed, idx =>
    match (if seq.isEmpty then some tok
        else wrapSliceText padChar seq ((idx / wrapTotal packed) % wrapCardinality seq)),
      wrapSpecLazyPath padChar toks packed idx with
    | some s, some t => some (s ++ t)
    | _, _ => none
  | _, _, _ => some []

end fileseqmini


/-! # Theorems

The sections up to "The program against the wrapping quotient" are about the
auxiliary functions `wrap...` and about the functions that never go through
`SequenceDesc::isOk` (tokenizer, integer parsing, parser stages, formatting,
eager loops, `generatePaths`); from that section on the results are carried
over to the program.
-/

namespace fileseqmini

/-! ## Tokenizer -/

/-- After `n` rounds of the loop of `splitOriginalPattern` the tokens emitted so
far, followed by the pending span, are the first `n` characters. -/
theorem splitStep_invariant (pattern delims : Str) (n : Nat) (hn : n ≤ pattern.length) :
    ((List.range n).foldl (splitStep pattern delims) (0, [])).1 ≤ n ∧
    ((List.range n).foldl (splitStep pattern delims) (0, [])).2.flatten
      ++ (pattern.drop ((List.range n).foldl (splitStep pattern delims) (0, [])).1).take
          (n - ((List.range n).foldl (splitStep pattern delims) (0, [])).1)
      = pattern.take n := by
  induction n with
  | zero => simp
  | succ n ih =>
    have hlt : n < pattern.length := hn
    obtain ⟨h1, h2⟩ := ih (Nat.le_of_lt hlt)
    rw [List.range_succ, List.foldl_append]
    simp only [List.foldl_cons, List.foldl_nil]
    generalize (List.range n).foldl (splitStep pattern delims) (0, []) = st at h1 h2 ⊢
    have hget : pattern[n]? = some pattern[n] := List.getElem?_eq_getElem hlt
    have htake : pattern.take (n + 1) = pattern.take n ++ [pattern[n]] := by
      rw [List.take_succ, hget]; rfl
    unfold splitStep
    rw [hget]
    by_cases hc : pattern[n] ∈ delims
    · simp only [hc, if_true]
      refine ⟨le_refl _, ?_⟩
      have hsub : substr pattern n 1 = [pattern[n]] := by
        unfold substr
        rw [List.drop_eq_getElem_cons hlt]
        rfl
      by_cases hs : st.1 < n
      · simp only [hs, if_true, List.flatten_append, List.flatten_cons, List.flatten_nil,
          List.append_nil, Nat.sub_self, List.take_zero]
        rw [hsub, htake]
        unfold substr
        rw [h2]
      · have hs2 : st.1 = n := by omega
        simp only [hs, if_false, List.flatten_append, List.flatten_cons, List.flatten_nil,
          List.append_nil, Nat.sub_self, List.take_zero]
        rw [hsub, htake, ← h2, hs2]
        simp
    · simp only [hc, if_false]
      refine ⟨by omega, ?_⟩
      rw [htake, ← h2]
      have e : n + 1 - st.1 = (n - st.1) + 1 := by omega
      rw [e, List.take_succ, List.getElem?_drop]
      have e2 : st.1 + (n - st.1) = n := by omega
      rw [e2, hget]
      simp

/-- The tokens of `splitOriginalPattern`, concatenated, are the pattern. -/
theorem splitOriginalPattern_flatten (pattern delims : Str) :
    (splitOriginalPattern pattern delims).flatten = pattern := by
  obtain ⟨h1, h2⟩ := splitStep_invariant pattern delims pattern.length (le_refl _)
  unfold splitOriginalPattern
  simp only
  generalize (List.range pattern.length).foldl (splitStep pattern delims) (0, []) = st at h1 h2 ⊢
  have hfull : (pattern.drop st.1).take (pattern.length - st.1) = pattern.drop st.1 := by
    apply List.take_of_length_le
    simp
  rw [hfull, List.take_length] at h2
  by_cases hs : st.1 < pattern.length
  · simp only [hs, if_true, List.flatten_append, List.flatten_cons, List.flatten_nil,
      List.append_nil]
    exact h2
  · simp only [hs, if_false]
    have : pattern.drop st.1 = [] := List.drop_of_length_le (by omega)
    rw [this, List.append_nil] at h2
    exact h2

/-- C2: for every pattern string and every delimiter set (so also for the
default set that replaces an empty one), concatenating in order the tokens
returned by `splitOriginalPattern` gives back the pattern string exactly. -/
theorem C2_split_concat_roundtrip (pattern delims : Str) :
    (splitOriginalPattern pattern delims).flatten = pattern :=
  splitOriginalPattern_flatten pattern delims

/-! ## Eager expander: `generatePaths` -/

/-- The running product of `generatePaths` is the product of the list lengths
modulo `2 ^ 64`. -/
theorem totalPathsOf_eq (parts : List (List Str)) (acc : Nat) (hacc : acc < SIZE_MOD) :
    totalPathsOf parts acc = (acc * prodLengths parts) % SIZE_MOD := by
  induction parts generalizing acc with
  | nil =>
    simp [totalPathsOf, prodLengths, Nat.mod_eq_of_lt hacc]
  | cons p ps ih =>
    have h := ih ((acc * p.length) % SIZE_MOD) (Nat.mod_lt _ (by decide))
    unfold totalPathsOf at h ⊢
    rw [List.foldl_cons, h]
    simp only [prodLengths, List.map_cons, List.prod_cons]
    rw [Nat.mod_mul_mod, Nat.mul_assoc]

/-- Indexing a concatenation of blocks of equal length `m`: block `j / m`,
place `j % m`. -/
theorem flatMap_getElem? {α β : Type} (f : α → List β) (m : Nat) (hm : 0 < m)
    (hf : ∀ a, (f a).length = m) (l : List α) (j : Nat) :
    (l.flatMap f)[j]? = (l[j / m]?).bind (fun a => (f a)[j % m]?) := by
  induction l generalizing j with
  | nil => simp
  | cons a l ih =>
    rw [List.flatMap_cons]
    by_cases hj : j < m
    · rw [List.getElem?_append_left (by rw [hf]; exact hj)]
      simp [Nat.div_eq_of_lt hj, Nat.mod_eq_of_lt hj]
    · have hge : m ≤ j := Nat.le_of_not_lt hj
      rw [List.getElem?_append_right (by rw [hf]; exact hge), hf, ih]
      have h1 : j / m = (j - m) / m + 1 := by
        rw [← Nat.sub_add_cancel hge, Nat.add_div_right _ hm]
        simp
      have h2 : (j - m) % m = j % m := by
        conv_rhs => rw [← Nat.sub_add_cancel hge]
        simp
      rw [h1, h2]
      simp

/-- The product list has as many entries as the product of the lengths. -/
theorem specCartesian_length (parts : List (List Str)) :
    (specCartesian parts).length = prodLengths parts := by
  induction parts with
  | nil => rfl
  | cons p ps ih =>
    simp only [specCartesian, prodLengths, List.map_cons, List.prod_cons]
    induction p with
    | nil => simp
    | cons s p ihp =>
      simp only [List.flatMap_cons, List.length_append, List.length_map, List.length_cons, ihp, ih]
      simp only [prodLengths]
      ring

/-- Row-major indexing of the product list. -/
theorem specCartesian_getElem? (p : List Str) (ps : List (List Str)) (j : Nat)
    (hm : 0 < prodLengths ps) :
    (specCartesian (p :: ps))[j]? =
      (p[j / prodLengths ps]?).bind
        (fun s => ((specCartesian ps)[j % prodLengths ps]?).map (fun t => s ++ t)) := by
  simp only [specCartesian]
  rw [flatMap_getElem? _ (prodLengths ps) hm (by intro a; simp [specCartesian_length])]
  simp

/-- The inner loop of `generatePaths` builds the entry of the product list at
the index reduced modulo the radix. -/
theorem pathOf_eq_specCartesian (parts : List (List Str)) (b : Nat)
    (h : 0 < prodLengths parts) :
    pathOf parts b (prodLengths parts) = (specCartesian parts)[b % prodLengths parts]? := by
  induction parts generalizing b with
  | nil => simp [pathOf, specCartesian, prodLengths, Nat.mod_one]
  | cons p ps ih =>
    have hprod : prodLengths (p :: ps) = p.length * prodLengths ps := by
      simp [prodLengths]
    rw [hprod] at h ⊢
    have hp : 0 < p.length := Nat.pos_of_mul_pos_right h
    have hm : 0 < prodLengths ps := Nat.pos_of_mul_pos_left h
    have hdiv : p.length * prodLengths ps / p.length = prodLengths ps :=
      Nat.mul_div_cancel_left _ hp
    have hcond : ¬ (p.length * prodLengths ps = 0 ∨ p.length = 0
        ∨ p.length * prodLengths ps / p.length = 0) := by
      rw [hdiv]; omega
    rw [pathOf, if_neg hcond, hdiv, ih _ hm, specCartesian_getElem? _ _ _ hm]
    cases p[b % (p.length * prodLengths ps) / prodLengths ps]? with
    | none => rfl
    | some s =>
      cases (specCartesian ps)[b % (p.length * prodLengths ps) % prodLengths ps]? with
      | none => rfl
      | some t => rfl

/-- When every call gives the matching entry of `l`, `collect` gives `l`. -/
theorem collect_eq_some (f : Nat → Option Str) (n i : Nat) (l : List Str)
    (hlen : l.length = n) (hf : ∀ j, j < n → f (i + j) = l[j]?) :
    collect f n i = some l := by
  induction n generalizing i l with
  | zero =>
    have : l = [] := List.length_eq_zero.mp hlen
    simp [collect, this]
  | succ n ih =>
    cases l with
    | nil => simp at hlen
    | cons x xs =>
      have h0 := hf 0 (Nat.succ_pos n)
      simp only [Nat.add_zero, List.getElem?_cons_zero] at h0
      have hrest := ih (i + 1) xs (by simpa using hlen) (by
        intro j hj
        have := hf (j + 1) (Nat.succ_lt_succ hj)
        simp only [List.getElem?_cons_succ] at this
        rw [← this]; congr 1; omega)
      simp [collect, h0, hrest]

/-- Without `size_t` overflow `generatePaths` leaves the product list in
`m_paths`. -/
theorem generatePaths_eq_specCartesian (parts : List (List Str))
    (h : prodLengths parts < SIZE_MOD) :
    generatePaths parts = some (specCartesian parts) := by
  have htot : totalPathsOf parts 1 = prodLengths parts := by
    rw [totalPathsOf_eq parts 1 (by decide), Nat.one_mul, Nat.mod_eq_of_lt h]
  unfold generatePaths
  rw [htot]
  apply collect_eq_some _ _ _ _ (specCartesian_length parts)
  intro j hj
  simp only [Nat.zero_add]
  rw [pathOf_eq_specCartesian parts j (Nat.lt_of_le_of_lt (Nat.zero_le _) hj),
    Nat.mod_eq_of_lt hj]

/-! ## Machine integers -/

/-- Conversion to `int32_t` keeps a value that fits. -/
theorem toInt32_of_range (x : Int) (h1 : INT32_MIN ≤ x) (h2 : x ≤ INT32_MAX) : toInt32 x = x := by
  unfold INT32_MIN at h1
  unfold INT32_MAX at h2
  unfold toInt32
  omega

/-- Conversion to `int32_t` lands in the range of `int32_t`. -/
theorem toInt32_range (x : Int) : INT32_MIN ≤ toInt32 x ∧ toInt32 x ≤ INT32_MAX := by
  unfold INT32_MIN INT32_MAX toInt32
  omega

/-! ## Slice parser: the step of an accepted slice is not zero -/

/-- The padding stage leaves `beg`, `end` and `step` alone. -/
theorem parsePatternPad_frame (p : Str) (d : SequenceDesc) :
    (parsePatternPad p d).2.2.beg = d.beg ∧ (parsePatternPad p d).2.2.end_ = d.end_
      ∧ (parsePatternPad p d).2.2.step = d.step := by
  induction p generalizing d with
  | nil => simp [parsePatternPad]
  | cons c cs ih =>
    unfold parsePatternPad
    by_cases h1 : c = '@'
    · simp only [h1, if_true]
      exact ih _
    · by_cases h2 : c = '#'
      · simp only [h2, if_true]
        have := ih ⟨d.beg, d.end_, d.step, (d.pad + 4) % 256⟩
        simpa using this
      · simp [h1, h2]

/-- The start stage leaves `step` alone. -/
theorem parsePatternStart_step (p p1 : Str) (d d1 : SequenceDesc)
    (h : parsePatternStart p d = some (p1, d1)) : d1.step = d.step := by
  have hint : ∀ (q : Str) (e : SequenceDesc), parseStartInteger q e = some (p1, d1) →
      d1.step = e.step := by
    intro q e he
    unfold parseStartInteger at he
    split at he
    · simp at he
    · simp only [Option.some.injEq, Prod.mk.injEq] at he
      rw [← he.2]
  cases p with
  | nil => exact hint _ _ (by simpa [parsePatternStart] using h)
  | cons c cs =>
    unfold parsePatternStart at h
    simp only at h
    split at h
    · have hf := parsePatternPad_frame (c :: cs) d
      split at h
      · rename_i hp
        simp only [Option.some.injEq, Prod.mk.injEq] at h
        rw [← h.2]
        rw [hp] at hf
        exact hf.2.2
      · rename_i hp
        rw [hp] at hf
        rw [hint _ _ h]
        exact hf.2.2
    · exact hint _ _ h

/-- The end stage keeps `step` or sets it to -1. -/
theorem parsePatternEnd_step (p p1 : Str) (d d1 : SequenceDesc)
    (h : parsePatternEnd p d = some (p1, d1)) : d1.step = d.step ∨ d1.step = -1 := by
  have hfix : ∀ e : SequenceDesc, (fixStep e).step = e.step ∨ (fixStep e).step = -1 := by
    intro e
    unfold fixStep
    split
    · right; rfl
    · left; rfl
  unfold parsePatternEnd at h
  split at h
  · simp only [Option.some.injEq, Prod.mk.injEq] at h
    left; rw [← h.2]
  · split at h
    · split at h
      · simp at h
      · simp only [Option.some.injEq, Prod.mk.injEq] at h
        rw [← h.2]
        exact hfix _
    · split at h
      · simp at h
      · simp only [Option.some.injEq, Prod.mk.injEq] at h
        rw [← h.2]
        exact hfix _

/-- The step stage keeps `step` or stores a value that is not zero. -/
theorem parsePatternStep_step (p p1 : Str) (d d1 : SequenceDesc)
    (h : parsePatternStep p d = some (p1, d1)) : d1.step = d.step ∨ d1.step ≠ 0 := by
  unfold parsePatternStep at h
  split at h
  · simp only [Option.some.injEq, Prod.mk.injEq] at h
    left; rw [← h.2]
  · split at h
    · split at h
      · simp at h
      · split at h
        · simp at h
        · rename_i hv
          simp only [Option.some.injEq, Prod.mk.injEq] at h
          right; rw [← h.2]; exact hv
    · split at h
      · simp at h
      · simp only [Option.some.injEq, Prod.mk.injEq] at h
        left; rw [← h.2]

/-- An accepted slice has a step that is not zero. -/
theorem parseSlice_step_ne_zero (buf : Str) (d : SequenceDesc)
    (h : wrapParseSlice buf = some d) : d.step ≠ 0 := by
  unfold wrapParseSlice at h
  split at h
  · simp at h
  · rename_i p1 d1 h1
    split at h
    · simp at h
    · rename_i p2 d2 h2
      split at h
      · simp at h
      · rename_i p3 d3 h3
        have hf := parsePatternPad_frame p3 d3
        split at h
        · simp at h
        · rename_i p4 d4 h4
          rw [h4] at hf
          split at h
          · simp only [Option.some.injEq] at h
            subst h
            have s1 := parsePatternStart_step _ _ _ _ h1
            have s2 := parsePatternEnd_step _ _ _ _ h2
            have s3 := parsePatternStep_step _ _ _ _ h3
            simp only at s1 hf
            rw [hf.2.2]
            rcases s3 with s3 | s3
            · rw [s3]
              rcases s2 with s2 | s2
              · rw [s2, s1]; decide
              · rw [s2]; decide
            · exact s3
          · simp at h

/-- Every slice the loop of `wrapParsePatterns` adds was accepted by `wrapParseSlice`. -/
theorem parseSliceLoop_mem (bufs : List Str) (acc slices : PackedSequence)
    (h : wrapParseSliceLoop bufs acc = some slices) (d : SequenceDesc) (hd : d ∈ slices) :
    d ∈ acc ∨ ∃ buf, buf ∈ bufs ∧ wrapParseSlice buf = some d := by
  induction bufs generalizing acc with
  | nil =>
    simp only [wrapParseSliceLoop, Option.some.injEq] at h
    left; rw [h]; exact hd
  | cons b bs ih =>
    unfold wrapParseSliceLoop at h
    split at h
    · simp at h
    · split at h
      · simp at h
      · rename_i e he
        rcases ih _ h with h1 | ⟨buf, hb, hp⟩
        · rcases List.mem_append.mp h1 with h2 | h2
          · left; exact h2
          · right
            refine ⟨b, List.mem_cons_self _ _, ?_⟩
            rw [List.mem_singleton.mp h2]; exact he
        · right; exact ⟨buf, List.mem_cons_of_mem _ hb, hp⟩

/-- Every slice of a sequence token was accepted by `wrapParseSlice`. -/
theorem parseToken_mem (token : Str) (d : SequenceDesc) (hd : d ∈ wrapParseToken token) :
    ∃ buf, wrapParseSlice buf = some d := by
  unfold wrapParseToken at hd
  split at hd
  · split at hd
    · rename_i slices hs
      rcases parseSliceLoop_mem _ _ _ hs d hd with h | ⟨buf, _, hp⟩
      · simp at h
      · exact ⟨buf, hp⟩
    · simp at hd
  · simp at hd

/-- Every slice of a sequence token has a step that is not zero. -/
theorem parseToken_step_ne_zero (token : Str) (d : SequenceDesc) (hd : d ∈ wrapParseToken token) :
    d.step ≠ 0 := by
  obtain ⟨buf, hb⟩ := parseToken_mem token d hd
  exact parseSlice_step_ne_zero buf d hb

/-! ## Patterns whose tokens all expand to one text -/

/-- The expansion list the constructor of `FileSequence` stores for one token. -/
theorem pathPartsOf_cons (padChar : Char) (token : Str) (tokens : List Str) :
    pathPartsOf padChar (token :: tokens) (wrapParsePatterns (token :: tokens)) =
      match (if (wrapParseToken token).isEmpty then some [token]
          else unpackSequence padChar (wrapParseToken token)),
        pathPartsOf padChar tokens (wrapParsePatterns tokens) with
      | some part, some parts => some (part :: parts)
      | _, _ => none := by
  simp only [wrapParsePatterns, List.map_cons, pathPartsOf]

/-- The expansion lists of a run of tokens followed by more tokens. -/
theorem pathPartsOf_append (padChar : Char) (ts us : List Str) (ps qs : List (List Str))
    (h1 : pathPartsOf padChar ts (wrapParsePatterns ts) = some ps)
    (h2 : pathPartsOf padChar us (wrapParsePatterns us) = some qs) :
    pathPartsOf padChar (ts ++ us) (wrapParsePatterns (ts ++ us)) = some (ps ++ qs) := by
  induction ts generalizing ps with
  | nil =>
    simp only [wrapParsePatterns, List.map_nil, pathPartsOf, Option.some.injEq] at h1
    subst h1
    simpa using h2
  | cons t ts ih =>
    rw [pathPartsOf_cons] at h1
    rw [List.cons_append, pathPartsOf_cons]
    cases hpart : (if (wrapParseToken t).isEmpty then some [t]
        else unpackSequence padChar (wrapParseToken t)) with
    | none => rw [hpart] at h1; simp at h1
    | some part =>
      rw [hpart] at h1
      cases hrest : pathPartsOf padChar ts (wrapParsePatterns ts) with
      | none => rw [hrest] at h1; simp at h1
      | some parts =>
        rw [hrest] at h1
        simp only [Option.some.injEq] at h1
        subst h1
        rw [ih parts hrest]
        rfl

/-- Literal tokens expand to themselves. -/
theorem pathPartsOf_literals (padChar : Char) (ts : List Str)
    (h : ∀ t ∈ ts, wrapParseToken t = []) :
    pathPartsOf padChar ts (wrapParsePatterns ts) = some (ts.map (fun t => [t])) := by
  induction ts with
  | nil => rfl
  | cons t ts ih =>
    rw [pathPartsOf_cons, h t (List.mem_cons_self _ _),
      ih (fun u hu => h u (List.mem_cons_of_mem _ hu))]
    rfl

/-- The product list of one-text lists is the one concatenation. -/
theorem specCartesian_singletons (ts : List Str) :
    specCartesian (ts.map (fun t => [t])) = [ts.flatten] := by
  induction ts with
  | nil => rfl
  | cons t ts ih => simp [specCartesian, ih]

/-- The product list when the first lists hold one text each. -/
theorem specCartesian_singletons_append (ts : List Str) (parts : List (List Str)) :
    specCartesian (ts.map (fun t => [t]) ++ parts)
      = (specCartesian parts).map (fun s => ts.flatten ++ s) := by
  induction ts with
  | nil => simp
  | cons t ts ih => simp [specCartesian, ih]

/-- The product of lengths over an appended list. -/
theorem prodLengths_append (ps qs : List (List Str)) :
    prodLengths (ps ++ qs) = prodLengths ps * prodLengths qs := by
  simp [prodLengths]

/-- One-text lists have product of lengths 1. -/
theorem prodLengths_singletons (ts : List Str) : prodLengths (ts.map (fun t => [t])) = 1 := by
  induction ts with
  | nil => rfl
  | cons t ts ih =>
    simp only [prodLengths, List.map_cons, List.prod_cons, List.length_singleton, Nat.one_mul]
      at ih ⊢
    exact ih

/-- Literal tokens leave the state of the loop of the lazy constructor alone. -/
theorem countStep_foldl_literals (ps : PackedPath) (h : ∀ p ∈ ps, p = []) (st : Nat × Bool) :
    ps.foldl wrapCountStep st = st := by
  induction ps with
  | nil => rfl
  | cons p ps ih =>
    rw [List.foldl_cons, h p (List.mem_cons_self _ _)]
    exact ih (fun q hq => h q (List.mem_cons_of_mem _ hq))

/-- A slice with `beg == end` has cardinality 1. -/
theorem size_single (d : SequenceDesc) (h : d.beg = d.end_) : d.wrapSize = 1 := by
  have hq : d.wrapQuot = 0 := by
    unfold SequenceDesc.wrapQuot
    rw [h, sub_self]
    have : toInt32 0 = 0 := by decide
    rw [this, Int.zero_tdiv, this]
  unfold SequenceDesc.wrapSize SequenceDesc.wrapIsOk
  rw [hq]
  decide

/-- The eager loop over a slice with `beg == end` adds one text when the
increment stays inside `int32_t`. -/
theorem unpackSlice_single (padChar : Char) (d : SequenceDesc) (h : d.beg = d.end_)
    (hs : d.step ≠ 0) (h1 : INT32_MIN ≤ d.beg + d.step) (h2 : d.beg + d.step ≤ INT32_MAX) :
    unpackSlice padChar d loopFuel d.beg = some [writePadded padChar d.beg d.pad] := by
  have hfuel : loopFuel = 4294967295 + 1 + 1 := rfl
  have hin : inBounds d d.beg = true := by
    unfold inBounds
    split <;> simp [h]
  have hout : inBounds d (toInt32 (d.beg + d.step)) = false := by
    rw [toInt32_of_range _ h1 h2]
    unfold inBounds
    split
    · simp only [decide_eq_false_iff_not, not_le]; omega
    · simp only [decide_eq_false_iff_not, not_le]; omega
  rw [hfuel, unpackSlice, if_pos hin, unpackSlice, if_neg (by simp [hout])]

/-- Tokens that each expand to one text give one-text expansion lists. -/
theorem pathPartsOf_singletons (padChar : Char) (ts : List Str)
    (h : ∀ t ∈ ts, ∃ s, (if (wrapParseToken t).isEmpty then some [t]
        else unpackSequence padChar (wrapParseToken t)) = some [s]) :
    ∃ ss : List Str, pathPartsOf padChar ts (wrapParsePatterns ts) = some (ss.map (fun s => [s])) := by
  induction ts with
  | nil => exact ⟨[], rfl⟩
  | cons t ts ih =>
    obtain ⟨ss, hss⟩ := ih (fun u hu => h u (List.mem_cons_of_mem _ hu))
    obtain ⟨s, hs⟩ := h t (List.mem_cons_self _ _)
    refine ⟨s :: ss, ?_⟩
    rw [pathPartsOf_cons, hs, hss]
    rfl

/-- When every token expands to one text the eager expander holds one path
and is not ok. -/
theorem eager_not_ok_of_singletons (pattern delimiters : Str) (padChar : Char)
    (h : ∀ t ∈ splitOriginalPattern pattern (effectiveDelimiters delimiters),
      ∃ s, (if (wrapParseToken t).isEmpty then some [t]
        else unpackSequence padChar (wrapParseToken t)) = some [s]) :
    ∃ s, FileSequence.wrapCtor pattern delimiters padChar = some s ∧ s.isOk = false ∧ s.size = 0 := by
  obtain ⟨ss, hss⟩ := pathPartsOf_singletons padChar _ h
  have hgen : generatePaths (ss.map (fun s => [s])) = some [ss.flatten] := by
    rw [generatePaths_eq_specCartesian _ (by rw [prodLengths_singletons]; decide),
      specCartesian_singletons]
  refine ⟨⟨[ss.flatten]⟩, ?_, rfl, rfl⟩
  unfold FileSequence.wrapCtor
  simp only [hss, hgen]

/-- The flag the lazy constructor stores. -/
theorem lazy_isOk_eq (pattern delimiters : Str) (padChar : Char) :
    (FileSequenceLazy.wrapCtor pattern delimiters padChar).isOk
      = (wrapCountPaths (wrapParsePatterns
          (splitOriginalPattern pattern (effectiveDelimiters delimiters)))).2 := rfl

/-- The size the lazy constructor stores. -/
theorem lazy_size_eq (pattern delimiters : Str) (padChar : Char) :
    (FileSequenceLazy.wrapCtor pattern delimiters padChar).size
      = if (wrapCountPaths (wrapParsePatterns
            (splitOriginalPattern pattern (effectiveDelimiters delimiters)))).2
        then (wrapCountPaths (wrapParsePatterns
            (splitOriginalPattern pattern (effectiveDelimiters delimiters)))).1
        else 0 := rfl

/-- The path the lazy expander builds at an index. -/
theorem lazy_index_eq (pattern delimiters : Str) (padChar : Char) (i : Nat) :
    (FileSequenceLazy.wrapCtor pattern delimiters padChar).wrapIndex i
      = wrapLazyPathOf padChar (splitOriginalPattern pattern (effectiveDelimiters delimiters))
          (wrapParsePatterns (splitOriginalPattern pattern (effectiveDelimiters delimiters))) i
          (FileSequenceLazy.wrapCtor pattern delimiters padChar).size := rfl

/-- When every sequence token has cardinality 1 the lazy expander is not ok. -/
theorem lazy_not_ok_of_card_one (pattern delimiters : Str) (padChar : Char)
    (h : ∀ t ∈ splitOriginalPattern pattern (effectiveDelimiters delimiters),
      wrapParseToken t = [] ∨ wrapSequenceSize (wrapParseToken t) = 1) :
    (FileSequenceLazy.wrapCtor pattern delimiters padChar).isOk = false
      ∧ (FileSequenceLazy.wrapCtor pattern delimiters padChar).size = 0 := by
  have key : ∀ ts : List Str, (∀ t ∈ ts, wrapParseToken t = [] ∨ wrapSequenceSize (wrapParseToken t) = 1) →
      (ts.map wrapParseToken).foldl wrapCountStep (1, false) = (1, false) := by
    intro ts
    induction ts with
    | nil => intro _; rfl
    | cons t ts ih =>
      intro hts
      rw [List.map_cons, List.foldl_cons]
      have hstep : wrapCountStep (1, false) (wrapParseToken t) = (1, false) := by
        rcases hts t (List.mem_cons_self _ _) with h0 | h1
        · rw [h0]; rfl
        · unfold wrapCountStep
          split
          · rfl
          · rw [h1]; rfl
      rw [hstep]
      exact ih (fun u hu => hts u (List.mem_cons_of_mem _ hu))
  have hc := key _ h
  have hc2 : wrapCountPaths (wrapParsePatterns
      (splitOriginalPattern pattern (effectiveDelimiters delimiters))) = (1, false) := hc
  rw [lazy_isOk_eq, lazy_size_eq, hc2]
  exact ⟨rfl, rfl⟩

/-! ## Single-element ranges and literal-only patterns -/

/-- The eager loop never ends on an ascending slice whose `end` is
`INT32_MAX`: every `int32_t` is in bounds. -/
theorem unpackSlice_diverges (padChar : Char) (d : SequenceDesc) (hs : 0 ≤ d.step)
    (he : d.end_ = INT32_MAX) (fuel : Nat) (i : Int) (h1 : INT32_MIN ≤ i) (h2 : i ≤ INT32_MAX) :
    unpackSlice padChar d fuel i = none := by
  induction fuel generalizing i with
  | zero => rfl
  | succ n ih =>
    have hin : inBounds d i = true := by
      unfold inBounds
      rw [if_neg (by omega), he]
      simpa using h2
    rw [unpackSlice, if_pos hin,
      ih _ (toInt32_range _).1 (toInt32_range _).2]

/-- A sequence of one slice whose loop never ends is never unpacked. -/
theorem unpackSequence_single_none (padChar : Char) (d : SequenceDesc)
    (h : unpackSlice padChar d loopFuel d.beg = none) : unpackSequence padChar [d] = none := by
  rw [unpackSequence, h]

/-- The constructor of the eager expander never comes back when its one token
is never unpacked. -/
theorem ctor_none_of_single (pattern delimiters token : Str) (padChar : Char)
    (hsplit : splitOriginalPattern pattern (effectiveDelimiters delimiters) = [token])
    (hne : (wrapParseToken token).isEmpty = false)
    (h : unpackSequence padChar (wrapParseToken token) = none) :
    FileSequence.wrapCtor pattern delimiters padChar = none := by
  have hparts : pathPartsOf padChar [token] (wrapParsePatterns [token]) = none := by
    rw [pathPartsOf_cons, hne, if_neg (by decide), h]
  unfold FileSequence.wrapCtor
  rw [hsplit]
  simp only [hparts]

/-- When every token is a literal or one slice with `beg == end` whose
increment stays inside `int32_t`, both expanders are not ok. -/
theorem not_ok_of_single_elements (pattern delimiters : Str) (padChar : Char)
    (h : ∀ tok ∈ splitOriginalPattern pattern (effectiveDelimiters delimiters),
      wrapParseToken tok = [] ∨ ∃ d, wrapParseToken tok = [d] ∧ d.beg = d.end_
        ∧ INT32_MIN ≤ d.beg + d.step ∧ d.beg + d.step ≤ INT32_MAX) :
    (∃ s, FileSequence.wrapCtor pattern delimiters padChar = some s ∧ s.isOk = false ∧ s.size = 0)
    ∧ (FileSequenceLazy.wrapCtor pattern delimiters padChar).isOk = false
    ∧ (FileSequenceLazy.wrapCtor pattern delimiters padChar).size = 0 := by
  constructor
  · apply eager_not_ok_of_singletons
    intro t ht
    rcases h t ht with h0 | ⟨d, hd, hbe, h1, h2⟩
    · exact ⟨t, by rw [h0]; rfl⟩
    · refine ⟨writePadded padChar d.beg d.pad, ?_⟩
      have hstep : d.step ≠ 0 := parseToken_step_ne_zero t d (by rw [hd]; simp)
      rw [hd]
      simp only [List.isEmpty_cons, Bool.false_eq_true, if_false, unpackSequence]
      rw [unpackSlice_single padChar d hbe hstep h1 h2]
      rfl
  · apply lazy_not_ok_of_card_one
    intro t ht
    rcases h t ht with h0 | ⟨d, hd, hbe, _, _⟩
    · left; exact h0
    · right
      rw [hd]
      simp only [wrapSequenceSize, List.foldl_cons, List.foldl_nil, size_single d hbe]
      rfl

/-! ## A dash that no integer follows -/

/-- A text that starts with a digit converts. -/
theorem strtol_isSome_of_digit (c : Char) (cs : Str) (h : c.isDigit = true) :
    (strtol (c :: cs)).isSome = true := by
  have hsp : isspace c = false := by
    unfold isspace
    unfold Char.isDigit at h
    simp only [Bool.and_eq_true, decide_eq_true_eq] at h
    have h1 := h.1
    simp only [Bool.or_eq_false_iff, decide_eq_false_iff_not]
    refine ⟨⟨⟨⟨⟨?_, ?_⟩, ?_⟩, ?_⟩, ?_⟩, ?_⟩ <;> (intro hc; rw [hc] at h1; revert h1; decide)
  have hsign : readSign (c :: cs) = (false, c :: cs) := by
    unfold Char.isDigit at h
    simp only [Bool.and_eq_true, decide_eq_true_eq] at h
    have h1 := h.1
    unfold readSign
    split
    · rename_i heq
      simp only [List.cons.injEq] at heq
      rw [heq.1] at h1; exact absurd h1 (by decide)
    · rename_i heq
      simp only [List.cons.injEq] at heq
      rw [heq.1] at h1; exact absurd h1 (by decide)
    · rfl
  unfold strtol
  simp only [skipSpace, hsp, Bool.false_eq_true, if_false, hsign, h, if_true, Option.isSome_some]

/-- The digit run holds no dash. -/
theorem readDigits_dashesOk (s : Str) (acc : Nat) (h : dashesOk (readDigits s acc).2 = true) :
    dashesOk s = true := by
  induction s generalizing acc with
  | nil => rfl
  | cons c cs ih =>
    unfold readDigits at h
    split at h
    · rename_i hd
      have hne : (c != '-') = true := by
        simp only [bne_iff_ne, ne_eq]
        intro hc; rw [hc] at hd; revert hd; decide
      simp only [dashesOk, hne, Bool.true_or, Bool.true_and]
      exact ih _ h
    · exact h

/-- Skipped white space holds no dash. -/
theorem skipSpace_dashesOk (s : Str) (h : dashesOk (skipSpace s) = true) :
    dashesOk s = true := by
  induction s with
  | nil => rfl
  | cons c cs ih =>
    unfold skipSpace at h
    split at h
    · rename_i hsp
      have hne : (c != '-') = true := by
        simp only [bne_iff_ne, ne_eq]
        intro hc; rw [hc] at hsp; revert hsp; decide
      simp only [dashesOk, hne, Bool.true_or, Bool.true_and]
      exact ih h
    · exact h

/-- The three ways `strtol` reads a sign. -/
theorem readSign_cases (t : Str) :
    (∃ cs, t = '-' :: cs ∧ readSign t = (true, cs))
    ∨ (∃ cs, t = '+' :: cs ∧ readSign t = (false, cs))
    ∨ readSign t = (false, t) := by
  unfold readSign
  split
  · left; exact ⟨_, rfl, rfl⟩
  · right; left; exact ⟨_, rfl, rfl⟩
  · right; right; rfl

/-- The conversion `strtol` does once white space and sign are read. -/
theorem strtol_eq (s : Str) :
    strtol s =
      match (readSign (skipSpace s)).2 with
      | [] => none
      | c :: cs =>
        if c.isDigit then
          some (clampLong (if (readSign (skipSpace s)).1 then -((readDigits (c :: cs) 0).1 : Int)
            else ((readDigits (c :: cs) 0).1 : Int)), (readDigits (c :: cs) 0).2)
        else none := rfl

/-- What `strtol` reads holds no dash but a sign, which digits follow. -/
theorem strtol_dashesOk (s r : Str) (v : Int) (h : strtol s = some (v, r))
    (hr : dashesOk r = true) : dashesOk s = true := by
  apply skipSpace_dashesOk
  rw [strtol_eq] at h
  generalize skipSpace s = t at h
  have hdigits : ∀ (u : Str) (b : Bool),
      (match u with
        | [] => none
        | c :: cs =>
          if c.isDigit then
            some (clampLong (if b then -((readDigits (c :: cs) 0).1 : Int)
              else ((readDigits (c :: cs) 0).1 : Int)), (readDigits (c :: cs) 0).2)
          else none) = some (v, r) →
      dashesOk u = true ∧ (strtol u).isSome = true := by
    intro u b hu
    cases u with
    | nil => simp at hu
    | cons c cs =>
      simp only at hu
      split at hu
      · rename_i hd
        simp only [Option.some.injEq, Prod.mk.injEq] at hu
        refine ⟨?_, strtol_isSome_of_digit c cs hd⟩
        apply readDigits_dashesOk _ 0
        rw [hu.2]; exact hr
      · simp at hu
  rcases readSign_cases t with ⟨cs, rfl, hs⟩ | ⟨cs, rfl, hs⟩ | hs
  · rw [hs] at h
    have := hdigits cs true h
    simp only [dashesOk, this.1, this.2, Bool.or_true, Bool.and_self]
  · rw [hs] at h
    have := hdigits cs false h
    have hp : (('+' : Char) != '-') = true := by decide
    simp only [dashesOk, this.1, hp, Bool.true_or, Bool.and_self]
  · rw [hs] at h
    exact (hdigits t false h).1

/-- What `parseInteger` reads holds no dash but a sign, which digits follow. -/
theorem parseInteger_dashesOk (s r : Str) (v : Int) (h : parseInteger s = some (v, r))
    (hr : dashesOk r = true) : dashesOk s = true ∧ (strtol s).isSome = true := by
  unfold parseInteger at h
  split at h
  · simp at h
  · rename_i w rest hs
    simp only [Option.some.injEq, Prod.mk.injEq] at h
    refine ⟨strtol_dashesOk s rest w hs (by rw [h.2]; exact hr), ?_⟩
    rw [hs]; rfl

/-- What the padding stage reads holds no dash. -/
theorem parsePatternPad_dashesOk (p : Str) (d : SequenceDesc)
    (h : dashesOk (parsePatternPad p d).2.1 = true) : dashesOk p = true := by
  induction p generalizing d with
  | nil => rfl
  | cons c cs ih =>
    unfold parsePatternPad at h
    by_cases h1 : c = '@'
    · simp only [h1, if_true] at h
      have hne : (('@' : Char) != '-') = true := by decide
      simp only [h1, dashesOk, hne, Bool.true_or, Bool.true_and]
      exact ih _ h
    · by_cases h2 : c = '#'
      · have h3 : ¬ ('#' : Char) = '@' := by decide
        simp only [h2, h3, if_true, if_false] at h
        have hne : (('#' : Char) != '-') = true := by decide
        simp only [h2, dashesOk, hne, Bool.true_or, Bool.true_and]
        exact ih _ h
      · simp only [h1, h2, if_false] at h
        exact h

/-- What the start stage reads holds no dash that no integer follows. -/
theorem parsePatternStart_dashesOk (p p1 : Str) (d d1 : SequenceDesc)
    (h : parsePatternStart p d = some (p1, d1)) (h1 : dashesOk p1 = true) :
    dashesOk p = true := by
  have hint : ∀ (q : Str) (e : SequenceDesc), parseStartInteger q e = some (p1, d1) →
      dashesOk q = true := by
    intro q e he
    unfold parseStartInteger at he
    split at he
    · simp at he
    · rename_i v rest hv
      simp only [Option.some.injEq, Prod.mk.injEq] at he
      exact (parseInteger_dashesOk q rest v hv (by rw [he.1]; exact h1)).1
  cases p with
  | nil => exact hint _ _ (by simpa [parsePatternStart] using h)
  | cons c cs =>
    unfold parsePatternStart at h
    simp only at h
    split at h
    · split at h
      · rename_i hp
        simp only [Option.some.injEq, Prod.mk.injEq] at h
        apply parsePatternPad_dashesOk _ d
        rw [hp]
        simp only
        rw [h.1]; exact h1
      · rename_i hp
        apply parsePatternPad_dashesOk _ d
        rw [hp]
        exact hint _ _ h
    · exact hint _ _ h

/-- What the end stage reads holds no dash that no integer follows. -/
theorem parsePatternEnd_dashesOk (p p1 : Str) (d d1 : SequenceDesc)
    (h : parsePatternEnd p d = some (p1, d1)) (h1 : dashesOk p1 = true) :
    dashesOk p = true := by
  unfold parsePatternEnd at h
  split at h
  · rfl
  · rename_i c cs
    split at h
    · split at h
      · simp at h
      · rename_i v rest hv
        simp only [Option.some.injEq, Prod.mk.injEq] at h
        have := parseInteger_dashesOk cs rest v hv (by rw [h.1]; exact h1)
        simp only [dashesOk, this.1, this.2, Bool.or_true, Bool.and_self]
    · split at h
      · simp at h
      · simp only [Option.some.injEq, Prod.mk.injEq] at h
        rw [h.1]; exact h1

/-- What the step stage reads holds no dash that no integer follows. -/
theorem parsePatternStep_dashesOk (p p1 : Str) (d d1 : SequenceDesc)
    (h : parsePatternStep p d = some (p1, d1)) (h1 : dashesOk p1 = true) :
    dashesOk p = true := by
  unfold parsePatternStep at h
  split at h
  · rfl
  · rename_i c cs
    split at h
    · rename_i hx
      split at h
      · simp at h
      · rename_i v rest hv
        split at h
        · simp at h
        · simp only [Option.some.injEq, Prod.mk.injEq] at h
          have := parseInteger_dashesOk cs rest v hv (by rw [h.1]; exact h1)
          have hne : (('x' : Char) != '-') = true := by decide
          simp only [hx, dashesOk, hne, this.1, Bool.true_or, Bool.and_self]
    · split at h
      · simp at h
      · simp only [Option.some.injEq, Prod.mk.injEq] at h
        rw [h.1]; exact h1

/-- In an accepted alternative an integer follows every dash. -/
theorem parseSlice_dashesOk (buf : Str) (d : SequenceDesc) (h : wrapParseSlice buf = some d) :
    dashesOk buf = true := by
  unfold wrapParseSlice at h
  split at h
  · simp at h
  · rename_i p1 d1 hs1
    split at h
    · simp at h
    · rename_i p2 d2 hs2
      split at h
      · simp at h
      · rename_i p3 d3 hs3
        apply parsePatternStart_dashesOk _ _ _ _ hs1
        apply parsePatternEnd_dashesOk _ _ _ _ hs2
        apply parsePatternStep_dashesOk _ _ _ _ hs3
        apply parsePatternPad_dashesOk _ d3
        split at h
        · simp at h
        · rename_i p4 d4 hs4
          have hp4 : p4 = [] := by
            have : ∀ (q : Str) (e : SequenceDesc), (parsePatternPad q e).1 = true →
                (parsePatternPad q e).2.1 = [] := by
              intro q
              induction q with
              | nil => intro e _; rfl
              | cons c cs ih =>
                intro e he
                unfold parsePatternPad at he ⊢
                by_cases h1 : c = '@'
                · simp only [h1, if_true] at he ⊢
                  exact ih _ he
                · by_cases h2 : c = '#'
                  · have h3 : ¬ ('#' : Char) = '@' := by decide
                    simp only [h2, h3, if_true, if_false] at he ⊢
                    exact ih _ he
                  · simp [h1, h2] at he
            have := this p3 d3 (by rw [hs4])
            rw [hs4] at this
            exact this
          rw [hs4, hp4]
          rfl

/-- When the loop of `wrapParsePatterns` ends well, every alternative was accepted. -/
theorem parseSliceLoop_all (bufs : List Str) (acc slices : PackedSequence)
    (h : wrapParseSliceLoop bufs acc = some slices) (buf : Str) (hb : buf ∈ bufs) :
    ∃ d, wrapParseSlice buf = some d := by
  induction bufs generalizing acc with
  | nil => simp at hb
  | cons b bs ih =>
    unfold wrapParseSliceLoop at h
    split at h
    · simp at h
    · split at h
      · simp at h
      · rename_i e he
        rcases List.mem_cons.mp hb with rfl | hb2
        · exact ⟨e, he⟩
        · exact ih _ h hb2

/-- A text on which `strtol` converts still converts when text is appended. -/
theorem strtol_isSome_append (b t : Str) (h : (strtol b).isSome = true) :
    (strtol (b ++ t)).isSome = true := by
  have hsome : ∀ u : Str, (strtol u).isSome = true →
      ∃ c cs, (readSign (skipSpace u)).2 = c :: cs ∧ c.isDigit = true := by
    intro u hu
    rw [strtol_eq] at hu
    generalize (readSign (skipSpace u)).2 = w at hu
    cases w with
    | nil => simp at hu
    | cons c cs =>
      by_cases hd : c.isDigit = true
      · exact ⟨c, cs, rfl, hd⟩
      · simp [hd] at hu
  have hconv : ∀ u : Str, (∃ c cs, (readSign (skipSpace u)).2 = c :: cs ∧ c.isDigit = true) →
      (strtol u).isSome = true := by
    intro u ⟨c, cs, hu, hd⟩
    rw [strtol_eq, hu]
    simp [hd]
  apply hconv
  obtain ⟨c, cs, hb, hd⟩ := hsome b h
  have hskip : ∀ u : Str, skipSpace u ≠ [] → skipSpace (u ++ t) = skipSpace u ++ t := by
    intro u
    induction u with
    | nil => intro hu; simp [skipSpace] at hu
    | cons x xs ih =>
      intro hu
      simp only [List.cons_append, skipSpace] at hu ⊢
      split
      · rename_i hx
        simp only [hx, if_true] at hu
        exact ih hu
      · rfl
  have hne : skipSpace b ≠ [] := by
    intro hnil
    rw [hnil] at hb
    simp [readSign] at hb
  rw [hskip b hne]
  generalize skipSpace b = w at hb
  rcases readSign_cases w with ⟨ws, rfl, hs⟩ | ⟨ws, rfl, hs⟩ | hs
  · rw [hs] at hb
    simp only at hb
    refine ⟨c, cs ++ t, ?_, hd⟩
    rw [hb]; rfl
  · rw [hs] at hb
    simp only at hb
    refine ⟨c, cs ++ t, ?_, hd⟩
    rw [hb]; rfl
  · rw [hs] at hb
    simp only at hb
    refine ⟨c, cs ++ t, ?_, hd⟩
    rw [hb]
    have h1 : c ≠ '-' := by intro hc; rw [hc] at hd; exact absurd hd (by decide)
    have h2 : c ≠ '+' := by intro hc; rw [hc] at hd; exact absurd hd (by decide)
    unfold readSign
    split
    · rename_i heq; simp only [List.cons_append, List.cons.injEq] at heq; exact absurd heq.1 h1
    · rename_i heq; simp only [List.cons_append, List.cons.injEq] at heq; exact absurd heq.1 h2
    · rfl

/-- No call of `std::getline` gives text unless the stream holds some. -/
theorem getlineAll_eq_nil (s : Str) (h : getlineAll s = []) : s = [] := by
  cases s with
  | nil => rfl
  | cons c cs =>
    unfold getlineAll at h
    split at h
    · simp at h
    · split at h <;> simp at h

/-- The first text `std::getline` gives is a prefix of the stream. -/
theorem getlineAll_head_prefix (s b : Str) (bs : List Str) (h : getlineAll s = b :: bs) :
    ∃ tail, s = b ++ tail := by
  induction s generalizing b bs with
  | nil => simp [getlineAll] at h
  | cons c cs ih =>
    unfold getlineAll at h
    split at h
    · simp only [List.cons.injEq] at h
      exact ⟨c :: cs, by rw [← h.1]; rfl⟩
    · split at h
      · rename_i hnil
        simp only [List.cons.injEq] at h
        refine ⟨[], ?_⟩
        rw [← h.1, getlineAll_eq_nil cs hnil]
        rfl
      · rename_i b2 bs2 hcons
        simp only [List.cons.injEq] at h
        obtain ⟨tail, ht⟩ := ih b2 bs2 hcons
        refine ⟨tail, ?_⟩
        rw [← h.1, ht]
        rfl

/-- When an integer follows every dash of every alternative, one follows
every dash of the token. -/
theorem dashesOk_of_getlineAll (s : Str) (h : ∀ buf ∈ getlineAll s, dashesOk buf = true) :
    dashesOk s = true := by
  induction s with
  | nil => rfl
  | cons c cs ih =>
    unfold getlineAll at h
    split at h
    · rename_i hc
      have hne : ((',' : Char) != '-') = true := by decide
      simp only [hc, dashesOk, hne, Bool.true_or, Bool.true_and]
      exact ih (fun buf hb => h buf (List.mem_cons_of_mem _ hb))
    · split at h
      · rename_i hnil
        have hcs := getlineAll_eq_nil cs hnil
        subst hcs
        exact h [c] (List.mem_singleton.mpr rfl)
      · rename_i b bs hcons
        have hcb := h (c :: b) (List.mem_cons_self _ _)
        simp only [dashesOk, Bool.and_eq_true, Bool.or_eq_true] at hcb
        have hcs : dashesOk cs = true := by
          apply ih
          intro buf hbuf
          rw [hcons] at hbuf
          rcases List.mem_cons.mp hbuf with rfl | hb2
          · exact hcb.2
          · exact h buf (List.mem_cons_of_mem _ hb2)
        obtain ⟨tail, ht⟩ := getlineAll_head_prefix cs b bs hcons
        simp only [dashesOk, hcs, Bool.and_true, Bool.or_eq_true]
        rcases hcb.1 with h1 | h1
        · left; exact h1
        · right
          rw [ht]
          exact strtol_isSome_append b tail h1

/-- A dash that no integer follows fails `dashesOk`. -/
theorem dashesOk_false_of_bad_dash (pre rest : Str) (h : parseInteger rest = none) :
    dashesOk (pre ++ '-' :: rest) = false := by
  have hs : (strtol rest).isSome = false := by
    unfold parseInteger at h
    split at h
    · rename_i hn; rw [hn]; rfl
    · simp at h
  induction pre with
  | nil => simp [dashesOk, hs]
  | cons c cs ih => simp [dashesOk, ih]

/-- A token in which a dash is not followed by an integer stays a literal. -/
theorem parseToken_bad_dash (pre rest : Str) (h : parseInteger rest = none) :
    wrapParseToken (pre ++ '-' :: rest) = [] := by
  unfold wrapParseToken
  split
  · split
    · rename_i slices hs
      have hall : dashesOk (pre ++ '-' :: rest) = true := by
        apply dashesOk_of_getlineAll
        intro buf hbuf
        obtain ⟨d, hd⟩ := parseSliceLoop_all _ _ _ hs buf hbuf
        exact parseSlice_dashesOk buf d hd
      rw [dashesOk_false_of_bad_dash pre rest h] at hall
      simp at hall
    · rfl
  · rfl

/-- When every token is a literal the eager expander holds the pattern itself
as its one path, and both expanders are not ok. -/
theorem not_ok_of_literals (pattern delimiters : Str) (padChar : Char)
    (h : ∀ tok ∈ splitOriginalPattern pattern (effectiveDelimiters delimiters),
      wrapParseToken tok = []) :
    FileSequence.wrapCtor pattern delimiters padChar = some ⟨[pattern]⟩
    ∧ (FileSequenceLazy.wrapCtor pattern delimiters padChar).isOk = false
    ∧ (FileSequenceLazy.wrapCtor pattern delimiters padChar).size = 0 := by
  constructor
  · have hgen : generatePaths ((splitOriginalPattern pattern
        (effectiveDelimiters delimiters)).map (fun t => [t])) = some [pattern] := by
      rw [generatePaths_eq_specCartesian _ (by rw [prodLengths_singletons]; decide),
        specCartesian_singletons, splitOriginalPattern_flatten]
    unfold FileSequence.wrapCtor
    simp only [pathPartsOf_literals padChar _ h, hgen]
  · exact lazy_not_ok_of_card_one pattern delimiters padChar (fun t ht => Or.inl (h t ht))

/-! ## Decimal digits -/

/-- The digits come in front of the accumulator. -/
theorem natDigitsAux_acc (fuel n : Nat) (acc : Str) :
    natDigitsAux fuel n acc = natDigitsAux fuel n [] ++ acc := by
  induction fuel generalizing n acc with
  | zero => rfl
  | succ f ih =>
    unfold natDigitsAux
    split
    · rfl
    · rw [ih (n / 10) (digitChar (n % 10) :: acc), ih (n / 10) [digitChar (n % 10)]]
      simp

/-- Any fuel above the number gives the same digits. -/
theorem natDigitsAux_fuel (f1 f2 n : Nat) (acc : Str) (h1 : n < f1) (h2 : n < f2) :
    natDigitsAux f1 n acc = natDigitsAux f2 n acc := by
  induction f1 generalizing f2 n acc with
  | zero => omega
  | succ f ih =>
    cases f2 with
    | zero => omega
    | succ g =>
      unfold natDigitsAux
      split
      · rfl
      · exact ih g (n / 10) _ (by omega) (by omega)

/-- A number below 10 has one digit. -/
theorem natDigits_lt_ten (n : Nat) (h : n < 10) : natDigits n = [digitChar n] := by
  unfold natDigits natDigitsAux
  rw [if_pos h]

/-- A number from 10 on: the digits of the tenth, then the last digit. -/
theorem natDigits_ge_ten (n : Nat) (h : 10 ≤ n) :
    natDigits n = natDigits (n / 10) ++ [digitChar (n % 10)] := by
  unfold natDigits
  rw [natDigitsAux, if_neg (by omega), natDigitsAux_acc,
    natDigitsAux_fuel n (n / 10 + 1) (n / 10) [] (by omega) (by omega)]

/-- A digit character is a digit. -/
theorem digitChar_isDigit (d : Nat) (h : d < 10) : (digitChar d).isDigit = true := by
  interval_cases d <;> rfl

/-- The value of a digit character. -/
theorem digitVal_digitChar (d : Nat) (h : d < 10) : digitVal (digitChar d) = d := by
  interval_cases d <;> rfl

/-- Every character of the digits is a digit. -/
theorem natDigits_isDigit (n : Nat) : ∀ c ∈ natDigits n, c.isDigit = true := by
  induction n using Nat.strong_induction_on with
  | _ n ih =>
    by_cases h : n < 10
    · rw [natDigits_lt_ten n h]
      intro c hc
      rw [List.mem_singleton.mp hc]
      exact digitChar_isDigit n h
    · rw [natDigits_ge_ten n (by omega)]
      intro c hc
      rcases List.mem_append.mp hc with h1 | h1
      · exact ih (n / 10) (by omega) c h1
      · rw [List.mem_singleton.mp h1]
        exact digitChar_isDigit _ (Nat.mod_lt _ (by decide))

/-- The digits are not empty. -/
theorem natDigits_ne_nil (n : Nat) : natDigits n ≠ [] := by
  by_cases h : n < 10
  · rw [natDigits_lt_ten n h]; simp
  · rw [natDigits_ge_ten n (by omega)]; simp

/-- Reading the digits back gives the number. -/
theorem natDigits_foldl (n : Nat) :
    (natDigits n).foldl (fun a c => a * 10 + digitVal c) 0 = n := by
  induction n using Nat.strong_induction_on with
  | _ n ih =>
    by_cases h : n < 10
    · rw [natDigits_lt_ten n h]
      simp [digitVal_digitChar n h]
    · rw [natDigits_ge_ten n (by omega), List.foldl_append, ih (n / 10) (by omega)]
      simp only [List.foldl_cons, List.foldl_nil,
        digitVal_digitChar _ (Nat.mod_lt n (by decide : 0 < 10))]
      omega

/-- A number below `10 ^ p` has at most `p` digits. -/
theorem natDigits_length_le (p n : Nat) (hp : 1 ≤ p) (h : n < 10 ^ p) :
    (natDigits n).length ≤ p := by
  induction p generalizing n with
  | zero => omega
  | succ q ih =>
    by_cases h10 : n < 10
    · rw [natDigits_lt_ten n h10]; simp
    · rw [natDigits_ge_ten n (by omega)]
      have hq : 1 ≤ q := by
        rcases Nat.eq_zero_or_pos q with h0 | h0
        · rw [h0] at h; simp at h; omega
        · exact h0
      have hdiv : n / 10 < 10 ^ q := by
        rw [Nat.div_lt_iff_lt_mul (by decide)]
        rw [pow_succ] at h
        exact h
      have := ih (n / 10) hq hdiv
      simp only [List.length_append, List.length_singleton]
      omega

/-- The digit run `strtol` reads ends where the digits end. -/
theorem readDigits_append (ds rest : Str) (acc : Nat) (hds : ∀ c ∈ ds, c.isDigit = true)
    (hrest : ∀ c cs, rest = c :: cs → c.isDigit = false) :
    readDigits (ds ++ rest) acc = (ds.foldl (fun a c => a * 10 + digitVal c) acc, rest) := by
  induction ds generalizing acc with
  | nil =>
    cases rest with
    | nil => rfl
    | cons c cs =>
      simp only [List.nil_append, readDigits, hrest c cs rfl, Bool.false_eq_true, if_false,
        List.foldl_nil]
  | cons d ds ih =>
    simp only [List.cons_append, readDigits, hds d (List.mem_cons_self _ _), if_true,
      List.foldl_cons]
    exact ih _ (fun c hc => hds c (List.mem_cons_of_mem _ hc))

/-! ## Parsing the decimal text of an integer -/

/-- The conversion of `strtol` once white space and sign are read and a digit
run follows. -/
theorem strtol_of_digits (s ds rest : Str) (neg : Bool)
    (hsign : readSign (skipSpace s) = (neg, ds ++ rest)) (hne : ds ≠ [])
    (hds : ∀ c ∈ ds, c.isDigit = true) (hrest : ∀ c cs, rest = c :: cs → c.isDigit = false) :
    strtol s = some (clampLong (if neg then
        -((ds.foldl (fun a c => a * 10 + digitVal c) 0 : Nat) : Int)
      else ((ds.foldl (fun a c => a * 10 + digitVal c) 0 : Nat) : Int)), rest) := by
  rw [strtol_eq, hsign]
  cases ds with
  | nil => exact absurd rfl hne
  | cons d ds =>
    have hd : d.isDigit = true := hds d (List.mem_cons_self _ _)
    have hread := readDigits_append (d :: ds) rest 0 hds hrest
    simp only [List.cons_append] at hread ⊢
    simp only [hd, if_true, hread]

/-- A digit is no white space. -/
theorem isspace_of_isDigit (c : Char) (h : c.isDigit = true) : isspace c = false := by
  unfold isspace
  unfold Char.isDigit at h
  simp only [Bool.and_eq_true, decide_eq_true_eq] at h
  have h1 := h.1
  simp only [Bool.or_eq_false_iff, decide_eq_false_iff_not]
  refine ⟨⟨⟨⟨⟨?_, ?_⟩, ?_⟩, ?_⟩, ?_⟩, ?_⟩ <;> (intro hc; rw [hc] at h1; exact absurd h1 (by decide))

/-- No sign is read in front of a digit. -/
theorem readSign_of_isDigit (c : Char) (cs : Str) (h : c.isDigit = true) :
    readSign (c :: cs) = (false, c :: cs) := by
  have h1 : c ≠ '-' := by intro hc; rw [hc] at h; exact absurd h (by decide)
  have h2 : c ≠ '+' := by intro hc; rw [hc] at h; exact absurd h (by decide)
  unfold readSign
  split
  · rename_i heq; simp only [List.cons.injEq] at heq; exact absurd heq.1 h1
  · rename_i heq; simp only [List.cons.injEq] at heq; exact absurd heq.1 h2
  · rfl

/-- `parseInteger` on the decimal text of an `int32_t` followed by text that
starts with no digit: the value, and the cursor on that text. -/
theorem parseInteger_intDigits (v : Int) (rest : Str) (h1 : INT32_MIN ≤ v) (h2 : v ≤ INT32_MAX)
    (hrest : ∀ c cs, rest = c :: cs → c.isDigit = false) :
    parseInteger (intDigits v ++ rest) = some (v, rest) := by
  have hval := natDigits_foldl v.natAbs
  have hdig := natDigits_isDigit v.natAbs
  have hne := natDigits_ne_nil v.natAbs
  unfold INT32_MIN at h1
  unfold INT32_MAX at h2
  have hst : strtol (intDigits v ++ rest) = some (v, rest) := by
    by_cases hneg : v < 0
    · have hs : readSign (skipSpace (intDigits v ++ rest)) = (true, natDigits v.natAbs ++ rest) := by
        unfold intDigits
        rw [if_pos hneg]
        rfl
      rw [strtol_of_digits _ _ _ _ hs hne hdig hrest, hval]
      simp only [if_true]
      have : -((v.natAbs : Nat) : Int) = v := by omega
      rw [this]
      unfold clampLong
      rw [if_neg (by omega), if_neg (by omega)]
    · have hs : readSign (skipSpace (intDigits v ++ rest))
          = (false, natDigits v.natAbs ++ rest) := by
        unfold intDigits
        rw [if_neg hneg]
        cases hnd : natDigits v.natAbs with
        | nil => exact absurd hnd hne
        | cons d ds =>
          have hd : d.isDigit = true := hdig d (by rw [hnd]; exact List.mem_cons_self _ _)
          simp only [List.cons_append, skipSpace, isspace_of_isDigit d hd, Bool.false_eq_true,
            if_false]
          exact readSign_of_isDigit d _ hd
      rw [strtol_of_digits _ _ _ _ hs hne hdig hrest, hval]
      simp only [Bool.false_eq_true, if_false]
      have : ((v.natAbs : Nat) : Int) = v := by omega
      rw [this]
      unfold clampLong
      rw [if_neg (by omega), if_neg (by omega)]
  unfold parseInteger
  rw [hst]
  simp only
  rw [toInt32_of_range v (by unfold INT32_MIN; exact h1) (by unfold INT32_MAX; exact h2)]

/-- The decimal text of an integer is made of sequence-charset characters. -/
theorem intDigits_charset (v : Int) :
    ∀ c ∈ intDigits v, (c = '-' ∨ c.isDigit = true) := by
  intro c hc
  unfold intDigits at hc
  split at hc
  · rcases List.mem_cons.mp hc with h | h
    · left; exact h
    · right; exact natDigits_isDigit _ c h
  · right; exact natDigits_isDigit _ c hc

/-- The decimal text of an integer is not empty and starts with no pad character. -/
theorem intDigits_head (v : Int) :
    ∃ c cs, intDigits v = c :: cs ∧ c ≠ '#' ∧ c ≠ '@' := by
  have hne := natDigits_ne_nil v.natAbs
  have hdig := natDigits_isDigit v.natAbs
  unfold intDigits
  split
  · exact ⟨'-', _, rfl, by decide, by decide⟩
  · cases hnd : natDigits v.natAbs with
    | nil => exact absurd hnd hne
    | cons d ds =>
      have hd : d.isDigit = true := hdig d (by rw [hnd]; exact List.mem_cons_self _ _)
      refine ⟨d, ds, rfl, ?_, ?_⟩
      · intro hc; rw [hc] at hd; exact absurd hd (by decide)
      · intro hc; rw [hc] at hd; exact absurd hd (by decide)

/-! ## Pad runs -/

/-- The padding stage reads a whole pad run and adds its width modulo 256. -/
theorem parsePatternPad_run (run : Str) (d : SequenceDesc) (hd : d.pad < 256)
    (h : ∀ c ∈ run, c = '@' ∨ c = '#') :
    parsePatternPad run d
      = (true, [], ⟨d.beg, d.end_, d.step, (d.pad + specPadWidth run) % 256⟩) := by
  induction run generalizing d with
  | nil =>
    simp only [parsePatternPad, specPadWidth, Nat.add_zero, Nat.mod_eq_of_lt hd]
  | cons c cs ih =>
    have hcs : ∀ x ∈ cs, x = '@' ∨ x = '#' := fun x hx => h x (List.mem_cons_of_mem _ hx)
    rcases h c (List.mem_cons_self _ _) with hc | hc
    · subst hc
      rw [parsePatternPad, if_pos rfl, ih _ (Nat.mod_lt _ (by decide)) hcs]
      simp only [specPadWidth, if_true, Prod.mk.injEq, SequenceDesc.mk.injEq, true_and]
      omega
    · subst hc
      rw [parsePatternPad, if_neg (by decide), if_pos rfl, ih _ (Nat.mod_lt _ (by decide)) hcs]
      have h3 : ¬ ('#' : Char) = '@' := by decide
      simp only [specPadWidth, h3, if_false, if_true, Prod.mk.injEq, SequenceDesc.mk.injEq,
        true_and]
      omega

/-- A stream with no comma gives its whole text at the first `std::getline`. -/
theorem getlineAll_no_comma (s : Str) (hne : s ≠ []) (h : ∀ c ∈ s, c ≠ ',') :
    getlineAll s = [s] := by
  induction s with
  | nil => exact absurd rfl hne
  | cons c cs ih =>
    have hc : c ≠ ',' := h c (List.mem_cons_self _ _)
    rw [getlineAll, if_neg hc]
    cases cs with
    | nil => rfl
    | cons x xs =>
      rw [ih (by simp) (fun y hy => h y (List.mem_cons_of_mem _ hy))]

/-- A token of one accepted alternative is a sequence token of that slice. -/
theorem parseToken_single (token : Str) (d : SequenceDesc)
    (hcs : checkPatternCharset token = true) (hne : token ≠ [])
    (hnc : ∀ c ∈ token, c ≠ ',') (hp : wrapParseSlice token = some d) :
    wrapParseToken token = [d] := by
  unfold wrapParseToken
  rw [if_pos hcs, getlineAll_no_comma token hne hnc]
  simp only [wrapParseSliceLoop, hne, if_false, hp, List.nil_append]

/-- The slice parser on an alternative that is a pad run: begin 0, the pad of
the run modulo 256, `end` from `std::pow`, step 1. -/
theorem parseSlice_pad_run (buf : Str) (hne : buf ≠ []) (h : ∀ c ∈ buf, c = '@' ∨ c = '#') :
    wrapParseSlice buf =
      if (SequenceDesc.mk 0 (powTenMinusOne (specPadWidth buf % 256)) 1
          (specPadWidth buf % 256)).wrapIsOk
      then some ⟨0, powTenMinusOne (specPadWidth buf % 256), 1, specPadWidth buf % 256⟩
      else none := by
  have hstart : parsePatternStart buf ⟨0, 0, 1, 0⟩
      = some ([], ⟨0, powTenMinusOne (specPadWidth buf % 256), 1, specPadWidth buf % 256⟩) := by
    have hrun := parsePatternPad_run buf ⟨0, 0, 1, 0⟩ (by decide) h
    simp only [Nat.zero_add] at hrun
    cases buf with
    | nil => exact absurd rfl hne
    | cons c cs =>
      have hc : (decide (c = '#') || decide (c = '@')) = true := by
        rcases h c (List.mem_cons_self _ _) with hc | hc <;> simp [hc]
      unfold parsePatternStart
      simp only [hc, if_true, hrun]
  unfold wrapParseSlice
  rw [hstart]
  simp only [parsePatternEnd, parsePatternStep, parsePatternPad]

/-! ## What the two expanders enumerate for one slice -/

/-- The eager loop on an ascending slice: the `m` values `i`, `i + step`, ...
that stay at or below `end`, when the first value past `end` fits `int32_t`. -/
theorem unpackSlice_ascending (padChar : Char) (d : SequenceDesc) (hstep : 0 < d.step)
    (m fuel : Nat) (i : Int) (hf : m < fuel)
    (hin : ∀ k : Nat, k < m → i + (k : Int) * d.step ≤ d.end_)
    (hout : d.end_ < i + (m : Int) * d.step)
    (hlo : INT32_MIN ≤ i) (hhi : i + (m : Int) * d.step ≤ INT32_MAX) :
    unpackSlice padChar d fuel i
      = some ((List.range m).map (fun (k : Nat) => writePadded padChar (i + (k : Int) * d.step) d.pad)) := by
  induction m generalizing fuel i with
  | zero =>
    cases fuel with
    | zero => omega
    | succ f =>
      have hb : inBounds d i = false := by
        unfold inBounds
        rw [if_neg (by omega)]
        simp only [Nat.cast_zero, zero_mul, add_zero] at hout
        simpa using hout
      rw [unpackSlice, if_neg (by simp [hb])]
      rfl
  | succ m ih =>
    cases fuel with
    | zero => omega
    | succ f =>
      have h0 := hin 0 (Nat.succ_pos m)
      simp only [Nat.cast_zero, zero_mul, add_zero] at h0
      have hb : inBounds d i = true := by
        unfold inBounds
        rw [if_neg (by omega)]
        simpa using h0
      have hm : (0 : Int) ≤ (m : Int) * d.step :=
        mul_nonneg (Int.ofNat_nonneg m) (le_of_lt hstep)
      have hcast : ((m + 1 : Nat) : Int) * d.step = (m : Int) * d.step + d.step := by
        push_cast; ring
      rw [hcast] at hout hhi
      have hnext : toInt32 (i + d.step) = i + d.step :=
        toInt32_of_range _ (by linarith) (by linarith)
      have hrec := ih f (i + d.step) (by omega)
        (by
          intro k hk
          have := hin (k + 1) (Nat.succ_lt_succ hk)
          have hc : ((k + 1 : Nat) : Int) * d.step = (k : Int) * d.step + d.step := by
            push_cast; ring
          rw [hc] at this
          linarith)
        (by linarith) (by linarith) (by linarith)
      rw [unpackSlice, if_pos hb, hnext, hrec, List.range_succ_eq_map]
      simp only [List.map_cons, List.map_map, Nat.cast_zero, zero_mul, add_zero,
        Option.some.injEq, List.cons.injEq, true_and]
      apply List.map_congr_left
      intro k _
      simp only [Function.comp_apply]
      congr 1
      push_cast
      ring

/-- The eager loop on a descending slice: the `m` values `i`, `i + step`, ...
that stay at or above `end`, when the first value past `end` fits `int32_t`. -/
theorem unpackSlice_descending (padChar : Char) (d : SequenceDesc) (hstep : d.step < 0)
    (m fuel : Nat) (i : Int) (hf : m < fuel)
    (hin : ∀ k : Nat, k < m → d.end_ ≤ i + (k : Int) * d.step)
    (hout : i + (m : Int) * d.step < d.end_)
    (hhi : i ≤ INT32_MAX) (hlo : INT32_MIN ≤ i + (m : Int) * d.step) :
    unpackSlice padChar d fuel i
      = some ((List.range m).map (fun (k : Nat) => writePadded padChar (i + (k : Int) * d.step) d.pad)) := by
  induction m generalizing fuel i with
  | zero =>
    cases fuel with
    | zero => omega
    | succ f =>
      have hb : inBounds d i = false := by
        unfold inBounds
        rw [if_pos hstep]
        simp only [Nat.cast_zero, zero_mul, add_zero] at hout
        simpa using hout
      rw [unpackSlice, if_neg (by simp [hb])]
      rfl
  | succ m ih =>
    cases fuel with
    | zero => omega
    | succ f =>
      have h0 := hin 0 (Nat.succ_pos m)
      simp only [Nat.cast_zero, zero_mul, add_zero] at h0
      have hb : inBounds d i = true := by
        unfold inBounds
        rw [if_pos hstep]
        simpa using h0
      have hm : (m : Int) * d.step ≤ 0 :=
        mul_nonpos_of_nonneg_of_nonpos (Int.ofNat_nonneg m) (le_of_lt hstep)
      have hcast : ((m + 1 : Nat) : Int) * d.step = (m : Int) * d.step + d.step := by
        push_cast; ring
      rw [hcast] at hout hlo
      have hnext : toInt32 (i + d.step) = i + d.step :=
        toInt32_of_range _ (by linarith) (by linarith)
      have hrec := ih f (i + d.step) (by omega)
        (by
          intro k hk
          have := hin (k + 1) (Nat.succ_lt_succ hk)
          have hc : ((k + 1 : Nat) : Int) * d.step = (k : Int) * d.step + d.step := by
            push_cast; ring
          rw [hc] at this
          linarith)
        (by linarith) (by linarith) (by linarith)
      rw [unpackSlice, if_pos hb, hnext, hrec, List.range_succ_eq_map]
      simp only [List.map_cons, List.map_map, Nat.cast_zero, zero_mul, add_zero,
        Option.some.injEq, List.cons.injEq, true_and]
      apply List.map_congr_left
      intro k _
      simp only [Function.comp_apply]
      congr 1
      push_cast
      ring

/-- The eager expansion list of a sequence of one slice. -/
theorem unpackSequence_single (padChar : Char) (d : SequenceDesc) (vals : List Str)
    (h : unpackSlice padChar d loopFuel d.beg = some vals) :
    unpackSequence padChar [d] = some vals := by
  rw [unpackSequence, h]
  simp [unpackSequence]

/-- The lazy text for a branch inside a sequence of one slice. -/
theorem unpackSequenceLazy_single (padChar : Char) (d : SequenceDesc) (k : Nat)
    (hk : k < d.wrapSize) (h1 : INT32_MIN ≤ d.beg + d.step * (k : Int))
    (h2 : d.beg + d.step * (k : Int) ≤ INT32_MAX) :
    wrapUnpackSequenceLazy padChar [d] k
      = writePadded padChar (d.beg + (k : Int) * d.step) d.pad := by
  rw [wrapUnpackSequenceLazy, if_pos hk, toInt32_of_range _ h1 h2, mul_comm]

/-- The cardinality of a sequence of one slice. -/
theorem sequenceSize_single (d : SequenceDesc) (h : d.wrapSize < SIZE_MOD) :
    wrapSequenceSize [d] = d.wrapSize := by
  simp only [wrapSequenceSize, List.foldl_cons, List.foldl_nil, Nat.zero_add, Nat.mod_eq_of_lt h]

/-- An ascending slice on which nothing leaves `int32_t` (the span, the
cardinality and the first value past `end`): its cardinality, what the eager
loop adds, and what the lazy expander writes for each branch. -/
theorem slice_ascending (padChar : Char) (d : SequenceDesc) (hstep : 0 < d.step)
    (hbe : d.beg ≤ d.end_) (hlo : INT32_MIN ≤ d.beg)
    (hspan : d.end_ - d.beg ≤ INT32_MAX) (hcount : (d.end_ - d.beg) / d.step < INT32_MAX)
    (hpast : d.beg + ((d.end_ - d.beg) / d.step + 1) * d.step ≤ INT32_MAX) :
    d.wrapSize = ((d.end_ - d.beg) / d.step).toNat + 1
    ∧ unpackSlice padChar d loopFuel d.beg
        = some ((List.range (((d.end_ - d.beg) / d.step).toNat + 1)).map
            (fun (k : Nat) => writePadded padChar (d.beg + (k : Int) * d.step) d.pad))
    ∧ ∀ k : Nat, k < ((d.end_ - d.beg) / d.step).toNat + 1 →
        wrapUnpackSequenceLazy padChar [d] k
          = writePadded padChar (d.beg + (k : Int) * d.step) d.pad := by
  have hx : 0 ≤ d.end_ - d.beg := by linarith
  have hq0 : 0 ≤ (d.end_ - d.beg) / d.step := Int.ediv_nonneg hx (le_of_lt hstep)
  have hqle : (d.end_ - d.beg) / d.step ≤ d.end_ - d.beg := Int.ediv_le_self _ hx
  have hqmul : (d.end_ - d.beg) / d.step * d.step ≤ d.end_ - d.beg :=
    Int.ediv_mul_le _ (ne_of_gt hstep)
  have hqlt : d.end_ - d.beg < ((d.end_ - d.beg) / d.step + 1) * d.step :=
    Int.lt_ediv_add_one_mul_self _ hstep
  have hcast : (((d.end_ - d.beg) / d.step).toNat : Int) = (d.end_ - d.beg) / d.step :=
    Int.toNat_of_nonneg hq0
  generalize hq : (d.end_ - d.beg) / d.step = q at hq0 hqle hqmul hqlt hcast hcount hpast
  have hmin : INT32_MIN = -2147483648 := rfl
  have hmax : INT32_MAX = 2147483647 := rfl
  have hquot : d.wrapQuot = q := by
    unfold SequenceDesc.wrapQuot
    rw [toInt32_of_range (d.end_ - d.beg) (by linarith) (by linarith),
      Int.tdiv_eq_ediv hx (le_of_lt hstep), hq, toInt32_of_range q (by linarith) (by linarith)]
  have hsize : d.wrapSize = q.toNat + 1 := by
    unfold SequenceDesc.wrapSize SequenceDesc.wrapIsOk
    rw [hquot, if_pos (by simpa using hq0), toInt32_of_range _ (by linarith) (by linarith)]
    unfold toSizeT SIZE_MOD
    omega
  have hkmul : ∀ k : Nat, k < q.toNat + 1 → (k : Int) * d.step ≤ q * d.step := by
    intro k hk
    have : (k : Int) ≤ q := by omega
    exact mul_le_mul_of_nonneg_right this (le_of_lt hstep)
  have hknn : ∀ k : Nat, (0 : Int) ≤ (k : Int) * d.step :=
    fun k => mul_nonneg (Int.ofNat_nonneg k) (le_of_lt hstep)
  have hlast : ((q.toNat + 1 : Nat) : Int) * d.step = (q + 1) * d.step := by
    push_cast; rw [hcast]
  have hexp : (q + 1) * d.step = q * d.step + d.step := by ring
  refine ⟨hsize, ?_, ?_⟩
  · apply unpackSlice_ascending padChar d hstep
    · unfold loopFuel; omega
    · intro k hk
      have := hkmul k hk
      linarith
    · rw [hlast]; linarith
    · exact hlo
    · rw [hlast]; linarith
  · intro k hk
    apply unpackSequenceLazy_single
    · rw [hsize]; exact hk
    · have := hknn k
      rw [mul_comm]; linarith
    · have := hkmul k hk
      rw [mul_comm]; linarith

/-- A descending slice on which nothing leaves `int32_t` (the span, the
cardinality and the first value past `end`): its cardinality, what the eager
loop adds, and what the lazy expander writes for each branch. -/
theorem slice_descending (padChar : Char) (d : SequenceDesc) (hstep : d.step < 0)
    (hbe : d.end_ ≤ d.beg) (hhi : d.beg ≤ INT32_MAX)
    (hspan : INT32_MIN ≤ d.end_ - d.beg) (hcount : (d.beg - d.end_) / (-d.step) < INT32_MAX)
    (hpast : INT32_MIN ≤ d.beg + ((d.beg - d.end_) / (-d.step) + 1) * d.step) :
    d.wrapSize = ((d.beg - d.end_) / (-d.step)).toNat + 1
    ∧ unpackSlice padChar d loopFuel d.beg
        = some ((List.range (((d.beg - d.end_) / (-d.step)).toNat + 1)).map
            (fun (k : Nat) => writePadded padChar (d.beg + (k : Int) * d.step) d.pad))
    ∧ ∀ k : Nat, k < ((d.beg - d.end_) / (-d.step)).toNat + 1 →
        wrapUnpackSequenceLazy padChar [d] k
          = writePadded padChar (d.beg + (k : Int) * d.step) d.pad := by
  have hs : 0 < -d.step := by linarith
  have hx : 0 ≤ d.beg - d.end_ := by linarith
  have hq0 : 0 ≤ (d.beg - d.end_) / (-d.step) := Int.ediv_nonneg hx (le_of_lt hs)
  have hqle : (d.beg - d.end_) / (-d.step) ≤ d.beg - d.end_ := Int.ediv_le_self _ hx
  have hqmul : (d.beg - d.end_) / (-d.step) * (-d.step) ≤ d.beg - d.end_ :=
    Int.ediv_mul_le _ (ne_of_gt hs)
  have hqlt : d.beg - d.end_ < ((d.beg - d.end_) / (-d.step) + 1) * (-d.step) :=
    Int.lt_ediv_add_one_mul_self _ hs
  have hcast : (((d.beg - d.end_) / (-d.step)).toNat : Int) = (d.beg - d.end_) / (-d.step) :=
    Int.toNat_of_nonneg hq0
  have htdiv : Int.tdiv (d.end_ - d.beg) d.step = (d.beg - d.end_) / (-d.step) := by
    have e1 : d.end_ - d.beg = -(d.beg - d.end_) := by ring
    have e2 : d.step = -(-d.step) := by ring
    rw [e1, Int.neg_tdiv]
    conv_lhs => rw [e2, Int.tdiv_neg]
    rw [neg_neg, Int.tdiv_eq_ediv hx (le_of_lt hs)]
  generalize hq : (d.beg - d.end_) / (-d.step) = q
    at hq0 hqle hqmul hqlt hcast htdiv hcount hpast
  have hmin : INT32_MIN = -2147483648 := rfl
  have hmax : INT32_MAX = 2147483647 := rfl
  have hquot : d.wrapQuot = q := by
    unfold SequenceDesc.wrapQuot
    rw [toInt32_of_range (d.end_ - d.beg) (by linarith) (by linarith), htdiv,
      toInt32_of_range q (by linarith) (by linarith)]
  have hsize : d.wrapSize = q.toNat + 1 := by
    unfold SequenceDesc.wrapSize SequenceDesc.wrapIsOk
    rw [hquot, if_pos (by simpa using hq0), toInt32_of_range _ (by linarith) (by linarith)]
    unfold toSizeT SIZE_MOD
    omega
  have hkmul : ∀ k : Nat, k < q.toNat + 1 → q * d.step ≤ (k : Int) * d.step := by
    intro k hk
    have : (k : Int) ≤ q := by omega
    exact mul_le_mul_of_nonpos_right this (le_of_lt hstep)
  have hknn : ∀ k : Nat, (k : Int) * d.step ≤ 0 :=
    fun k => mul_nonpos_of_nonneg_of_nonpos (Int.ofNat_nonneg k) (le_of_lt hstep)
  have hlast : ((q.toNat + 1 : Nat) : Int) * d.step = (q + 1) * d.step := by
    push_cast; rw [hcast]
  have hexp : (q + 1) * d.step = q * d.step + d.step := by ring
  have hneg1 : q * -d.step = -(q * d.step) := by ring
  have hneg2 : (q + 1) * -d.step = -(q * d.step) - d.step := by ring
  rw [hneg1] at hqmul
  rw [hneg2] at hqlt
  refine ⟨hsize, ?_, ?_⟩
  · apply unpackSlice_descending padChar d hstep
    · unfold loopFuel; omega
    · intro k hk
      have := hkmul k hk
      linarith
    · rw [hlast]; linarith
    · exact hhi
    · rw [hlast]; linarith
  · intro k hk
    apply unpackSequenceLazy_single
    · rw [hsize]; exact hk
    · have := hkmul k hk
      rw [mul_comm]; linarith
    · have := hknn k
      rw [mul_comm]; linarith

/-! ## The padding-only shorthand -/

/-- A non-negative value below `10 ^ p` is written on exactly `p` characters. -/
theorem writePadded_length (padChar : Char) (p v : Nat) (hp : 1 ≤ p) (hv : v < 10 ^ p) :
    (writePadded padChar (v : Int) p).length = p := by
  have hlen := natDigits_length_le p v hp hv
  unfold writePadded
  rw [if_neg (by omega)]
  simp only [Int.natAbs_ofNat, List.length_append, List.length_replicate]
  omega

/-- A pad run is made of sequence-charset characters. -/
theorem checkPatternCharset_pad_run (run : Str) (h : ∀ c ∈ run, c = '@' ∨ c = '#') :
    checkPatternCharset run = true := by
  unfold checkPatternCharset
  rw [List.all_eq_true]
  intro c hc
  rcases h c hc with h1 | h1 <;> simp [h1]

/-- On the wrapping quotient: for every token that consists only of a pad run of `@` (width 1 each)
and `#` (width 4 each) with total width `p`, `1 <= p <= 9`, the token parses to
the one slice with begin 0, end `10^p - 1`, step 1 and pad `p`; the eager
expander unpacks it to the `10^p` values `0 .. 10^p - 1` in ascending order,
the lazy expander counts `10^p` values and writes the same text for each, and
each text has exactly `p` characters. -/
theorem pad_only_token_wrap (token : Str) (padChar : Char) (p : Nat)
    (hpad : ∀ c ∈ token, c = '@' ∨ c = '#') (hw : specPadWidth token = p)
    (h1 : 1 ≤ p) (h9 : p ≤ 9) :
    wrapParseToken token = [⟨0, (10 : Int) ^ p - 1, 1, p⟩]
    ∧ unpackSequence padChar (wrapParseToken token)
        = some ((List.range (10 ^ p)).map (fun (v : Nat) => writePadded padChar (v : Int) p))
    ∧ wrapSequenceSize (wrapParseToken token) = 10 ^ p
    ∧ (∀ v : Nat, v < 10 ^ p →
        wrapUnpackSequenceLazy padChar (wrapParseToken token) v = writePadded padChar (v : Int) p)
    ∧ (∀ v : Nat, v < 10 ^ p → (writePadded padChar (v : Int) p).length = p) := by
  have hne : token ≠ [] := by
    intro hnil
    rw [hnil] at hw
    simp only [specPadWidth] at hw
    omega
  have hpowN : 10 ^ p ≤ 10 ^ 9 := Nat.pow_le_pow_right (by decide) h9
  have hpowN1 : 1 ≤ 10 ^ p := Nat.one_le_pow _ _ (by decide)
  have hcastp : ((10 ^ p : Nat) : Int) = (10 : Int) ^ p := by push_cast; rfl
  have hmod : p % 256 = p := Nat.mod_eq_of_lt (by omega)
  have hmin : INT32_MIN = -2147483648 := rfl
  have hmax : INT32_MAX = 2147483647 := rfl
  have hend : powTenMinusOne p = (10 : Int) ^ p - 1 := by
    unfold powTenMinusOne
    rw [if_pos (by rw [← hcastp, hmax]; omega)]
  obtain ⟨hsize, heager, hlazy⟩ := slice_ascending padChar ⟨0, (10 : Int) ^ p - 1, 1, p⟩
    (by simp only; omega) (by simp only; rw [← hcastp]; omega) (by simp only; rw [hmin]; omega)
    (by simp only; rw [← hcastp, hmax]; omega)
    (by simp only [Int.ediv_one]; rw [← hcastp, hmax]; omega)
    (by simp only [Int.ediv_one]; rw [← hcastp, hmax]; omega)
  have hcount : (((10 : Int) ^ p - 1 - 0) / 1).toNat + 1 = 10 ^ p := by
    rw [← hcastp]
    omega
  simp only [hcount, mul_one, zero_add] at hsize heager hlazy
  have hok : (SequenceDesc.mk 0 ((10 : Int) ^ p - 1) 1 p).wrapIsOk = true := by
    by_contra hno
    unfold SequenceDesc.wrapSize at hsize
    rw [if_neg hno] at hsize
    omega
  have hparse : wrapParseToken token = [⟨0, (10 : Int) ^ p - 1, 1, p⟩] := by
    apply parseToken_single token _ (checkPatternCharset_pad_run token hpad) hne
    · intro c hc
      rcases hpad c hc with h | h <;> (rw [h]; decide)
    · rw [parseSlice_pad_run token hne hpad, hw, hmod, hend, if_pos hok]
  refine ⟨hparse, ?_, ?_, ?_, ?_⟩
  · rw [hparse]
    exact unpackSequence_single padChar _ _ heager
  · rw [hparse, sequenceSize_single _ (by rw [hsize]; unfold SIZE_MOD; omega), hsize]
  · intro v hv
    rw [hparse]
    exact hlazy v hv
  · intro v hv
    exact writePadded_length padChar p v h1 hv

/-! ## Parsing a range token -/

/-- The start and end stages on `B-E` followed by text that starts with no
digit: begin `B`, end `E`, step -1 when the range descends, the cursor on the
text that follows. -/
theorem parse_start_end (B E : Int) (tail : Str)
    (hB1 : INT32_MIN ≤ B) (hB2 : B ≤ INT32_MAX) (hE1 : INT32_MIN ≤ E) (hE2 : E ≤ INT32_MAX)
    (htail : ∀ c cs, tail = c :: cs → c.isDigit = false) :
    ∃ p1 d1, parsePatternStart (intDigits B ++ '-' :: (intDigits E ++ tail)) ⟨0, 0, 1, 0⟩
        = some (p1, d1)
      ∧ parsePatternEnd p1 d1 = some (tail, fixStep ⟨B, E, 1, 0⟩) := by
  have hint : parseInteger (intDigits B ++ '-' :: (intDigits E ++ tail))
      = some (B, '-' :: (intDigits E ++ tail)) :=
    parseInteger_intDigits B _ hB1 hB2 (by
      intro c cs h
      simp only [List.cons.injEq] at h
      rw [← h.1]; rfl)
  have hstart : parsePatternStart (intDigits B ++ '-' :: (intDigits E ++ tail)) ⟨0, 0, 1, 0⟩
      = some ('-' :: (intDigits E ++ tail), ⟨B, B, 1, 0⟩) := by
    obtain ⟨c, cs, hc, h1, h2⟩ := intDigits_head B
    have hform : intDigits B ++ '-' :: (intDigits E ++ tail)
        = c :: (cs ++ '-' :: (intDigits E ++ tail)) := by rw [hc]; rfl
    have hnp : (decide (c = '#') || decide (c = '@')) = false := by simp [h1, h2]
    have hsi : parseStartInteger (intDigits B ++ '-' :: (intDigits E ++ tail)) ⟨0, 0, 1, 0⟩
        = some ('-' :: (intDigits E ++ tail), ⟨B, B, 1, 0⟩) := by
      unfold parseStartInteger
      rw [hint]
    rw [hform] at hsi ⊢
    unfold parsePatternStart
    simp only [hnp, Bool.false_eq_true, if_false]
    exact hsi
  refine ⟨_, _, hstart, ?_⟩
  unfold parsePatternEnd
  simp only [if_true]
  rw [parseInteger_intDigits E tail hE1 hE2 htail]

/-- The step stage in front of a pad run leaves cursor and slice alone. -/
theorem parsePatternStep_pad_run (run : Str) (d : SequenceDesc)
    (h : ∀ c ∈ run, c = '@' ∨ c = '#') : parsePatternStep run d = some (run, d) := by
  cases run with
  | nil => rfl
  | cons c cs =>
    unfold parsePatternStep
    rcases h c (List.mem_cons_self _ _) with hc | hc
    · subst hc
      simp only
      rw [if_neg (by decide), if_neg (by decide)]
    · subst hc
      simp only
      rw [if_neg (by decide), if_neg (by decide)]

/-- The step stage on `xS` in front of a pad run stores the step `S`. -/
theorem parsePatternStep_step_run (S : Int) (run : Str) (d : SequenceDesc)
    (hS1 : INT32_MIN ≤ S) (hS2 : S ≤ INT32_MAX) (hS0 : S ≠ 0)
    (h : ∀ c ∈ run, c = '@' ∨ c = '#') :
    parsePatternStep ('x' :: (intDigits S ++ run)) d = some (run, ⟨d.beg, d.end_, S, d.pad⟩) := by
  have hrun : ∀ c cs, run = c :: cs → c.isDigit = false := by
    intro c cs hc
    rcases h c (by rw [hc]; exact List.mem_cons_self _ _) with h1 | h1 <;> (rw [h1]; rfl)
  unfold parsePatternStep
  simp only [if_true]
  rw [parseInteger_intDigits S run hS1 hS2 hrun]
  simp only [hS0, if_false]

/-- A pad run starts with no digit. -/
theorem pad_run_head (run : Str) (h : ∀ c ∈ run, c = '@' ∨ c = '#') :
    ∀ c cs, run = c :: cs → c.isDigit = false := by
  intro c cs hc
  rcases h c (by rw [hc]; exact List.mem_cons_self _ _) with h1 | h1 <;> (rw [h1]; rfl)

/-- The slice parser on the alternative `B-E` followed by a pad run. -/
theorem parseSlice_range (B E : Int) (run : Str)
    (hB1 : INT32_MIN ≤ B) (hB2 : B ≤ INT32_MAX) (hE1 : INT32_MIN ≤ E) (hE2 : E ≤ INT32_MAX)
    (hrun : ∀ c ∈ run, c = '@' ∨ c = '#') :
    wrapParseSlice (intDigits B ++ '-' :: (intDigits E ++ run)) =
      if (SequenceDesc.mk B E (fixStep ⟨B, E, 1, 0⟩).step (specPadWidth run % 256)).wrapIsOk
      then some ⟨B, E, (fixStep ⟨B, E, 1, 0⟩).step, specPadWidth run % 256⟩
      else none := by
  obtain ⟨p1, d1, h1, h2⟩ := parse_start_end B E run hB1 hB2 hE1 hE2 (pad_run_head run hrun)
  have h3 := parsePatternStep_pad_run run (fixStep ⟨B, E, 1, 0⟩) hrun
  have hfix : (fixStep ⟨B, E, 1, 0⟩).beg = B ∧ (fixStep ⟨B, E, 1, 0⟩).end_ = E
      ∧ (fixStep ⟨B, E, 1, 0⟩).pad = 0 := by
    unfold fixStep
    split <;> exact ⟨rfl, rfl, rfl⟩
  have h4 := parsePatternPad_run run (fixStep ⟨B, E, 1, 0⟩) (by rw [hfix.2.2]; decide) hrun
  rw [hfix.1, hfix.2.1, hfix.2.2, Nat.zero_add] at h4
  unfold wrapParseSlice
  simp only [h1, h2, h3, h4]

/-- The slice parser on the alternative `B-ExS` followed by a pad run, for an
ascending range. -/
theorem parseSlice_range_step (B E S : Int) (run : Str)
    (hB1 : INT32_MIN ≤ B) (hB2 : B ≤ INT32_MAX) (hE1 : INT32_MIN ≤ E) (hE2 : E ≤ INT32_MAX)
    (hS1 : INT32_MIN ≤ S) (hS2 : S ≤ INT32_MAX) (hS0 : S ≠ 0)
    (hrun : ∀ c ∈ run, c = '@' ∨ c = '#') :
    wrapParseSlice (intDigits B ++ '-' :: (intDigits E ++ 'x' :: (intDigits S ++ run))) =
      if (SequenceDesc.mk B E S (specPadWidth run % 256)).wrapIsOk
      then some ⟨B, E, S, specPadWidth run % 256⟩
      else none := by
  obtain ⟨p1, d1, h1, h2⟩ := parse_start_end B E ('x' :: (intDigits S ++ run)) hB1 hB2 hE1 hE2
    (by
      intro c cs h
      simp only [List.cons.injEq] at h
      rw [← h.1]; rfl)
  have h3 := parsePatternStep_step_run S run (fixStep ⟨B, E, 1, 0⟩) hS1 hS2 hS0 hrun
  have hfix : (fixStep ⟨B, E, 1, 0⟩).beg = B ∧ (fixStep ⟨B, E, 1, 0⟩).end_ = E
      ∧ (fixStep ⟨B, E, 1, 0⟩).pad = 0 := by
    unfold fixStep
    split <;> exact ⟨rfl, rfl, rfl⟩
  rw [hfix.1, hfix.2.1, hfix.2.2] at h3
  have h4 := parsePatternPad_run run ⟨B, E, S, 0⟩ (by simp only; omega) hrun
  simp only [Nat.zero_add] at h4
  unfold wrapParseSlice
  simp only [h1, h2, h3, h4]

/-! ## Patterns with one sequence token of one slice -/

/-- The lazy loop appends a literal token as it is. -/
theorem lazyPathOf_cons_literal (padChar : Char) (t : Str) (ts : List Str)
    (ht : wrapParseToken t = []) (b n : Nat) :
    wrapLazyPathOf padChar (t :: ts) (wrapParsePatterns (t :: ts)) b n
      = (wrapLazyPathOf padChar ts (wrapParsePatterns ts) b n).map (fun u => t ++ u) := by
  simp only [wrapParsePatterns, List.map_cons, wrapLazyPathOf, ht, List.isEmpty_nil, if_true]
  cases wrapLazyPathOf padChar ts (List.map wrapParseToken ts) b n <;> rfl

/-- The lazy loop appends literal tokens as they are. -/
theorem lazyPathOf_literals_append (padChar : Char) (ts us : List Str)
    (h : ∀ t ∈ ts, wrapParseToken t = []) (b n : Nat) :
    wrapLazyPathOf padChar (ts ++ us) (wrapParsePatterns (ts ++ us)) b n
      = (wrapLazyPathOf padChar us (wrapParsePatterns us) b n).map (fun t => ts.flatten ++ t) := by
  induction ts with
  | nil =>
    simp only [List.nil_append, List.flatten_nil]
    cases wrapLazyPathOf padChar us (wrapParsePatterns us) b n <;> rfl
  | cons t ts ih =>
    rw [List.cons_append, lazyPathOf_cons_literal padChar t (ts ++ us)
      (h t (List.mem_cons_self _ _)), ih (fun u hu => h u (List.mem_cons_of_mem _ hu))]
    cases wrapLazyPathOf padChar us (wrapParsePatterns us) b n with
    | none => rfl
    | some s => simp

/-- The paths the lazy expander lists. -/
theorem lazy_getFullPaths_eq (s : FileSequenceLazy) :
    s.wrapGetFullPaths = collect s.wrapIndex s.size 0 := rfl

/-- The product list of one list followed by one-text lists. -/
theorem specCartesian_one_list (vals post : List Str) :
    specCartesian (vals :: post.map (fun t => [t]))
      = vals.map (fun v => v ++ post.flatten) := by
  simp only [specCartesian, specCartesian_singletons, List.map_cons, List.map_nil]
  induction vals with
  | nil => rfl
  | cons v vs ih => rw [List.flatMap_cons, ih]; rfl

/-- The lazy loop over literal tokens gives their concatenation. -/
theorem lazyPathOf_literals (padChar : Char) (ts : List Str)
    (h : ∀ t ∈ ts, wrapParseToken t = []) (b n : Nat) :
    wrapLazyPathOf padChar ts (wrapParsePatterns ts) b n = some ts.flatten := by
  have := lazyPathOf_literals_append padChar ts [] h b n
  simpa [wrapLazyPathOf, wrapParsePatterns] using this

/-- The state of the loop of the lazy constructor after a pattern with one
sequence token. -/
theorem countPaths_single (pre post : List Str) (token : Str)
    (hpre : ∀ t ∈ pre, wrapParseToken t = []) (hpost : ∀ t ∈ post, wrapParseToken t = [])
    (hne : (wrapParseToken token).isEmpty = false)
    (hbound : wrapSequenceSize (wrapParseToken token) < SIZE_MOD) :
    wrapCountPaths (wrapParsePatterns (pre ++ token :: post))
      = (wrapSequenceSize (wrapParseToken token), decide (1 < wrapSequenceSize (wrapParseToken token))) := by
  have hpre2 : ∀ p ∈ pre.map wrapParseToken, p = [] := by
    intro p hp
    obtain ⟨t, ht, rfl⟩ := List.mem_map.mp hp
    exact hpre t ht
  have hpost2 : ∀ p ∈ post.map wrapParseToken, p = [] := by
    intro p hp
    obtain ⟨t, ht, rfl⟩ := List.mem_map.mp hp
    exact hpost t ht
  unfold wrapCountPaths wrapParsePatterns
  rw [List.map_append, List.foldl_append, countStep_foldl_literals _ hpre2, List.map_cons,
    List.foldl_cons, countStep_foldl_literals _ hpost2]
  unfold wrapCountStep
  rw [hne]
  simp only [Bool.false_eq_true, if_false, Nat.one_mul, Nat.mod_eq_of_lt hbound]

/-- A pattern whose only sequence token is one slice: the eager expander holds
one path per value of the slice, the lazy expander is ok when there are at
least two values and then gives the same paths. -/
theorem single_sequence_token (pattern delimiters : Str) (padChar : Char)
    (pre post : List Str) (token : Str) (d : SequenceDesc) (vals : List Str)
    (hsplit : splitOriginalPattern pattern (effectiveDelimiters delimiters)
      = pre ++ token :: post)
    (hpre : ∀ t ∈ pre, wrapParseToken t = []) (hpost : ∀ t ∈ post, wrapParseToken t = [])
    (htok : wrapParseToken token = [d])
    (heager : unpackSlice padChar d loopFuel d.beg = some vals)
    (hsize : d.wrapSize = vals.length)
    (hlazy : ∀ k, k < vals.length → vals[k]? = some (wrapUnpackSequenceLazy padChar [d] k))
    (hbound : vals.length < SIZE_MOD) :
    FileSequence.wrapCtor pattern delimiters padChar
      = some ⟨vals.map (fun v => pre.flatten ++ (v ++ post.flatten))⟩
    ∧ (FileSequenceLazy.wrapCtor pattern delimiters padChar).isOk = decide (1 < vals.length)
    ∧ (FileSequenceLazy.wrapCtor pattern delimiters padChar).size
        = (if 1 < vals.length then vals.length else 0)
    ∧ (1 < vals.length →
        (FileSequenceLazy.wrapCtor pattern delimiters padChar).wrapGetFullPaths
          = some (vals.map (fun v => pre.flatten ++ (v ++ post.flatten)))) := by
  have hseq : wrapSequenceSize (wrapParseToken token) = vals.length := by
    rw [htok, sequenceSize_single d (by rw [hsize]; exact hbound), hsize]
  have hne : (wrapParseToken token).isEmpty = false := by rw [htok]; rfl
  have hcount := countPaths_single pre post token hpre hpost hne (by rw [hseq]; exact hbound)
  rw [hseq] at hcount
  have hlsize : (FileSequenceLazy.wrapCtor pattern delimiters padChar).size
      = (if 1 < vals.length then vals.length else 0) := by
    rw [lazy_size_eq, hsplit, hcount]
    simp only [decide_eq_true_eq]
  refine ⟨?_, ?_, hlsize, ?_⟩
  · have hparts : pathPartsOf padChar (pre ++ token :: post) (wrapParsePatterns (pre ++ token :: post))
        = some (pre.map (fun t => [t]) ++ (vals :: post.map (fun t => [t]))) := by
      apply pathPartsOf_append _ _ _ _ _ (pathPartsOf_literals padChar pre hpre)
      rw [pathPartsOf_cons, hne, if_neg (by decide), htok,
        unpackSequence_single padChar d vals heager, pathPartsOf_literals padChar post hpost]
    have hprod : prodLengths (pre.map (fun t => [t]) ++ (vals :: post.map (fun t => [t])))
        = vals.length := by
      rw [prodLengths_append, prodLengths_singletons]
      have : prodLengths (vals :: post.map (fun t => [t]))
          = vals.length * prodLengths (post.map (fun t => [t])) := by
        simp [prodLengths]
      rw [this, prodLengths_singletons]
      omega
    have hgen : generatePaths (pre.map (fun t => [t]) ++ (vals :: post.map (fun t => [t])))
        = some (vals.map (fun v => pre.flatten ++ (v ++ post.flatten))) := by
      rw [generatePaths_eq_specCartesian _ (by rw [hprod]; exact hbound),
        specCartesian_singletons_append, specCartesian_one_list, List.map_map]
      rfl
    unfold FileSequence.wrapCtor
    rw [hsplit]
    simp only [hparts, hgen]
  · rw [lazy_isOk_eq, hsplit, hcount]
  · intro hgt
    rw [lazy_getFullPaths_eq, hlsize, if_pos hgt]
    apply collect_eq_some _ _ _ _ (by simp)
    intro j hj
    rw [Nat.zero_add, lazy_index_eq, hlsize, if_pos hgt, hsplit,
      lazyPathOf_literals_append padChar pre (token :: post) hpre]
    have hcond : ¬ (vals.length = 0 ∨ wrapSequenceSize (wrapParseToken token) = 0
        ∨ vals.length / wrapSequenceSize (wrapParseToken token) = 0) := by
      rw [hseq, Nat.div_self (by omega)]
      omega
    have hstep : wrapLazyPathOf padChar (token :: post) (wrapParsePatterns (token :: post)) j vals.length
        = some (wrapUnpackSequenceLazy padChar [d] j ++ post.flatten) := by
      simp only [wrapParsePatterns, List.map_cons, wrapLazyPathOf, hne, Bool.false_eq_true, if_false]
      rw [if_neg hcond]
      have hpost2 := lazyPathOf_literals padChar post hpost (j % vals.length)
        (vals.length / wrapSequenceSize (wrapParseToken token))
      simp only [wrapParsePatterns] at hpost2
      rw [hpost2, hseq, Nat.div_self (by omega), Nat.mod_eq_of_lt hj, Nat.div_one, htok]
    rw [hstep, List.getElem?_map, hlazy j hj]
    rfl

/-! ## Ranges `B-E` and `B-ExS` -/

/-- A token made of digits, `-`, `x` and pad characters passes the charset
check and holds no comma. -/
theorem charset_of_range_chars (token : Str)
    (h : ∀ c ∈ token, c = '-' ∨ c.isDigit = true ∨ c = 'x' ∨ c = '@' ∨ c = '#') :
    checkPatternCharset token = true ∧ ∀ c ∈ token, c ≠ ',' := by
  constructor
  · unfold checkPatternCharset
    rw [List.all_eq_true]
    intro c hc
    rcases h c hc with h1 | h1 | h1 | h1 | h1 <;> simp [h1]
  · intro c hc hcomma
    rcases h c hc with h1 | h1 | h1 | h1 | h1
    · rw [hcomma] at h1; exact absurd h1 (by decide)
    · rw [hcomma] at h1; exact absurd h1 (by decide)
    · rw [hcomma] at h1; exact absurd h1 (by decide)
    · rw [hcomma] at h1; exact absurd h1 (by decide)
    · rw [hcomma] at h1; exact absurd h1 (by decide)

/-- The characters of the token `B-E` followed by a pad run. -/
theorem range_token_chars (B E : Int) (run : Str) (hrun : ∀ c ∈ run, c = '@' ∨ c = '#') :
    ∀ c ∈ intDigits B ++ '-' :: (intDigits E ++ run),
      c = '-' ∨ c.isDigit = true ∨ c = 'x' ∨ c = '@' ∨ c = '#' := by
  intro c hc
  rcases List.mem_append.mp hc with h1 | h1
  · rcases intDigits_charset B c h1 with h2 | h2
    · left; exact h2
    · right; left; exact h2
  · rcases List.mem_cons.mp h1 with h2 | h2
    · left; exact h2
    · rcases List.mem_append.mp h2 with h3 | h3
      · rcases intDigits_charset E c h3 with h4 | h4
        · left; exact h4
        · right; left; exact h4
      · rcases hrun c h3 with h4 | h4
        · right; right; right; left; exact h4
        · right; right; right; right; exact h4

/-- The characters of the token `B-ExS` followed by a pad run. -/
theorem range_step_token_chars (B E S : Int) (run : Str)
    (hrun : ∀ c ∈ run, c = '@' ∨ c = '#') :
    ∀ c ∈ intDigits B ++ '-' :: (intDigits E ++ 'x' :: (intDigits S ++ run)),
      c = '-' ∨ c.isDigit = true ∨ c = 'x' ∨ c = '@' ∨ c = '#' := by
  intro c hc
  rcases List.mem_append.mp hc with h1 | h1
  · rcases intDigits_charset B c h1 with h2 | h2
    · left; exact h2
    · right; left; exact h2
  · rcases List.mem_cons.mp h1 with h2 | h2
    · left; exact h2
    · rcases List.mem_append.mp h2 with h3 | h3
      · rcases intDigits_charset E c h3 with h4 | h4
        · left; exact h4
        · right; left; exact h4
      · rcases List.mem_cons.mp h3 with h4 | h4
        · right; right; left; exact h4
        · rcases List.mem_append.mp h4 with h5 | h5
          · rcases intDigits_charset S c h5 with h6 | h6
            · left; exact h6
            · right; left; exact h6
          · rcases hrun c h5 with h6 | h6
            · right; right; right; left; exact h6
            · right; right; right; right; exact h6

/-- A slice with a positive cardinality is ok. -/
theorem isOk_of_size_pos (d : SequenceDesc) (h : 0 < d.wrapSize) : d.wrapIsOk = true := by
  by_contra hno
  unfold SequenceDesc.wrapSize at h
  rw [if_neg hno] at h
  omega

/-- The token `B-E` followed by a pad run of width below 256 is the sequence
token of the slice from `B` to `E` with step 1 or -1. -/
theorem parseToken_range (B E : Int) (run : Str) (step : Int)
    (hB1 : INT32_MIN ≤ B) (hB2 : B ≤ INT32_MAX) (hE1 : INT32_MIN ≤ E) (hE2 : E ≤ INT32_MAX)
    (hrun : ∀ c ∈ run, c = '@' ∨ c = '#') (hw : specPadWidth run < 256)
    (hstep : (fixStep ⟨B, E, 1, 0⟩).step = step)
    (hok : (SequenceDesc.mk B E step (specPadWidth run)).wrapIsOk = true) :
    wrapParseToken (intDigits B ++ '-' :: (intDigits E ++ run))
      = [⟨B, E, step, specPadWidth run⟩] := by
  obtain ⟨hcs, hnc⟩ := charset_of_range_chars _ (range_token_chars B E run hrun)
  obtain ⟨c, cs, hc, _, _⟩ := intDigits_head B
  apply parseToken_single _ _ hcs (by rw [hc]; simp) hnc
  rw [parseSlice_range B E run hB1 hB2 hE1 hE2 hrun, hstep, Nat.mod_eq_of_lt hw, if_pos hok]

/-- The token `B-ExS` followed by a pad run of width below 256 is the
sequence token of the slice from `B` to `E` with step `S`. -/
theorem parseToken_range_step (B E S : Int) (run : Str)
    (hB1 : INT32_MIN ≤ B) (hB2 : B ≤ INT32_MAX) (hE1 : INT32_MIN ≤ E) (hE2 : E ≤ INT32_MAX)
    (hS1 : INT32_MIN ≤ S) (hS2 : S ≤ INT32_MAX) (hS0 : S ≠ 0)
    (hrun : ∀ c ∈ run, c = '@' ∨ c = '#') (hw : specPadWidth run < 256)
    (hok : (SequenceDesc.mk B E S (specPadWidth run)).wrapIsOk = true) :
    wrapParseToken (intDigits B ++ '-' :: (intDigits E ++ 'x' :: (intDigits S ++ run)))
      = [⟨B, E, S, specPadWidth run⟩] := by
  obtain ⟨hcs, hnc⟩ := charset_of_range_chars _ (range_step_token_chars B E S run hrun)
  obtain ⟨c, cs, hc, _, _⟩ := intDigits_head B
  apply parseToken_single _ _ hcs (by rw [hc]; simp) hnc
  rw [parseSlice_range_step B E S run hB1 hB2 hE1 hE2 hS1 hS2 hS0 hrun, Nat.mod_eq_of_lt hw,
    if_pos hok]

/-- A pattern whose only sequence token is one slice that enumerates the `n`
texts `f 0`, ..., `f (n - 1)` in both expanders. -/
theorem single_slice_pattern (pattern delimiters : Str) (padChar : Char)
    (pre post : List Str) (token : Str) (d : SequenceDesc) (n : Nat) (f : Nat → Str)
    (hsplit : splitOriginalPattern pattern (effectiveDelimiters delimiters)
      = pre ++ token :: post)
    (hpre : ∀ t ∈ pre, wrapParseToken t = []) (hpost : ∀ t ∈ post, wrapParseToken t = [])
    (htok : wrapParseToken token = [d]) (hsize : d.wrapSize = n)
    (heager : unpackSlice padChar d loopFuel d.beg = some ((List.range n).map f))
    (hlazy : ∀ k : Nat, k < n → wrapUnpackSequenceLazy padChar [d] k = f k)
    (hbound : n < SIZE_MOD) :
    FileSequence.wrapCtor pattern delimiters padChar
      = some ⟨(List.range n).map (fun k => pre.flatten ++ (f k ++ post.flatten))⟩
    ∧ (FileSequenceLazy.wrapCtor pattern delimiters padChar).isOk = decide (1 < n)
    ∧ (FileSequenceLazy.wrapCtor pattern delimiters padChar).size = (if 1 < n then n else 0)
    ∧ (1 < n →
        (FileSequenceLazy.wrapCtor pattern delimiters padChar).wrapGetFullPaths
          = some ((List.range n).map (fun k => pre.flatten ++ (f k ++ post.flatten)))) := by
  have hlen : ((List.range n).map f).length = n := by simp
  have h := single_sequence_token pattern delimiters padChar pre post token d
    ((List.range n).map f) hsplit hpre hpost htok heager (by rw [hlen]; exact hsize)
    (by
      intro k hk
      rw [hlen] at hk
      rw [List.getElem?_map, List.getElem?_range hk, hlazy k hk]
      rfl)
    (by rw [hlen]; exact hbound)
  rw [hlen, List.map_map] at h
  exact h

/-- The eager expander that holds at least two paths is ok, and its size is
their number. -/
theorem eager_ok_of_two (paths : List Str) (h : 1 < paths.length) :
    (FileSequence.mk paths).isOk = true ∧ (FileSequence.mk paths).size = paths.length := by
  have hok : (FileSequence.mk paths).isOk = true := by
    unfold FileSequence.isOk
    simpa using h
  refine ⟨hok, ?_⟩
  unfold FileSequence.size
  rw [if_pos hok]

/-- A pattern whose only sequence token is `B-E` followed by a pad run, once
its slice `d` and what the slice enumerates are known. -/
theorem range_pattern_of_slice (pattern delimiters : Str) (padChar : Char)
    (pre post : List Str) (B E : Int) (run : Str) (d : SequenceDesc)
    (hsplit : splitOriginalPattern pattern (effectiveDelimiters delimiters)
      = pre ++ (intDigits B ++ '-' :: (intDigits E ++ run)) :: post)
    (hpre : ∀ t ∈ pre, wrapParseToken t = []) (hpost : ∀ t ∈ post, wrapParseToken t = [])
    (hne : B ≠ E) (hspan1 : E - B < INT32_MAX) (hspan2 : B - E < INT32_MAX)
    (hpad : d.pad = specPadWidth run)
    (htok : wrapParseToken (intDigits B ++ '-' :: (intDigits E ++ run)) = [d])
    (hsize : d.wrapSize = (E - B).natAbs + 1)
    (heager : unpackSlice padChar d loopFuel d.beg = some ((List.range ((E - B).natAbs + 1)).map
      (fun (k : Nat) => writePadded padChar (d.beg + (k : Int) * d.step) d.pad)))
    (hlazy : ∀ k : Nat, k < (E - B).natAbs + 1 → wrapUnpackSequenceLazy padChar [d] k
      = writePadded padChar (d.beg + (k : Int) * d.step) d.pad)
    (hval : ∀ k : Nat,
      d.beg + (k : Int) * d.step = if B ≤ E then B + (k : Int) else B - (k : Int)) :
    (∃ s, FileSequence.wrapCtor pattern delimiters padChar = some s
      ∧ s.isOk = true ∧ s.size = (E - B).natAbs + 1
      ∧ s.getFullPaths = (specRangeValues B E).map
          (fun v => pre.flatten ++ (writePadded padChar v (specPadWidth run) ++ post.flatten)))
    ∧ (FileSequenceLazy.wrapCtor pattern delimiters padChar).isOk = true
    ∧ (FileSequenceLazy.wrapCtor pattern delimiters padChar).size = (E - B).natAbs + 1
    ∧ (FileSequenceLazy.wrapCtor pattern delimiters padChar).wrapGetFullPaths
        = some ((specRangeValues B E).map
          (fun v => pre.flatten ++ (writePadded padChar v (specPadWidth run) ++ post.flatten))) := by
  have hmax : INT32_MAX = 2147483647 := rfl
  have hn2 : 1 < (E - B).natAbs + 1 := by omega
  have hnb : (E - B).natAbs + 1 < SIZE_MOD := by unfold SIZE_MOD; omega
  obtain ⟨he, hlok, hlsize, hlpaths⟩ := single_slice_pattern pattern delimiters padChar pre post
    _ d _ _ hsplit hpre hpost htok hsize heager hlazy hnb
  have hpaths : (List.range ((E - B).natAbs + 1)).map
      (fun (k : Nat) => pre.flatten
        ++ (writePadded padChar (d.beg + (k : Int) * d.step) d.pad ++ post.flatten))
      = (specRangeValues B E).map
        (fun v => pre.flatten ++ (writePadded padChar v (specPadWidth run) ++ post.flatten)) := by
    unfold specRangeValues
    rw [List.map_map]
    apply List.map_congr_left
    intro k _
    simp only [Function.comp_apply, hval k, hpad]
  rw [hpaths] at he hlpaths
  refine ⟨⟨_, he, ?_, ?_, rfl⟩, ?_, ?_, hlpaths hn2⟩
  · exact (eager_ok_of_two _ (by unfold specRangeValues; simpa using hn2)).1
  · rw [(eager_ok_of_two _ (by unfold specRangeValues; simpa using hn2)).2]
    unfold specRangeValues
    simp
  · rw [hlok]; simpa using hn2
  · rw [hlsize, if_pos hn2]

/-- A pattern whose only sequence token is `B-E` followed by a pad run: what
both expanders hold, for `B` and `E` apart when nothing leaves `int32_t`. -/
theorem range_pattern (pattern delimiters : Str) (padChar : Char)
    (pre post : List Str) (B E : Int) (run : Str)
    (hsplit : splitOriginalPattern pattern (effectiveDelimiters delimiters)
      = pre ++ (intDigits B ++ '-' :: (intDigits E ++ run)) :: post)
    (hpre : ∀ t ∈ pre, wrapParseToken t = []) (hpost : ∀ t ∈ post, wrapParseToken t = [])
    (hrun : ∀ c ∈ run, c = '@' ∨ c = '#') (hw : specPadWidth run < 256)
    (hB1 : INT32_MIN ≤ B) (hB2 : B ≤ INT32_MAX) (hE1 : INT32_MIN ≤ E) (hE2 : E ≤ INT32_MAX)
    (hne : B ≠ E) (hup : B < E → E < INT32_MAX) (hdown : E < B → INT32_MIN < E)
    (hspan1 : E - B < INT32_MAX) (hspan2 : B - E < INT32_MAX) :
    (∃ s, FileSequence.wrapCtor pattern delimiters padChar = some s
      ∧ s.isOk = true ∧ s.size = (E - B).natAbs + 1
      ∧ s.getFullPaths = (specRangeValues B E).map
          (fun v => pre.flatten ++ (writePadded padChar v (specPadWidth run) ++ post.flatten)))
    ∧ (FileSequenceLazy.wrapCtor pattern delimiters padChar).isOk = true
    ∧ (FileSequenceLazy.wrapCtor pattern delimiters padChar).size = (E - B).natAbs + 1
    ∧ (FileSequenceLazy.wrapCtor pattern delimiters padChar).wrapGetFullPaths
        = some ((specRangeValues B E).map
          (fun v => pre.flatten ++ (writePadded padChar v (specPadWidth run) ++ post.flatten))) := by
  have hmin : INT32_MIN = -2147483648 := rfl
  have hmax : INT32_MAX = 2147483647 := rfl
  by_cases hlt : B < E
  · have hfix : (fixStep ⟨B, E, 1, 0⟩).step = 1 := by
      unfold fixStep
      rw [if_neg (by simp only; omega)]
    have hE3 := hup hlt
    obtain ⟨hsize, heager, hlazy⟩ := slice_ascending padChar ⟨B, E, 1, specPadWidth run⟩
      (by simp only; omega) (by simp only; omega) (by simp only; omega)
      (by simp only; omega) (by simp only [Int.ediv_one]; omega)
      (by simp only [Int.ediv_one]; omega)
    have hcount : ((E - B) / 1).toNat + 1 = (E - B).natAbs + 1 := by
      rw [Int.ediv_one]; omega
    simp only [hcount] at hsize heager hlazy
    exact range_pattern_of_slice pattern delimiters padChar pre post B E run
      ⟨B, E, 1, specPadWidth run⟩ hsplit hpre hpost hne hspan1 hspan2 rfl
      (parseToken_range B E run 1 hB1 hB2 hE1 hE2 hrun hw hfix
        (isOk_of_size_pos _ (by rw [hsize]; omega)))
      hsize heager hlazy (by intro k; simp only [mul_one]; rw [if_pos (le_of_lt hlt)])
  · have hgt : E < B := by omega
    have hfix : (fixStep ⟨B, E, 1, 0⟩).step = -1 := by
      unfold fixStep
      rw [if_pos (by simp only; omega)]
    have hE3 := hdown hgt
    obtain ⟨hsize, heager, hlazy⟩ := slice_descending padChar ⟨B, E, -1, specPadWidth run⟩
      (by simp only; omega) (by simp only; omega) (by simp only; omega)
      (by simp only; omega) (by simp only [neg_neg, Int.ediv_one]; omega)
      (by simp only [neg_neg, Int.ediv_one]; omega)
    have hcount : ((B - E) / (- -1)).toNat + 1 = (E - B).natAbs + 1 := by
      rw [neg_neg, Int.ediv_one]; omega
    simp only [hcount] at hsize heager hlazy
    exact range_pattern_of_slice pattern delimiters padChar pre post B E run
      ⟨B, E, -1, specPadWidth run⟩ hsplit hpre hpost hne hspan1 hspan2 rfl
      (parseToken_range B E run (-1) hB1 hB2 hE1 hE2 hrun hw hfix
        (isOk_of_size_pos _ (by rw [hsize]; omega)))
      hsize heager hlazy (by
        intro k
        simp only
        rw [if_neg (by omega)]
        ring)

/-- A pattern whose only sequence token is `B-ExS` followed by a pad run, for
`B <= E` and a positive `S`: what both expanders hold when nothing leaves
`int32_t`. -/
theorem step_pattern (pattern delimiters : Str) (padChar : Char)
    (pre post : List Str) (B E S : Int) (run : Str)
    (hsplit : splitOriginalPattern pattern (effectiveDelimiters delimiters)
      = pre ++ (intDigits B ++ '-' :: (intDigits E ++ 'x' :: (intDigits S ++ run))) :: post)
    (hpre : ∀ t ∈ pre, wrapParseToken t = []) (hpost : ∀ t ∈ post, wrapParseToken t = [])
    (hrun : ∀ c ∈ run, c = '@' ∨ c = '#') (hw : specPadWidth run < 256)
    (hBE : B ≤ E) (hS : 0 < S) (hS2 : S ≤ INT32_MAX) (hB1 : INT32_MIN ≤ B)
    (hE2 : E ≤ INT32_MAX) (hspan : E - B ≤ INT32_MAX) (hcount : (E - B) / S < INT32_MAX)
    (hpast : B + ((E - B) / S + 1) * S ≤ INT32_MAX) :
    (∃ s, FileSequence.wrapCtor pattern delimiters padChar = some s
      ∧ s.getFullPaths = (specStepValues B E S).map
          (fun v => pre.flatten ++ (writePadded padChar v (specPadWidth run) ++ post.flatten))
      ∧ (B + S ≤ E → s.isOk = true ∧ s.size = ((E - B) / S).toNat + 1)
      ∧ (E < B + S → s.isOk = false ∧ s.size = 0))
    ∧ (B + S ≤ E →
        (FileSequenceLazy.wrapCtor pattern delimiters padChar).isOk = true
        ∧ (FileSequenceLazy.wrapCtor pattern delimiters padChar).size = ((E - B) / S).toNat + 1
        ∧ (FileSequenceLazy.wrapCtor pattern delimiters padChar).wrapGetFullPaths
            = some ((specStepValues B E S).map
              (fun v => pre.flatten
                ++ (writePadded padChar v (specPadWidth run) ++ post.flatten))))
    ∧ (E < B + S →
        (FileSequenceLazy.wrapCtor pattern delimiters padChar).isOk = false
        ∧ (FileSequenceLazy.wrapCtor pattern delimiters padChar).size = 0) := by
  have hmin : INT32_MIN = -2147483648 := rfl
  have hmax : INT32_MAX = 2147483647 := rfl
  have hx : 0 ≤ E - B := by omega
  have hq0 : 0 ≤ (E - B) / S := Int.ediv_nonneg hx (le_of_lt hS)
  have hqle : (E - B) / S ≤ E - B := Int.ediv_le_self _ hx
  have hq1 : 1 ≤ (E - B) / S ↔ B + S ≤ E := by
    rw [Int.le_ediv_iff_mul_le hS]
    constructor <;> intro h <;> omega
  obtain ⟨hsize, heager, hlazy⟩ := slice_ascending padChar ⟨B, E, S, specPadWidth run⟩
    (by simp only; omega) (by simp only; omega) (by simp only; omega)
    (by simp only; omega) (by simp only; exact hcount) (by simp only; exact hpast)
  simp only at hsize heager hlazy
  have htok := parseToken_range_step B E S run hB1 (by omega) (by omega) (by omega) (by omega)
    (by omega) (by omega) hrun hw (isOk_of_size_pos _ (by rw [hsize]; omega))
  have hnb : ((E - B) / S).toNat + 1 < SIZE_MOD := by unfold SIZE_MOD; omega
  obtain ⟨he, hlok, hlsize, hlpaths⟩ := single_slice_pattern pattern delimiters padChar pre post
    _ _ _ _ hsplit hpre hpost htok hsize heager hlazy hnb
  have hpaths : (List.range (((E - B) / S).toNat + 1)).map
      (fun (k : Nat) => pre.flatten
        ++ (writePadded padChar (B + (k : Int) * S) (specPadWidth run) ++ post.flatten))
      = (specStepValues B E S).map
        (fun v => pre.flatten ++ (writePadded padChar v (specPadWidth run) ++ post.flatten)) := by
    unfold specStepValues
    rw [List.map_map]
    rfl
  have hlen : ((specStepValues B E S).map
      (fun v => pre.flatten ++ (writePadded padChar v (specPadWidth run) ++ post.flatten))).length
      = ((E - B) / S).toNat + 1 := by
    unfold specStepValues
    simp
  rw [hpaths] at he hlpaths
  refine ⟨⟨_, he, rfl, ?_, ?_⟩, ?_, ?_⟩
  · intro h2
    have hn2 : 1 < ((E - B) / S).toNat + 1 := by have := hq1.mpr h2; omega
    have := eager_ok_of_two _ (by rw [hlen]; exact hn2)
    rw [hlen] at this
    exact this
  · intro h1
    have hn1 : ¬ 1 < ((E - B) / S).toNat + 1 := by
      have : ¬ 1 ≤ (E - B) / S := fun h => by have := hq1.mp h; omega
      omega
    have hno : (FileSequence.mk ((specStepValues B E S).map
        (fun v => pre.flatten
          ++ (writePadded padChar v (specPadWidth run) ++ post.flatten)))).isOk = false := by
      unfold FileSequence.isOk
      rw [hlen]
      simpa using hn1
    refine ⟨hno, ?_⟩
    unfold FileSequence.size
    rw [hno]
    rfl
  · intro h2
    have hn2 : 1 < ((E - B) / S).toNat + 1 := by have := hq1.mpr h2; omega
    refine ⟨?_, ?_, hlpaths hn2⟩
    · rw [hlok]; simpa using hn2
    · rw [hlsize, if_pos hn2]
  · intro h1
    have hn1 : ¬ 1 < ((E - B) / S).toNat + 1 := by
      have : ¬ 1 ≤ (E - B) / S := fun h => by have := hq1.mp h; omega
      omega
    refine ⟨?_, ?_⟩
    · rw [hlok]; simpa using hn1
    · rw [hlsize, if_neg hn1]

/-! ## The reference definitions against the source -/

/-- The texts `getlineAll` lists are those of the calls of `std::getline` in
turn: the first call gives the first text, the later calls go on from the text
left unread. -/
theorem getlineAll_unfold (ss : Str) :
    getlineAll ss =
      match getline ss with
      | none => []
      | some (buf, rest) => buf :: getlineAll rest := by
  induction ss with
  | nil => rfl
  | cons c cs ih =>
    by_cases hc : c = ','
    · subst hc
      simp [getlineAll, getline]
    · cases cs with
      | nil => simp [getlineAll, getline, hc]
      | cons x xs =>
        have hrec : getlineAll (x :: xs)
            = (x :: xs).takeWhile (fun c => c ≠ ',')
              :: getlineAll (((x :: xs).dropWhile (fun c => c ≠ ',')).drop 1) := by
          rw [ih]; rfl
        rw [getlineAll, if_neg hc, hrec]
        simp [getline, List.takeWhile_cons, List.dropWhile_cons, hc]

/-- With pad 0 `writePadded` writes the decimal text of the value. -/
theorem writePadded_zero (padChar : Char) (value : Int) :
    writePadded padChar value 0 = intDigits value := by
  unfold writePadded intDigits
  split <;> simp

/-- The values of `specStepValues` are the `B + k * S` that do not exceed `E`. -/
theorem mem_specStepValues (B E S v : Int) (hBE : B ≤ E) (hS : 0 < S) :
    v ∈ specStepValues B E S ↔ ∃ k : Nat, v = B + (k : Int) * S ∧ v ≤ E := by
  have hx : 0 ≤ E - B := by omega
  have hq0 : 0 ≤ (E - B) / S := Int.ediv_nonneg hx (le_of_lt hS)
  unfold specStepValues
  simp only [List.mem_map, List.mem_range]
  constructor
  · rintro ⟨k, hk, rfl⟩
    refine ⟨k, rfl, ?_⟩
    have hkq : (k : Int) ≤ (E - B) / S := by omega
    have := (Int.le_ediv_iff_mul_le hS).mp hkq
    omega
  · rintro ⟨k, rfl, hle⟩
    refine ⟨k, ?_, rfl⟩
    have hkq : (k : Int) ≤ (E - B) / S := (Int.le_ediv_iff_mul_le hS).mpr (by omega)
    omega

/-- The values of `specRangeValues` are the integers between `B` and `E`. -/
theorem mem_specRangeValues (B E v : Int) :
    v ∈ specRangeValues B E ↔ (B ≤ v ∧ v ≤ E) ∨ (E ≤ v ∧ v ≤ B) := by
  unfold specRangeValues
  simp only [List.mem_map, List.mem_range]
  constructor
  · rintro ⟨k, hk, rfl⟩
    split <;> omega
  · intro h
    by_cases hBE : B ≤ E
    · refine ⟨(v - B).toNat, by omega, ?_⟩
      rw [if_pos hBE]; omega
    · refine ⟨(B - v).toNat, by omega, ?_⟩
      rw [if_neg hBE]; omega

/-! ## Mixed-radix indexing -/

/-- Reducing an index modulo a multiple of the radix keeps its digit. -/
theorem digit_mod (a l m j : Nat) (h : a * l ∣ m) : (j % m) / a % l = j / a % l := by
  obtain ⟨t, rfl⟩ := h
  rw [Nat.mul_assoc, Nat.mod_mul_right_div_self, Nat.mod_mul_right_mod]

/-- Reducing the index modulo a multiple of the product of the lengths keeps
the entry picked. -/
theorem specPick_mod (parts : List (List Str)) (m j : Nat) (h : prodLengths parts ∣ m) :
    specPick parts (j % m) = specPick parts j := by
  induction parts with
  | nil => rfl
  | cons p ps ih =>
    have hprod : prodLengths (p :: ps) = p.length * prodLengths ps := by
      simp [prodLengths]
    rw [hprod] at h
    have h1 : prodLengths ps * p.length ∣ m := by rwa [Nat.mul_comm]
    have h2 : prodLengths ps ∣ m := Dvd.dvd.trans (Dvd.intro_left _ rfl) h
    simp only [specPick]
    rw [digit_mod _ _ _ _ h1, ih h2]

/-- Row-major order spelled out: the entry of the product list at `j` takes
from every list the element at the mixed-radix digit of `j`. -/
theorem specCartesian_eq_specPick (parts : List (List Str)) (j : Nat)
    (hj : j < prodLengths parts) :
    (specCartesian parts)[j]? = specPick parts j := by
  induction parts generalizing j with
  | nil =>
    have : j = 0 := by simpa [prodLengths] using hj
    subst this
    rfl
  | cons p ps ih =>
    have hprod : prodLengths (p :: ps) = p.length * prodLengths ps := by
      simp [prodLengths]
    rw [hprod] at hj
    have hm : 0 < prodLengths ps := by
      rcases Nat.eq_zero_or_pos (prodLengths ps) with h0 | h0
      · rw [h0] at hj; simp at hj
      · exact h0
    have hdiv : j / prodLengths ps < p.length := by
      rw [Nat.div_lt_iff_lt_mul hm]; exact hj
    rw [specCartesian_getElem? _ _ _ hm, ih _ (Nat.mod_lt _ hm),
      specPick_mod ps _ _ (dvd_refl _)]
    simp only [specPick]
    rw [Nat.mod_eq_of_lt hdiv]
    cases p[j / prodLengths ps]? with
    | none => rfl
    | some s =>
      cases specPick ps j with
      | none => rfl
      | some t => rfl

/-- The results of `collect` are as many as the calls. -/
theorem collect_length (f : Nat → Option Str) (n i : Nat) (l : List Str)
    (h : collect f n i = some l) : l.length = n := by
  induction n generalizing i l with
  | zero =>
    simp only [collect, Option.some.injEq] at h
    subst h; rfl
  | succ n ih =>
    simp only [collect] at h
    cases hf : f i with
    | none => simp [hf] at h
    | some p =>
      cases hc : collect f n (i + 1) with
      | none => simp [hf, hc] at h
      | some ps =>
        simp only [hf, hc, Option.some.injEq] at h
        subst h
        simp [ih _ _ hc]

/-- When `collect` comes back, every call came back, with the entry at its
place. -/
theorem collect_getElem? (f : Nat → Option Str) (n i : Nat) (l : List Str)
    (h : collect f n i = some l) (j : Nat) (hj : j < n) : f (i + j) = l[j]? := by
  induction n generalizing i l j with
  | zero => omega
  | succ n ih =>
    simp only [collect] at h
    cases hf : f i with
    | none => simp [hf] at h
    | some p =>
      cases hc : collect f n (i + 1) with
      | none => simp [hf, hc] at h
      | some ps =>
        simp only [hf, hc, Option.some.injEq] at h
        subst h
        cases j with
        | zero => simpa using hf
        | succ j =>
          have := ih _ _ hc j (by omega)
          rw [List.getElem?_cons_succ, ← this]
          congr 1; omega

/-! ## The lazy expander against the product list -/

/-- A literal token has one text, a sequence token as many as its
cardinality. -/
theorem lazyPart_length (padChar : Char) (tok : Str) (seq : PackedSequence) :
    (wrapLazyPart padChar tok seq).length = if seq.isEmpty then 1 else wrapSequenceSize seq := by
  unfold wrapLazyPart
  split <;> simp

/-- The product of the lengths of the lazy lists is the product of the
cardinalities. -/
theorem prodLengths_lazyParts (padChar : Char) (toks : List Str) (packed : PackedPath)
    (hlen : toks.length = packed.length) :
    prodLengths (wrapLazyParts padChar toks packed) = wrapCardProduct packed := by
  induction toks generalizing packed with
  | nil =>
    cases packed with
    | nil => rfl
    | cons s ss => simp at hlen
  | cons tok toks ih =>
    cases packed with
    | nil => simp at hlen
    | cons seq packed =>
      have h := ih packed (by simpa using hlen)
      simp only [prodLengths, wrapCardProduct, wrapLazyParts, List.map_cons, List.prod_cons,
        lazyPart_length] at h ⊢
      rw [h]

/-- A literal token leaves the product of the cardinalities as it is. -/
theorem cardProduct_cons_literal (seq : PackedSequence) (packed : PackedPath)
    (hs : seq.isEmpty = true) : wrapCardProduct (seq :: packed) = wrapCardProduct packed := by
  simp only [wrapCardProduct, List.map_cons, List.prod_cons, if_pos hs, Nat.one_mul]

/-- A sequence token multiplies the product by its cardinality. -/
theorem cardProduct_cons_sequence (seq : PackedSequence) (packed : PackedPath)
    (hs : ¬ seq.isEmpty = true) :
    wrapCardProduct (seq :: packed) = wrapSequenceSize seq * wrapCardProduct packed := by
  simp only [wrapCardProduct, List.map_cons, List.prod_cons, if_neg hs]

/-- The loop of the lazy constructor started at `( a, f )`: the running product
modulo `2 ^ 64`, and the flag of the last sequence token. -/
theorem countStep_foldl (packed : PackedPath) (a : Nat) (f : Bool) (ha : a < SIZE_MOD) :
    packed.foldl wrapCountStep (a, f) =
      ((a * wrapCardProduct packed) % SIZE_MOD,
        if packed.all (fun seq => seq.isEmpty) then f
        else decide (1 < (a * wrapCardProduct packed) % SIZE_MOD)) := by
  induction packed generalizing a f with
  | nil => simp [wrapCardProduct, Nat.mod_eq_of_lt ha]
  | cons seq packed ih =>
    rw [List.foldl_cons]
    by_cases hs : seq.isEmpty = true
    · have h1 : wrapCountStep (a, f) seq = (a, f) := by simp [wrapCountStep, hs]
      rw [h1, ih a f ha, cardProduct_cons_literal seq packed hs]
      simp only [List.all_cons, hs, Bool.true_and]
    · have h1 : wrapCountStep (a, f) seq =
          ((a * wrapSequenceSize seq) % SIZE_MOD, decide (1 < (a * wrapSequenceSize seq) % SIZE_MOD)) := by
        simp [wrapCountStep, hs]
      rw [h1, ih _ _ (Nat.mod_lt _ (by decide))]
      rw [cardProduct_cons_sequence seq packed hs, Nat.mod_mul_mod, Nat.mul_assoc]
      have h3 : (seq :: packed).all (fun seq => seq.isEmpty) = false := by
        simp only [List.all_cons, Bool.and_eq_false_imp]
        intro h; exact absurd h hs
      rw [h3]
      by_cases h4 : packed.all (fun seq => seq.isEmpty) = true
      · have h5 : wrapCardProduct packed = 1 := by
          unfold wrapCardProduct
          apply List.prod_eq_one
          intro x hx
          rw [List.mem_map] at hx
          obtain ⟨s, hs1, hs2⟩ := hx
          rw [List.all_eq_true] at h4
          rw [← hs2, if_pos (h4 s hs1)]
        simp [h4, h5]
      · simp [h4]

/-- The count and the flag the lazy constructor ends with. -/
theorem countPaths_eq (packed : PackedPath) :
    wrapCountPaths packed =
      (wrapCardProduct packed % SIZE_MOD, decide (1 < wrapCardProduct packed % SIZE_MOD)) := by
  unfold wrapCountPaths
  rw [countStep_foldl packed 1 false (by decide), Nat.one_mul]
  by_cases h4 : packed.all (fun seq => seq.isEmpty) = true
  · have h5 : wrapCardProduct packed = 1 := by
      unfold wrapCardProduct
      apply List.prod_eq_one
      intro x hx
      rw [List.mem_map] at hx
      obtain ⟨s, hs1, hs2⟩ := hx
      rw [List.all_eq_true] at h4
      rw [← hs2, if_pos (h4 s hs1)]
    rw [if_pos h4, h5]
    rfl
  · rw [if_neg h4]

/-- The loop of the lazy `operator[]` builds the entry of the product of the
lazy lists at the index reduced modulo the radix. -/
theorem lazyPathOf_eq_specCartesian (padChar : Char) (toks : List Str) (packed : PackedPath)
    (b : Nat) (h : 0 < prodLengths (wrapLazyParts padChar toks packed)) :
    wrapLazyPathOf padChar toks packed b (prodLengths (wrapLazyParts padChar toks packed)) =
      (specCartesian (wrapLazyParts padChar toks packed))[
        b % prodLengths (wrapLazyParts padChar toks packed)]? := by
  induction toks generalizing packed b with
  | nil => simp [wrapLazyPathOf, wrapLazyParts, specCartesian, prodLengths, Nat.mod_one]
  | cons tok toks ih =>
    cases packed with
    | nil => simp [wrapLazyPathOf, wrapLazyParts, specCartesian, prodLengths, Nat.mod_one]
    | cons seq packed =>
      have hprod : prodLengths (wrapLazyParts padChar (tok :: toks) (seq :: packed)) =
          (wrapLazyPart padChar tok seq).length * prodLengths (wrapLazyParts padChar toks packed) := by
        simp [prodLengths, wrapLazyParts]
      rw [hprod] at h ⊢
      have hm : 0 < prodLengths (wrapLazyParts padChar toks packed) := Nat.pos_of_mul_pos_left h
      have hp : 0 < (wrapLazyPart padChar tok seq).length := Nat.pos_of_mul_pos_right h
      simp only [wrapLazyParts]
      rw [specCartesian_getElem? _ _ _ hm]
      by_cases hs : seq.isEmpty = true
      · have hl : wrapLazyPart padChar tok seq = [tok] := by simp [wrapLazyPart, hs]
        rw [hl] at hp ⊢
        simp only [List.length_singleton, Nat.one_mul]
        rw [wrapLazyPathOf, if_pos hs, ih packed b hm]
        have hlt := Nat.mod_lt b hm
        rw [Nat.div_eq_of_lt hlt, Nat.mod_mod]
        cases (specCartesian (wrapLazyParts padChar toks packed))[
          b % prodLengths (wrapLazyParts padChar toks packed)]? with
        | none => rfl
        | some t => rfl
      · have hl : (wrapLazyPart padChar tok seq).length = wrapSequenceSize seq := by
          rw [lazyPart_length, if_neg hs]
        rw [hl] at hp h ⊢
        have hdiv : wrapSequenceSize seq * prodLengths (wrapLazyParts padChar toks packed)
            / wrapSequenceSize seq = prodLengths (wrapLazyParts padChar toks packed) :=
          Nat.mul_div_cancel_left _ hp
        have hcond : ¬ (wrapSequenceSize seq * prodLengths (wrapLazyParts padChar toks packed) = 0
            ∨ wrapSequenceSize seq = 0
            ∨ wrapSequenceSize seq * prodLengths (wrapLazyParts padChar toks packed)
              / wrapSequenceSize seq = 0) := by
          rw [hdiv]; omega
        rw [wrapLazyPathOf, if_neg hs, if_neg hcond, hdiv, ih packed _ hm]
        have hlt : b % (wrapSequenceSize seq * prodLengths (wrapLazyParts padChar toks packed))
            / prodLengths (wrapLazyParts padChar toks packed) < wrapSequenceSize seq := by
          rw [Nat.div_lt_iff_lt_mul hm]
          exact Nat.mod_lt _ h
        have hget : (wrapLazyPart padChar tok seq)[
            b % (wrapSequenceSize seq * prodLengths (wrapLazyParts padChar toks packed))
              / prodLengths (wrapLazyParts padChar toks packed)]? =
            some (wrapUnpackSequenceLazy padChar seq
              (b % (wrapSequenceSize seq * prodLengths (wrapLazyParts padChar toks packed))
                / prodLengths (wrapLazyParts padChar toks packed))) := by
          simp [wrapLazyPart, hs, List.getElem?_map, List.getElem?_range hlt]
        rw [hget]
        cases (specCartesian (wrapLazyParts padChar toks packed))[
          b % (wrapSequenceSize seq * prodLengths (wrapLazyParts padChar toks packed))
            % prodLengths (wrapLazyParts padChar toks packed)]? with
        | none => rfl
        | some t => rfl

/-! ## The eager expander on any pattern -/

/-- The loop that fills `pathParts` comes back with `parts` exactly when every
token has its list in `parts`: its own text for a literal token, the
expansion that `unpackSequence` returns for a sequence token. -/
theorem pathPartsOf_eq_some_iff (padChar : Char) (ts : List Str) (parts : List (List Str)) :
    pathPartsOf padChar ts (wrapParsePatterns ts) = some parts ↔
      List.Forall₂ (fun tok part =>
          if (wrapParseToken tok).isEmpty then part = [tok]
          else unpackSequence padChar (wrapParseToken tok) = some part) ts parts := by
  induction ts generalizing parts with
  | nil =>
    constructor
    · intro h
      simp only [pathPartsOf, wrapParsePatterns, List.map_nil, Option.some.injEq] at h
      subst h
      exact List.Forall₂.nil
    · intro h
      cases h
      rfl
  | cons t ts ih =>
    rw [pathPartsOf_cons]
    constructor
    · intro h
      by_cases he : (wrapParseToken t).isEmpty = true
      · rw [if_pos he] at h
        cases hr : pathPartsOf padChar ts (wrapParsePatterns ts) with
        | none => simp [hr] at h
        | some ps =>
          simp only [hr, Option.some.injEq] at h
          subst h
          exact List.Forall₂.cons (by rw [if_pos he]) ((ih ps).mp hr)
      · rw [if_neg he] at h
        cases hu : unpackSequence padChar (wrapParseToken t) with
        | none => simp [hu] at h
        | some p =>
          cases hr : pathPartsOf padChar ts (wrapParsePatterns ts) with
          | none => simp [hu, hr] at h
          | some ps =>
            simp only [hu, hr, Option.some.injEq] at h
            subst h
            exact List.Forall₂.cons (by rw [if_neg he]; exact hu) ((ih ps).mp hr)
    · intro h
      cases h with
      | cons h1 h2 =>
        rename_i p ps
        rw [(ih ps).mpr h2]
        by_cases he : (wrapParseToken t).isEmpty = true
        · rw [if_pos he] at h1 ⊢
          rw [h1]
        · rw [if_neg he] at h1 ⊢
          rw [h1]

/-- The constructor of `FileSequence` in terms of its two steps. -/
theorem eager_ctor_eq (pattern delimiters : Str) (padChar : Char) :
    FileSequence.wrapCtor pattern delimiters padChar =
      match pathPartsOf padChar (splitOriginalPattern pattern (effectiveDelimiters delimiters))
          (wrapParsePatterns (splitOriginalPattern pattern (effectiveDelimiters delimiters))) with
      | none => none
      | some pathParts =>
        match generatePaths pathParts with
        | none => none
        | some paths => some ⟨paths⟩ := rfl

/-- With the per-token lists `parts` and no `size_t` overflow the eager
constructor leaves the product list. -/
theorem eager_ctor_of_parts (pattern delimiters : Str) (padChar : Char)
    (parts : List (List Str))
    (hparts : pathPartsOf padChar (splitOriginalPattern pattern (effectiveDelimiters delimiters))
      (wrapParsePatterns (splitOriginalPattern pattern (effectiveDelimiters delimiters)))
      = some parts)
    (hsize : prodLengths parts < SIZE_MOD) :
    FileSequence.wrapCtor pattern delimiters padChar = some ⟨specCartesian parts⟩ := by
  rw [eager_ctor_eq, hparts]
  simp only [generatePaths_eq_specCartesian parts hsize]

/-- The number of paths the eager constructor leaves is the product of the
lengths of the per-token lists reduced modulo `2 ^ 64`. -/
theorem eager_ctor_length (pattern delimiters : Str) (padChar : Char) (s : FileSequence)
    (h : FileSequence.wrapCtor pattern delimiters padChar = some s) :
    ∃ parts, pathPartsOf padChar (splitOriginalPattern pattern (effectiveDelimiters delimiters))
        (wrapParsePatterns (splitOriginalPattern pattern (effectiveDelimiters delimiters)))
        = some parts
      ∧ s.m_paths.length = prodLengths parts % SIZE_MOD := by
  rw [eager_ctor_eq] at h
  cases hp : pathPartsOf padChar (splitOriginalPattern pattern (effectiveDelimiters delimiters))
      (wrapParsePatterns (splitOriginalPattern pattern (effectiveDelimiters delimiters))) with
  | none => simp [hp] at h
  | some parts =>
    refine ⟨parts, rfl, ?_⟩
    cases hg : generatePaths parts with
    | none => simp [hp, hg] at h
    | some paths =>
      simp only [hp, hg, Option.some.injEq] at h
      subst h
      unfold generatePaths at hg
      rw [collect_length _ _ _ _ hg, totalPathsOf_eq parts 1 (by decide), Nat.one_mul]

/-- The eager expansion of the token "#": the 10000 texts "0000" to "9999". -/
theorem unpackSequence_hash (padChar : Char) :
    unpackSequence padChar (wrapParseToken "#".toList)
      = some ((List.range 10000).map
          (fun (k : Nat) => writePadded padChar (0 + (k : Int) * 1) 4)) := by
  have hp : wrapParseToken "#".toList = [⟨0, 9999, 1, 4⟩] := by decide
  rw [hp]
  exact unpackSequence_single padChar _ _
    (slice_ascending padChar ⟨0, 9999, 1, 4⟩ (by decide) (by decide) (by decide) (by decide)
      (by decide) (by decide)).2.1

/-! ## The eager path list is the product of the per-token lists -/

/-- On the wrapping quotient: for the pattern "2147483646-2147483647" the
eager constructor does not come back, so there is no path list at all (the loop
over the slice never ends); and for the pattern "#.#.#.#.#" the five sequence
tokens expand to 10000 texts each, so the product of the lengths of the
per-token lists is `10 ^ 20`, which is above `2 ^ 64`: `totalPaths` is a
`size_t` and the number of paths is never `10 ^ 20`. -/
theorem hash_product_wrap :
    FileSequence.wrapCtor "2147483646-2147483647".toList [] '0' = none
    ∧ (pathPartsOf '0' (splitOriginalPattern "#.#.#.#.#".toList (effectiveDelimiters []))
        (wrapParsePatterns (splitOriginalPattern "#.#.#.#.#".toList (effectiveDelimiters [])))).map
          prodLengths = some (10 ^ 20)
    ∧ (FileSequence.wrapCtor "#.#.#.#.#".toList [] '0').map (fun s => s.m_paths.length)
        ≠ some (10 ^ 20) := by
  have hex : ∃ parts, pathPartsOf '0'
      (splitOriginalPattern "#.#.#.#.#".toList (effectiveDelimiters []))
      (wrapParsePatterns (splitOriginalPattern "#.#.#.#.#".toList (effectiveDelimiters [])))
      = some parts ∧ prodLengths parts = 10 ^ 20 := by
    have hsplit : splitOriginalPattern "#.#.#.#.#".toList (effectiveDelimiters [])
        = ["#".toList, ".".toList, "#".toList, ".".toList, "#".toList, ".".toList,
            "#".toList, ".".toList, "#".toList] := by decide
    have hseq : (wrapParseToken "#".toList).isEmpty = false := by decide
    have hlit : (wrapParseToken ".".toList).isEmpty = true := by decide
    obtain ⟨A, hA, hlenA⟩ : ∃ A, unpackSequence '0' (wrapParseToken "#".toList) = some A
        ∧ A.length = 10000 := ⟨_, unpackSequence_hash '0', by simp⟩
    have h1 : (if (wrapParseToken "#".toList).isEmpty then A = ["#".toList]
        else unpackSequence '0' (wrapParseToken "#".toList) = some A) := by
      rw [hseq]
      exact hA
    have h2 : (if (wrapParseToken ".".toList).isEmpty then [".".toList] = [".".toList]
        else unpackSequence '0' (wrapParseToken ".".toList) = some [".".toList]) := by
      rw [hlit]
      rfl
    refine ⟨[A, [".".toList], A, [".".toList], A, [".".toList], A, [".".toList], A], ?_, ?_⟩
    · rw [hsplit, pathPartsOf_eq_some_iff]
      exact List.Forall₂.cons h1 (List.Forall₂.cons h2 (List.Forall₂.cons h1
        (List.Forall₂.cons h2 (List.Forall₂.cons h1 (List.Forall₂.cons h2
        (List.Forall₂.cons h1 (List.Forall₂.cons h2 (List.Forall₂.cons h1
        List.Forall₂.nil))))))))
    · simp only [prodLengths, List.map_cons, List.map_nil, hlenA,
        List.length_singleton, List.prod_cons, List.prod_nil]
      norm_num
  obtain ⟨parts, hparts, hprod⟩ := hex
  refine ⟨?_, ?_, ?_⟩
  · apply ctor_none_of_single _ _ "2147483646-2147483647".toList _ (by decide) (by decide)
    have hp : wrapParseToken "2147483646-2147483647".toList = [⟨2147483646, 2147483647, 1, 0⟩] := by
      decide
    rw [hp]
    exact unpackSequence_single_none _ _
      (unpackSlice_diverges _ _ (by decide) (by decide) _ _ (by decide) (by decide))
  · rw [hparts, Option.map_some', hprod]
  · intro h
    rw [Option.map_eq_some'] at h
    obtain ⟨s, hc, hlen⟩ := h
    obtain ⟨parts2, hp, hl⟩ := eager_ctor_length _ _ _ s hc
    rw [hparts, Option.some.injEq] at hp
    subst hp
    rw [hlen, hprod] at hl
    norm_num [SIZE_MOD] at hl

/-! ## Accepted slices and cardinalities -/

/-- An accepted slice passed `desc.isOk()`. -/
theorem parseSlice_isOk (buf : Str) (d : SequenceDesc) (h : wrapParseSlice buf = some d) :
    d.wrapIsOk = true := by
  unfold wrapParseSlice at h
  split at h
  · simp at h
  · split at h
    · simp at h
    · split at h
      · simp at h
      · split at h
        · simp at h
        · split at h
          · rename_i hok
            simp only [Option.some.injEq] at h
            subst h
            exact hok
          · simp at h

/-- Every slice of a token passed `desc.isOk()`. -/
theorem parseToken_isOk (token : Str) (d : SequenceDesc) (hd : d ∈ wrapParseToken token) :
    d.wrapIsOk = true := by
  obtain ⟨buf, hbuf⟩ := parseToken_mem token d hd
  exact parseSlice_isOk buf d hbuf

/-- A slice that passes `isOk()` has a cardinality of at least 1, below
`2 ^ 64`. -/
theorem size_pos_of_isOk (d : SequenceDesc) (h : d.wrapIsOk = true) :
    1 ≤ d.wrapSize ∧ d.wrapSize < SIZE_MOD := by
  have hq : 0 ≤ d.wrapQuot := by simpa [SequenceDesc.wrapIsOk] using h
  have hr := toInt32_range (Int.tdiv (toInt32 (d.end_ - d.beg)) d.step)
  have hq2 : d.wrapQuot ≤ INT32_MAX := hr.2
  unfold INT32_MAX at hq2
  unfold SequenceDesc.wrapSize
  rw [if_pos h]
  unfold toSizeT toInt32 SIZE_MOD
  constructor <;> omega

/-- The cardinality `wrapSequenceSize` computes is the sum of the cardinalities of
the slices modulo `2 ^ 64`. -/
theorem sequenceSize_eq (seq : PackedSequence) :
    wrapSequenceSize seq = wrapCardinality seq % SIZE_MOD := by
  have key : ∀ (l : PackedSequence) (a : Nat), a < SIZE_MOD →
      l.foldl (fun result slice => (result + slice.wrapSize) % SIZE_MOD) a
        = (a + wrapCardinality l) % SIZE_MOD := by
    intro l
    induction l with
    | nil =>
      intro a ha
      simp [wrapCardinality, Nat.mod_eq_of_lt ha]
    | cons d l ih =>
      intro a _
      rw [List.foldl_cons, ih _ (Nat.mod_lt _ (by decide))]
      simp only [wrapCardinality, List.map_cons, List.sum_cons]
      rw [Nat.mod_add_mod, Nat.add_assoc]
  have := key seq 0 (by decide)
  rw [Nat.zero_add] at this
  exact this

/-- The sum of the cardinalities of accepted slices is at least 1. -/
theorem specCardinality_pos (seq : PackedSequence) (hne : ¬ seq.isEmpty = true)
    (hok : ∀ d ∈ seq, d.wrapIsOk = true) : 1 ≤ wrapCardinality seq := by
  cases seq with
  | nil => simp at hne
  | cons d l =>
    have := (size_pos_of_isOk d (hok d (List.mem_cons_self _ _))).1
    simp only [wrapCardinality, List.map_cons, List.sum_cons]
    omega

/-- When the total of the spec is below `2 ^ 64`, no cardinality and no
product overflows: `wrapSequenceSize` is the sum of the spec for every token, and
the product of the cardinalities is the total of the spec. -/
theorem no_overflow_of_specTotal (packed : PackedPath)
    (hok : ∀ seq ∈ packed, ∀ d ∈ seq, d.wrapIsOk = true)
    (htot : wrapTotal packed < SIZE_MOD) :
    (∀ seq ∈ packed, wrapSequenceSize seq = wrapCardinality seq)
    ∧ wrapCardProduct packed = wrapTotal packed ∧ 1 ≤ wrapTotal packed := by
  induction packed with
  | nil => exact ⟨by simp, rfl, by simp [wrapTotal]⟩
  | cons seq packed ih =>
    have hok2 : ∀ s ∈ packed, ∀ d ∈ s, d.wrapIsOk = true :=
      fun s hs => hok s (List.mem_cons_of_mem _ hs)
    by_cases hs : seq.isEmpty = true
    · have h1 : wrapTotal (seq :: packed) = wrapTotal packed := by
        simp only [wrapTotal, List.map_cons, List.prod_cons, if_pos hs, Nat.one_mul]
      rw [h1] at htot ⊢
      obtain ⟨i1, i2, i3⟩ := ih hok2 htot
      refine ⟨?_, ?_, i3⟩
      · intro s hmem
        rcases List.mem_cons.mp hmem with rfl | hmem
        · have : s = [] := by simpa using hs
          rw [this]; rfl
        · exact i1 s hmem
      · rw [cardProduct_cons_literal seq packed hs, i2]
    · have h1 : wrapTotal (seq :: packed) = wrapCardinality seq * wrapTotal packed := by
        simp only [wrapTotal, List.map_cons, List.prod_cons, if_neg hs]
      rw [h1] at htot ⊢
      have hc := specCardinality_pos seq hs (hok seq (List.mem_cons_self _ _))
      have hpos : 1 ≤ wrapTotal packed := by
        unfold wrapTotal
        apply Nat.one_le_iff_ne_zero.mpr
        intro h0
        rw [List.prod_eq_zero_iff] at h0
        rw [List.mem_map] at h0
        obtain ⟨s, hs1, hs2⟩ := h0
        by_cases he : s.isEmpty = true
        · rw [if_pos he] at hs2; omega
        · rw [if_neg he] at hs2
          have := specCardinality_pos s he (hok2 s hs1)
          omega
      have hlt : wrapTotal packed < SIZE_MOD :=
        Nat.lt_of_le_of_lt (Nat.le_mul_of_pos_left _ hc) htot
      have hlt2 : wrapCardinality seq < SIZE_MOD :=
        Nat.lt_of_le_of_lt (Nat.le_mul_of_pos_right _ hpos) htot
      obtain ⟨i1, i2, _⟩ := ih hok2 hlt
      have hseq : wrapSequenceSize seq = wrapCardinality seq := by
        rw [sequenceSize_eq, Nat.mod_eq_of_lt hlt2]
      refine ⟨?_, ?_, Nat.mul_pos hc hpos⟩
      · intro s hmem
        rcases List.mem_cons.mp hmem with rfl | hmem
        · exact hseq
        · exact i1 s hmem
      · rw [cardProduct_cons_sequence seq packed hs, i2, hseq]

/-- The slices of the tokens of a pattern all passed `desc.isOk()`. -/
theorem parsePatterns_isOk (tokens : List Str) :
    ∀ seq ∈ wrapParsePatterns tokens, ∀ d ∈ seq, d.wrapIsOk = true := by
  intro seq hseq d hd
  unfold wrapParsePatterns at hseq
  rw [List.mem_map] at hseq
  obtain ⟨tok, _, rfl⟩ := hseq
  exact parseToken_isOk tok d hd

/-! ## The slice a branch falls in -/

/-- The text of the lazy `unpackSequence` is the padded value of the slice and
offset that its loop stops at, and empty when it falls through. -/
theorem unpackSequenceLazy_eq (padChar : Char) (seq : PackedSequence) (branch : Nat) :
    wrapUnpackSequenceLazy padChar seq branch =
      match wrapLazySlice seq branch with
      | some (slice, offset) =>
        writePadded padChar (toInt32 (slice.beg + slice.step * (offset : Int))) slice.pad
      | none => [] := by
  induction seq generalizing branch with
  | nil => rfl
  | cons d l ih =>
    unfold wrapUnpackSequenceLazy wrapLazySlice
    split
    · rfl
    · exact ih _

/-- A branch below the sum of the cardinalities falls in a slice, at an offset
below the cardinality of that slice. -/
theorem lazySlice_isSome (seq : PackedSequence) (branch : Nat)
    (h : branch < wrapCardinality seq) :
    ∃ slice offset, wrapLazySlice seq branch = some (slice, offset) ∧ slice ∈ seq
      ∧ offset < slice.wrapSize := by
  induction seq generalizing branch with
  | nil => simp [wrapCardinality] at h
  | cons d l ih =>
    unfold wrapLazySlice
    by_cases hb : branch < d.wrapSize
    · rw [if_pos hb]
      exact ⟨d, branch, rfl, List.mem_cons_self _ _, hb⟩
    · rw [if_neg hb]
      simp only [wrapCardinality, List.map_cons, List.sum_cons] at h
      obtain ⟨s, o, h1, h2, h3⟩ := ih (branch - d.wrapSize) (by unfold wrapCardinality; omega)
      exact ⟨s, o, h1, List.mem_cons_of_mem _ h2, h3⟩

/-! ## The lazy expander on any pattern -/

/-- A literal token leaves the total of the spec as it is. -/
theorem specTotal_cons_literal (seq : PackedSequence) (packed : PackedPath)
    (hs : seq.isEmpty = true) : wrapTotal (seq :: packed) = wrapTotal packed := by
  simp only [wrapTotal, List.map_cons, List.prod_cons, if_pos hs, Nat.one_mul]

/-- A sequence token multiplies the total of the spec by its cardinality. -/
theorem specTotal_cons_sequence (seq : PackedSequence) (packed : PackedPath)
    (hs : ¬ seq.isEmpty = true) :
    wrapTotal (seq :: packed) = wrapCardinality seq * wrapTotal packed := by
  simp only [wrapTotal, List.map_cons, List.prod_cons, if_neg hs]

/-- Reducing the index modulo a multiple of the total keeps the path of the
spec. -/
theorem specLazyPath_mod (padChar : Char) (toks : List Str) (packed : PackedPath) (m j : Nat)
    (h : wrapTotal packed ∣ m) :
    wrapSpecLazyPath padChar toks packed (j % m) = wrapSpecLazyPath padChar toks packed j := by
  induction toks generalizing packed with
  | nil => rfl
  | cons tok toks ih =>
    cases packed with
    | nil => rfl
    | cons seq packed =>
      simp only [wrapSpecLazyPath]
      by_cases hs : seq.isEmpty = true
      · rw [specTotal_cons_literal seq packed hs] at h
        rw [if_pos hs, if_pos hs, ih packed h]
      · rw [specTotal_cons_sequence seq packed hs] at h
        have h1 : wrapTotal packed * wrapCardinality seq ∣ m := by rwa [Nat.mul_comm]
        have h2 : wrapTotal packed ∣ m := Dvd.dvd.trans (Dvd.intro_left _ rfl) h
        rw [if_neg hs, if_neg hs, digit_mod _ _ _ _ h1, ih packed h2]

/-- Reducing the index modulo a multiple of the total keeps the digits. -/
theorem specDigits_mod (packed : PackedPath) (m j : Nat) (h : wrapTotal packed ∣ m) :
    wrapDigits packed (j % m) = wrapDigits packed j := by
  induction packed with
  | nil => rfl
  | cons seq packed ih =>
    simp only [wrapDigits]
    by_cases hs : seq.isEmpty = true
    · rw [specTotal_cons_literal seq packed hs] at h
      rw [if_pos hs, if_pos hs, ih h]
    · rw [specTotal_cons_sequence seq packed hs] at h
      have h1 : wrapTotal packed * wrapCardinality seq ∣ m := by rwa [Nat.mul_comm]
      have h2 : wrapTotal packed ∣ m := Dvd.dvd.trans (Dvd.intro_left _ rfl) h
      rw [if_neg hs, if_neg hs, digit_mod _ _ _ _ h1, ih h2]

/-- Two indices below the total with the same digits are the same index. -/
theorem specDigits_injective (packed : PackedPath) (i j : Nat)
    (hi : i < wrapTotal packed) (hj : j < wrapTotal packed)
    (h : wrapDigits packed i = wrapDigits packed j) : i = j := by
  induction packed generalizing i j with
  | nil =>
    simp only [wrapTotal, List.map_nil, List.prod_nil] at hi hj
    omega
  | cons seq packed ih =>
    simp only [wrapDigits] at h
    by_cases hs : seq.isEmpty = true
    · rw [specTotal_cons_literal seq packed hs] at hi hj
      rw [if_pos hs, if_pos hs] at h
      exact ih i j hi hj h
    · rw [specTotal_cons_sequence seq packed hs] at hi hj
      rw [if_neg hs, if_neg hs, List.cons.injEq] at h
      have hm : 0 < wrapTotal packed := by
        rcases Nat.eq_zero_or_pos (wrapTotal packed) with h0 | h0
        · rw [h0] at hi; simp at hi
        · exact h0
      have hdi : i / wrapTotal packed < wrapCardinality seq := by
        rw [Nat.div_lt_iff_lt_mul hm]; exact hi
      have hdj : j / wrapTotal packed < wrapCardinality seq := by
        rw [Nat.div_lt_iff_lt_mul hm]; exact hj
      have hq : i / wrapTotal packed = j / wrapTotal packed := by
        have := h.1
        rwa [Nat.mod_eq_of_lt hdi, Nat.mod_eq_of_lt hdj] at this
      have hr : i % wrapTotal packed = j % wrapTotal packed := by
        apply ih _ _ (Nat.mod_lt _ hm) (Nat.mod_lt _ hm)
        rw [specDigits_mod packed _ _ (dvd_refl _), specDigits_mod packed _ _ (dvd_refl _)]
        exact h.2
      rw [← Nat.div_add_mod i (wrapTotal packed), ← Nat.div_add_mod j (wrapTotal packed),
        hq, hr]

/-- Without overflow the loop of the lazy `operator[]`, started with the total
as radix, comes back with the path of the spec at the index reduced modulo the
total. -/
theorem lazyPathOf_eq_specLazyPath (padChar : Char) (toks : List Str) (packed : PackedPath)
    (b : Nat) (hseq : ∀ seq ∈ packed, wrapSequenceSize seq = wrapCardinality seq)
    (hpos : 0 < wrapTotal packed) :
    ∃ text, wrapLazyPathOf padChar toks packed b (wrapTotal packed) = some text
      ∧ wrapSpecLazyPath padChar toks packed (b % wrapTotal packed) = some text := by
  induction toks generalizing packed b with
  | nil => exact ⟨[], by simp [wrapLazyPathOf], by simp [wrapSpecLazyPath]⟩
  | cons tok toks ih =>
    cases packed with
    | nil => exact ⟨[], by simp [wrapLazyPathOf], by simp [wrapSpecLazyPath]⟩
    | cons seq packed =>
      have hseq2 : ∀ s ∈ packed, wrapSequenceSize s = wrapCardinality s :=
        fun s hs => hseq s (List.mem_cons_of_mem _ hs)
      by_cases hs : seq.isEmpty = true
      · rw [specTotal_cons_literal seq packed hs] at hpos ⊢
        obtain ⟨t, h1, h2⟩ := ih packed b hseq2 hpos
        refine ⟨tok ++ t, ?_, ?_⟩
        · rw [wrapLazyPathOf, if_pos hs, h1]
        · simp only [wrapSpecLazyPath]
          rw [if_pos hs, h2]
      · rw [specTotal_cons_sequence seq packed hs] at hpos ⊢
        have hm : 0 < wrapTotal packed := Nat.pos_of_mul_pos_left hpos
        have hc : 0 < wrapCardinality seq := Nat.pos_of_mul_pos_right hpos
        have hss : wrapSequenceSize seq = wrapCardinality seq := hseq seq (List.mem_cons_self _ _)
        have hdiv : wrapCardinality seq * wrapTotal packed / wrapCardinality seq
            = wrapTotal packed := Nat.mul_div_cancel_left _ hc
        have hcond : ¬ (wrapCardinality seq * wrapTotal packed = 0
            ∨ wrapCardinality seq = 0
            ∨ wrapCardinality seq * wrapTotal packed / wrapCardinality seq = 0) := by
          rw [hdiv]; omega
        obtain ⟨t, h1, h2⟩ :=
          ih packed (b % (wrapCardinality seq * wrapTotal packed)) hseq2 hm
        rw [specLazyPath_mod padChar toks packed _ _ (dvd_refl _)] at h2
        have hlt : b % (wrapCardinality seq * wrapTotal packed) / wrapTotal packed
            < wrapCardinality seq := by
          rw [Nat.div_lt_iff_lt_mul hm]
          exact Nat.mod_lt _ hpos
        obtain ⟨slice, offset, hsl, _, _⟩ := lazySlice_isSome seq _ hlt
        refine ⟨writePadded padChar (toInt32 (slice.beg + slice.step * (offset : Int)))
          slice.pad ++ t, ?_, ?_⟩
        · rw [wrapLazyPathOf, if_neg hs, hss, if_neg hcond, hdiv, h1, unpackSequenceLazy_eq, hsl]
        · simp only [wrapSpecLazyPath]
          rw [if_neg hs, Nat.mod_eq_of_lt hlt, h2]
          simp only [wrapSliceText, hsl, Option.map_some']

/-- Without overflow every round of the loop of the lazy `operator[]` is well
defined: the radix `branchesLeft` is not zero and is a multiple of the
cardinality of the token, the cardinality is at least 1 and so is the quotient
the round divides by, and the branch is below the cardinality and falls in a
slice. -/
theorem lazyRounds_defined (packed : PackedPath) (b : Nat)
    (hseq : ∀ seq ∈ packed, wrapSequenceSize seq = wrapCardinality seq)
    (hpos : 0 < wrapTotal packed) :
    ∀ r ∈ wrapLazyRounds packed b (wrapTotal packed),
      r.2.2 ≠ 0 ∧ wrapSequenceSize r.1 ∣ r.2.2 ∧ 1 ≤ wrapSequenceSize r.1
      ∧ r.2.2 / wrapSequenceSize r.1 ≠ 0
      ∧ (r.2.1 % r.2.2) / (r.2.2 / wrapSequenceSize r.1) < wrapSequenceSize r.1
      ∧ (wrapLazySlice r.1 ((r.2.1 % r.2.2) / (r.2.2 / wrapSequenceSize r.1))).isSome = true := by
  induction packed generalizing b with
  | nil => intro r hr; simp [wrapLazyRounds] at hr
  | cons seq packed ih =>
    have hseq2 : ∀ s ∈ packed, wrapSequenceSize s = wrapCardinality s :=
      fun s hs => hseq s (List.mem_cons_of_mem _ hs)
    intro r hr
    by_cases hs : seq.isEmpty = true
    · rw [specTotal_cons_literal seq packed hs] at hpos hr
      rw [wrapLazyRounds, if_pos hs] at hr
      exact ih b hseq2 hpos r hr
    · rw [specTotal_cons_sequence seq packed hs] at hpos hr
      have hm : 0 < wrapTotal packed := Nat.pos_of_mul_pos_left hpos
      have hc : 0 < wrapCardinality seq := Nat.pos_of_mul_pos_right hpos
      have hss : wrapSequenceSize seq = wrapCardinality seq := hseq seq (List.mem_cons_self _ _)
      have hdiv : wrapCardinality seq * wrapTotal packed / wrapCardinality seq
          = wrapTotal packed := Nat.mul_div_cancel_left _ hc
      rw [wrapLazyRounds, if_neg hs, hss, hdiv] at hr
      rcases List.mem_cons.mp hr with rfl | hr
      · simp only
        rw [hss, hdiv]
        have hlt : b % (wrapCardinality seq * wrapTotal packed) / wrapTotal packed
            < wrapCardinality seq := by
          rw [Nat.div_lt_iff_lt_mul hm]
          exact Nat.mod_lt _ hpos
        obtain ⟨slice, offset, hsl, _, _⟩ := lazySlice_isSome seq _ hlt
        refine ⟨by omega, Dvd.intro _ rfl, hc, by omega, hlt, ?_⟩
        rw [hsl]; rfl
      · exact ih _ hseq2 hm r hr

/-- `wrapParsePatterns` gives one entry per token. -/
theorem parsePatterns_length (tokens : List Str) :
    (wrapParsePatterns tokens).length = tokens.length := by
  simp [wrapParsePatterns]

/-- When the total of the spec is below `2 ^ 64`: the lazy expander is ok
exactly when the total is above 1, its size is then the total, and its
`operator[]` at an index below the size is the entry of the product of the
lazy lists at that index. -/
theorem lazy_of_pattern (pattern delimiters : Str) (padChar : Char)
    (htot : wrapTotal (wrapParsePatterns
      (splitOriginalPattern pattern (effectiveDelimiters delimiters))) < SIZE_MOD) :
    (FileSequenceLazy.wrapCtor pattern delimiters padChar).isOk
      = decide (1 < wrapTotal (wrapParsePatterns
          (splitOriginalPattern pattern (effectiveDelimiters delimiters))))
    ∧ (FileSequenceLazy.wrapCtor pattern delimiters padChar).size
      = (if 1 < wrapTotal (wrapParsePatterns
            (splitOriginalPattern pattern (effectiveDelimiters delimiters)))
        then wrapTotal (wrapParsePatterns
            (splitOriginalPattern pattern (effectiveDelimiters delimiters)))
        else 0)
    ∧ prodLengths (wrapLazyParts padChar
          (splitOriginalPattern pattern (effectiveDelimiters delimiters))
          (wrapParsePatterns (splitOriginalPattern pattern (effectiveDelimiters delimiters))))
      = wrapTotal (wrapParsePatterns
          (splitOriginalPattern pattern (effectiveDelimiters delimiters)))
    ∧ (∀ i, i < (FileSequenceLazy.wrapCtor pattern delimiters padChar).size →
        (FileSequenceLazy.wrapCtor pattern delimiters padChar).wrapIndex i
          = (specCartesian (wrapLazyParts padChar
              (splitOriginalPattern pattern (effectiveDelimiters delimiters))
              (wrapParsePatterns
                (splitOriginalPattern pattern (effectiveDelimiters delimiters)))))[i]?) := by
  obtain ⟨_, hcp, _⟩ := no_overflow_of_specTotal _ (parsePatterns_isOk _) htot
  have hprod := prodLengths_lazyParts padChar
    (splitOriginalPattern pattern (effectiveDelimiters delimiters))
    (wrapParsePatterns (splitOriginalPattern pattern (effectiveDelimiters delimiters)))
    (parsePatterns_length _).symm
  rw [hcp] at hprod
  have hcount := countPaths_eq (wrapParsePatterns
    (splitOriginalPattern pattern (effectiveDelimiters delimiters)))
  rw [hcp, Nat.mod_eq_of_lt htot] at hcount
  have hsize : (FileSequenceLazy.wrapCtor pattern delimiters padChar).size
      = (if 1 < wrapTotal (wrapParsePatterns
            (splitOriginalPattern pattern (effectiveDelimiters delimiters)))
        then wrapTotal (wrapParsePatterns
            (splitOriginalPattern pattern (effectiveDelimiters delimiters)))
        else 0) := by
    rw [lazy_size_eq, hcount]
    simp only [decide_eq_true_eq]
  refine ⟨?_, hsize, hprod, ?_⟩
  · rw [lazy_isOk_eq, hcount]
  · intro i hi
    rw [lazy_index_eq]
    rw [hsize] at hi ⊢
    split at hi
    · rename_i hgt
      rw [if_pos hgt, ← hprod]
      rw [← hprod] at hi
      rw [lazyPathOf_eq_specCartesian padChar _ _ i (by omega), Nat.mod_eq_of_lt hi]
    · omega

/-! ## The lazy path at an index -/

/-- On the wrapping quotient: for every pattern whose total (the product of the
cardinalities of its sequence tokens, each the sum of the cardinalities of its
slices) is below `2 ^ 64` and on which the lazy expander is ok, and for every
`idx < size()`, `lazy[idx]` is the concatenation over the tokens in order of:
the token's text for a literal token; and for a sequence token `k` with
cardinality `c_k` the text `writePadded( begin + step * offset, pad )` (the
value converted to `int32_t`) of the slice and offset that the digit
`d_k = (idx / (product of c_j for the sequence tokens j after k)) mod c_k`
selects by subtracting each earlier slice's cardinality from it. -/
theorem lazy_index_mixed_radix_wrap (pattern delimiters : Str) (padChar : Char) (idx : Nat)
    (htot : wrapTotal (wrapParsePatterns
      (splitOriginalPattern pattern (effectiveDelimiters delimiters))) < SIZE_MOD)
    (hok : (FileSequenceLazy.wrapCtor pattern delimiters padChar).isOk = true)
    (hidx : idx < (FileSequenceLazy.wrapCtor pattern delimiters padChar).size) :
    ∃ text, (FileSequenceLazy.wrapCtor pattern delimiters padChar).wrapIndex idx = some text
      ∧ wrapSpecLazyPath padChar (splitOriginalPattern pattern (effectiveDelimiters delimiters))
          (wrapParsePatterns (splitOriginalPattern pattern (effectiveDelimiters delimiters))) idx
        = some text := by
  obtain ⟨hseq, _, hpos⟩ := no_overflow_of_specTotal _ (parsePatterns_isOk _) htot
  obtain ⟨h1, h2, _, _⟩ := lazy_of_pattern pattern delimiters padChar htot
  rw [h1, decide_eq_true_eq] at hok
  rw [h2, if_pos hok] at hidx
  obtain ⟨text, t1, t2⟩ := lazyPathOf_eq_specLazyPath padChar
    (splitOriginalPattern pattern (effectiveDelimiters delimiters))
    (wrapParsePatterns (splitOriginalPattern pattern (effectiveDelimiters delimiters)))
    idx hseq hpos
  rw [Nat.mod_eq_of_lt hidx] at t2
  refine ⟨text, ?_, t2⟩
  rw [lazy_index_eq, h2, if_pos hok]
  exact t1

/-! ## Indices and concrete paths -/

/-- On the wrapping quotient: for every pattern whose total is below `2 ^ 64` and on
which the lazy expander is ok, indexed retrieval is a bijection between the
indices `[0, total)` and the combinations of one text per token: the paths
`lazy[0]`, ..., `lazy[total - 1]` are the product list of the per-token lists,
so every concrete path is returned at some index; distinct indices below the
total have distinct digit tuples; and `lazy[i] != lazy[j]` holds for all
distinct `i, j < total` exactly when no two combinations give the same text
(it fails when a token lists a value twice). -/
theorem lazy_enumerates_wrap (pattern delimiters : Str) (padChar : Char)
    (htot : wrapTotal (wrapParsePatterns
      (splitOriginalPattern pattern (effectiveDelimiters delimiters))) < SIZE_MOD)
    (hok : (FileSequenceLazy.wrapCtor pattern delimiters padChar).isOk = true) :
    (FileSequenceLazy.wrapCtor pattern delimiters padChar).wrapGetFullPaths
      = some (specCartesian (wrapLazyParts padChar
          (splitOriginalPattern pattern (effectiveDelimiters delimiters))
          (wrapParsePatterns (splitOriginalPattern pattern (effectiveDelimiters delimiters)))))
    ∧ (∀ q ∈ specCartesian (wrapLazyParts padChar
          (splitOriginalPattern pattern (effectiveDelimiters delimiters))
          (wrapParsePatterns (splitOriginalPattern pattern (effectiveDelimiters delimiters)))),
        ∃ i, i < (FileSequenceLazy.wrapCtor pattern delimiters padChar).size
          ∧ (FileSequenceLazy.wrapCtor pattern delimiters padChar).wrapIndex i = some q)
    ∧ (∀ i j, i < (FileSequenceLazy.wrapCtor pattern delimiters padChar).size →
        j < (FileSequenceLazy.wrapCtor pattern delimiters padChar).size → i ≠ j →
        wrapDigits (wrapParsePatterns
            (splitOriginalPattern pattern (effectiveDelimiters delimiters))) i
          ≠ wrapDigits (wrapParsePatterns
            (splitOriginalPattern pattern (effectiveDelimiters delimiters))) j)
    ∧ ((∀ i j, i < (FileSequenceLazy.wrapCtor pattern delimiters padChar).size →
        j < (FileSequenceLazy.wrapCtor pattern delimiters padChar).size → i ≠ j →
        (FileSequenceLazy.wrapCtor pattern delimiters padChar).wrapIndex i
          ≠ (FileSequenceLazy.wrapCtor pattern delimiters padChar).wrapIndex j)
      ↔ (specCartesian (wrapLazyParts padChar
          (splitOriginalPattern pattern (effectiveDelimiters delimiters))
          (wrapParsePatterns
            (splitOriginalPattern pattern (effectiveDelimiters delimiters))))).Nodup) := by
  obtain ⟨h1, h2, h3, h4⟩ := lazy_of_pattern pattern delimiters padChar htot
  rw [h1, decide_eq_true_eq] at hok
  have hlen : (specCartesian (wrapLazyParts padChar
      (splitOriginalPattern pattern (effectiveDelimiters delimiters))
      (wrapParsePatterns (splitOriginalPattern pattern (effectiveDelimiters delimiters))))).length
      = (FileSequenceLazy.wrapCtor pattern delimiters padChar).size := by
    rw [specCartesian_length, h3, h2, if_pos hok]
  have hsz : (FileSequenceLazy.wrapCtor pattern delimiters padChar).size
      = wrapTotal (wrapParsePatterns
          (splitOriginalPattern pattern (effectiveDelimiters delimiters))) := by
    rw [h2, if_pos hok]
  refine ⟨?_, ?_, ?_, ?_⟩
  · rw [lazy_getFullPaths_eq]
    apply collect_eq_some _ _ _ _ hlen
    intro j hj
    rw [Nat.zero_add]
    exact h4 j hj
  · intro q hq
    obtain ⟨i, hi, hget⟩ := List.getElem_of_mem hq
    rw [hlen] at hi
    refine ⟨i, hi, ?_⟩
    rw [h4 i hi, List.getElem?_eq_getElem (by rw [hlen]; exact hi), hget]
  · intro i j hi hj hne heq
    rw [hsz] at hi hj
    exact hne (specDigits_injective _ i j hi hj heq)
  · rw [List.nodup_iff_getElem?_ne_getElem?]
    constructor
    · intro h i j hij hj
      rw [hlen] at hj
      have := h i j (by omega) hj (by omega)
      rwa [h4 i (by omega), h4 j hj] at this
    · intro h i j hi hj hne
      rw [h4 i hi, h4 j hj]
      rcases Nat.lt_or_gt_of_ne hne with hlt | hgt
      · exact h i j hlt (by rw [hlen]; exact hj)
      · exact fun e => h j i hgt (by rw [hlen]; exact hi) e.symm

/-! ## The lazy retrieval is well defined -/

/-- On the wrapping quotient: for every pattern whose total is below `2 ^ 64` (no `size_t`
overflow) and on which the lazy expander is ok, and every `idx` (below
`size()` or not, as `operator[]` reduces it modulo the radix), the lazy
indexed retrieval is well defined: every accepted slice has a step that
is not 0 and a cardinality of at least 1, so the cardinality of every sequence
token is at least 1; at every sequence token the running radix `branchesLeft`
is not 0 and is a multiple of the token's cardinality, the quotient
`branchesLeft / seqSize` it divides by is not 0, the branch is strictly below
the cardinality, and the loop of `unpackSequence` stops at a slice instead of
falling through; and `operator[]` comes back with a path. -/
theorem lazy_well_defined_wrap (pattern delimiters : Str) (padChar : Char)
    (idx : Nat)
    (htot : wrapTotal (wrapParsePatterns
      (splitOriginalPattern pattern (effectiveDelimiters delimiters))) < SIZE_MOD)
    (hok : (FileSequenceLazy.wrapCtor pattern delimiters padChar).isOk = true) :
    (∀ tok ∈ splitOriginalPattern pattern (effectiveDelimiters delimiters),
      ∀ d ∈ wrapParseToken tok, d.step ≠ 0 ∧ 1 ≤ d.wrapSize)
    ∧ (∀ tok ∈ splitOriginalPattern pattern (effectiveDelimiters delimiters),
        ¬ (wrapParseToken tok).isEmpty = true → 1 ≤ wrapSequenceSize (wrapParseToken tok))
    ∧ (∀ r ∈ wrapLazyRounds (wrapParsePatterns
          (splitOriginalPattern pattern (effectiveDelimiters delimiters))) idx
          (FileSequenceLazy.wrapCtor pattern delimiters padChar).size,
        r.2.2 ≠ 0 ∧ wrapSequenceSize r.1 ∣ r.2.2 ∧ 1 ≤ wrapSequenceSize r.1
        ∧ r.2.2 / wrapSequenceSize r.1 ≠ 0
        ∧ (r.2.1 % r.2.2) / (r.2.2 / wrapSequenceSize r.1) < wrapSequenceSize r.1
        ∧ (wrapLazySlice r.1 ((r.2.1 % r.2.2) / (r.2.2 / wrapSequenceSize r.1))).isSome = true)
    ∧ ((FileSequenceLazy.wrapCtor pattern delimiters padChar).wrapIndex idx).isSome = true := by
  obtain ⟨hseq, _, hpos⟩ := no_overflow_of_specTotal _ (parsePatterns_isOk _) htot
  obtain ⟨h1, h2, _, _⟩ := lazy_of_pattern pattern delimiters padChar htot
  rw [h1, decide_eq_true_eq] at hok
  rw [h2, if_pos hok]
  refine ⟨?_, ?_, ?_, ?_⟩
  · intro tok _ d hd
    exact ⟨parseToken_step_ne_zero tok d hd, (size_pos_of_isOk d (parseToken_isOk tok d hd)).1⟩
  · intro tok htok hne
    have hmem : wrapParseToken tok ∈ wrapParsePatterns
        (splitOriginalPattern pattern (effectiveDelimiters delimiters)) := by
      unfold wrapParsePatterns
      exact List.mem_map_of_mem _ htok
    rw [hseq _ hmem]
    exact specCardinality_pos _ hne (fun d hd => parseToken_isOk tok d hd)
  · exact lazyRounds_defined _ idx hseq hpos
  · obtain ⟨text, t1, _⟩ := lazyPathOf_eq_specLazyPath padChar
      (splitOriginalPattern pattern (effectiveDelimiters delimiters))
      (wrapParsePatterns (splitOriginalPattern pattern (effectiveDelimiters delimiters)))
      idx hseq hpos
    rw [lazy_index_eq, h2, if_pos hok, t1]
    rfl

/-! ## Padded formatting -/

/-- The digit characters are those of `Nat.digitChar`. -/
theorem digitChar_eq (d : Nat) (h : d < 10) : digitChar d = Nat.digitChar d := by
  interval_cases d <;> rfl

/-- The digits in front of `acc` are those `Nat.toDigitsCore` puts there. -/
theorem natDigitsAux_eq_toDigitsCore (fuel n : Nat) (acc : Str) :
    natDigitsAux fuel n acc = Nat.toDigitsCore 10 fuel n acc := by
  induction fuel generalizing n acc with
  | zero => rfl
  | succ f ih =>
    unfold natDigitsAux Nat.toDigitsCore
    by_cases h : n < 10
    · have h0 : n / 10 = 0 := Nat.div_eq_of_lt h
      rw [if_pos h]
      simp only [h0, if_true, Nat.mod_eq_of_lt h, digitChar_eq n h]
    · have h0 : n / 10 ≠ 0 := by omega
      rw [if_neg h]
      simp only [h0, if_false]
      rw [ih, digitChar_eq _ (Nat.mod_lt _ (by decide))]

/-- The digits of the model are the decimal digits `Nat.toDigits 10` of the
number. -/
theorem natDigits_eq_toDigits (n : Nat) : natDigits n = Nat.toDigits 10 n := by
  unfold natDigits Nat.toDigits
  exact natDigitsAux_eq_toDigitsCore _ _ _

/-- C16: for every value `v` (so for every `int32_t`), width `pad` and pad
character `c`, `writePadded( v, pad )` is the decimal text of `v` padded with
sign-aware internal justification: for `v >= 0` the decimal digits of `v`
preceded by `max( 0, pad - ndigits )` copies of `c`; for `v < 0` first `-`,
then `max( 0, pad - 1 - ndigits )` copies of `c`, then the decimal digits of
`|v|`; its length is the larger of `pad` and the natural length of `v` (the
number of digits, plus 1 for the sign of a negative value); and
`writePadded( -1, 4 )` with `c = '0'` is "-001". -/
theorem C16_writePadded_is_sign_aware_padding (c : Char) (v : Int) (pad : Nat) :
    writePadded c v pad
      = (if v < 0 then
          '-' :: (List.replicate (pad - 1 - (Nat.toDigits 10 v.natAbs).length) c
            ++ Nat.toDigits 10 v.natAbs)
        else
          List.replicate (pad - (Nat.toDigits 10 v.natAbs).length) c
            ++ Nat.toDigits 10 v.natAbs)
    ∧ (writePadded c v pad).length
      = max pad ((if v < 0 then 1 else 0) + (Nat.toDigits 10 v.natAbs).length)
    ∧ ((v.natAbs : Int) = if v < 0 then -v else v)
    ∧ writePadded '0' (-1) 4 = "-001".toList := by
  refine ⟨?_, ?_, ?_, by decide⟩
  · unfold writePadded
    rw [natDigits_eq_toDigits, Nat.sub_sub, Nat.add_comm 1]
  · unfold writePadded
    rw [natDigits_eq_toDigits]
    split
    · simp only [List.length_cons, List.length_append, List.length_replicate, if_true]
      omega
    · simp only [List.length_append, List.length_replicate, if_false]
      omega
  · split <;> omega

/-! ## The cardinality of a slice against the eager loop -/

/-- On a slice whose step points from begin towards end, with no overflow, the
eager loop enumerates as many values as the cardinality
`( end - begin ) / step + 1`, and they are the values the lazy expander
computes for the offsets below the cardinality. -/
theorem slice_consistent (padChar : Char) (d : SequenceDesc) (hstep : d.step ≠ 0)
    (hdir : 0 ≤ (d.end_ - d.beg) * d.step) (hno : sliceNoOverflow d = true) :
    d.wrapSize = (Int.tdiv (d.end_ - d.beg) d.step).toNat + 1
    ∧ unpackSlice padChar d loopFuel d.beg
        = some ((List.range d.wrapSize).map (fun (k : Nat) =>
            writePadded padChar (toInt32 (d.beg + d.step * (k : Int))) d.pad)) := by
  simp only [sliceNoOverflow, decide_eq_true_eq] at hno
  obtain ⟨b1, b2, e1, e2, s1, s2, hc, hp⟩ := hno
  rcases lt_or_gt_of_ne hstep with hneg | hpos
  · have hbe : d.end_ ≤ d.beg := by
      by_contra hcon
      have : (d.end_ - d.beg) * d.step < 0 := by nlinarith
      omega
    have hin : inBounds d d.beg = true := by
      unfold inBounds
      rw [if_pos hneg]
      exact decide_eq_true hbe
    obtain ⟨p1, p2⟩ := hp hin
    have hq : Int.tdiv (d.end_ - d.beg) d.step = (d.beg - d.end_) / (-d.step) := by
      have h1 : d.end_ - d.beg = -(d.beg - d.end_) := by ring
      have h2 : d.step = -(-d.step) := by ring
      rw [h1]
      conv_lhs => rw [h2]
      rw [Int.neg_tdiv_neg, Int.tdiv_eq_ediv (by omega) (by omega)]
    rw [hq] at hc p1 ⊢
    obtain ⟨r1, r2, _⟩ := slice_descending padChar d hneg hbe b2 s1 hc p1
    refine ⟨r1, ?_⟩
    rw [r2, r1]
    congr 1
    apply List.map_congr_left
    intro k hk
    rw [List.mem_range] at hk
    have hq0 : 0 ≤ (d.beg - d.end_) / (-d.step) := Int.ediv_nonneg (by omega) (by omega)
    have hk2 : (k : Int) ≤ (d.beg - d.end_) / (-d.step) := by omega
    have hmul : (d.beg - d.end_) / (-d.step) * (-d.step) ≤ d.beg - d.end_ :=
      Int.ediv_mul_le _ (by omega)
    have hk3 : (k : Int) * (-d.step) ≤ (d.beg - d.end_) / (-d.step) * (-d.step) :=
      Int.mul_le_mul_of_nonneg_right hk2 (by omega)
    have hk4 : 0 ≤ (k : Int) * (-d.step) := Int.mul_nonneg (by omega) (by omega)
    have hcomm : d.beg + d.step * (k : Int) = d.beg + (k : Int) * d.step := by ring
    have hval : d.beg + (k : Int) * d.step = d.beg - (k : Int) * (-d.step) := by ring
    rw [hcomm, toInt32_of_range _ (by rw [hval]; omega) (by rw [hval]; omega)]
  · have hbe : d.beg ≤ d.end_ := by
      by_contra hcon
      have : (d.end_ - d.beg) * d.step < 0 := by nlinarith
      omega
    have hin : inBounds d d.beg = true := by
      unfold inBounds
      rw [if_neg (by omega)]
      exact decide_eq_true hbe
    obtain ⟨p1, p2⟩ := hp hin
    have hq : Int.tdiv (d.end_ - d.beg) d.step = (d.end_ - d.beg) / d.step :=
      Int.tdiv_eq_ediv (by omega) (by omega)
    rw [hq] at hc p2 ⊢
    obtain ⟨r1, r2, _⟩ := slice_ascending padChar d hpos hbe b1 s2 hc p2
    refine ⟨r1, ?_⟩
    rw [r2, r1]
    congr 1
    apply List.map_congr_left
    intro k hk
    rw [List.mem_range] at hk
    have hq0 : 0 ≤ (d.end_ - d.beg) / d.step := Int.ediv_nonneg (by omega) (by omega)
    have hk2 : (k : Int) ≤ (d.end_ - d.beg) / d.step := by omega
    have hmul : (d.end_ - d.beg) / d.step * d.step ≤ d.end_ - d.beg :=
      Int.ediv_mul_le _ (by omega)
    have hk3 : (k : Int) * d.step ≤ (d.end_ - d.beg) / d.step * d.step :=
      Int.mul_le_mul_of_nonneg_right hk2 (by omega)
    have hk4 : 0 ≤ (k : Int) * d.step := Int.mul_nonneg (by omega) (by omega)
    have hcomm : d.beg + d.step * (k : Int) = d.beg + (k : Int) * d.step := by ring
    rw [hcomm, toInt32_of_range _ (by omega) (by omega)]

/-- On a slice that passes `isOk()` although its step points away from the
end, the eager loop enumerates nothing while the cardinality is 1. -/
theorem slice_inconsistent (padChar : Char) (d : SequenceDesc) (hok : d.wrapIsOk = true)
    (hdir : (d.end_ - d.beg) * d.step < 0) (hno : sliceNoOverflow d = true) :
    d.wrapSize = 1 ∧ unpackSlice padChar d loopFuel d.beg = some [] := by
  simp only [sliceNoOverflow, decide_eq_true_eq] at hno
  obtain ⟨b1, b2, e1, e2, s1, s2, hc, _⟩ := hno
  have hq : 0 ≤ d.wrapQuot := by simpa [SequenceDesc.wrapIsOk] using hok
  have hspan : toInt32 (d.end_ - d.beg) = d.end_ - d.beg := toInt32_of_range _ s1 s2
  have hnonpos : Int.tdiv (d.end_ - d.beg) d.step ≤ 0 := by
    rcases lt_or_ge d.step 0 with hneg | hpos
    · have : 0 < d.end_ - d.beg := by
        by_contra hcon
        have : 0 ≤ (d.end_ - d.beg) * d.step := by nlinarith
        omega
      exact Int.tdiv_nonpos (by omega) (by omega)
    · have : d.end_ - d.beg < 0 := by
        by_contra hcon
        have : 0 ≤ (d.end_ - d.beg) * d.step := Int.mul_nonneg (by omega) hpos
        omega
      have h1 : d.end_ - d.beg = -(d.beg - d.end_) := by ring
      rw [h1, Int.neg_tdiv]
      have := Int.tdiv_nonneg (a := d.beg - d.end_) (b := d.step) (by omega) hpos
      omega
  have hlow : INT32_MIN ≤ Int.tdiv (d.end_ - d.beg) d.step := by
    have habs := Int.natAbs_tdiv (d.end_ - d.beg) d.step
    have hle : (Int.tdiv (d.end_ - d.beg) d.step).natAbs ≤ (d.end_ - d.beg).natAbs := by
      rw [habs]
      exact Nat.div_le_self _ _
    unfold INT32_MIN INT32_MAX at *
    omega
  have hzero : Int.tdiv (d.end_ - d.beg) d.step = 0 := by
    unfold SequenceDesc.wrapQuot at hq
    rw [hspan, toInt32_of_range _ hlow (by unfold INT32_MAX; omega)] at hq
    omega
  constructor
  · unfold SequenceDesc.wrapSize
    rw [if_pos hok]
    unfold SequenceDesc.wrapQuot
    rw [hspan, hzero]
    rfl
  · have hout : inBounds d d.beg = false := by
      unfold inBounds
      rcases lt_or_ge d.step 0 with hneg | hpos
      · rw [if_pos hneg]
        have : 0 < d.end_ - d.beg := by
          by_contra hcon
          have : 0 ≤ (d.end_ - d.beg) * d.step := by nlinarith
          omega
        exact decide_eq_false (by omega)
      · rw [if_neg (by omega)]
        have : d.end_ - d.beg < 0 := by
          by_contra hcon
          have : 0 ≤ (d.end_ - d.beg) * d.step := Int.mul_nonneg (by omega) hpos
          omega
        exact decide_eq_false (by omega)
    have hf : loopFuel = 4294967296 + 1 := rfl
    rw [hf, unpackSlice, hout]
    rfl

/-! ## The cardinality formula and a negative step -/

/-- On an accepted slice with a negative step and no overflow the eager loop
comes back, with as many values as the cardinality when the end is not above
the begin, and with none, against the cardinality 1, when it is. -/
theorem negative_step_count (padChar : Char) (buf : Str) (d : SequenceDesc)
    (hacc : wrapParseSlice buf = some d) (hneg : d.step < 0) (hno : sliceNoOverflow d = true) :
    ∃ vals, unpackSlice padChar d loopFuel d.beg = some vals
      ∧ (if d.end_ ≤ d.beg then vals.length = d.wrapSize else vals.length = 0 ∧ d.wrapSize = 1) := by
  by_cases hbe : d.end_ ≤ d.beg
  · have hdir : 0 ≤ (d.end_ - d.beg) * d.step := by nlinarith
    obtain ⟨_, h2⟩ := slice_consistent padChar d (by omega) hdir hno
    refine ⟨_, h2, ?_⟩
    rw [if_pos hbe]
    simp
  · have hdir : (d.end_ - d.beg) * d.step < 0 := by nlinarith
    obtain ⟨h1, h2⟩ := slice_inconsistent padChar d (parseSlice_isOk buf d hacc) hdir hno
    refine ⟨[], h2, ?_⟩
    rw [if_neg hbe]
    exact ⟨rfl, h1⟩

/-! ## The two expanders on direction-consistent patterns -/

/-- The lazy text of a branch inside the first slice. -/
theorem unpackSequenceLazy_head (padChar : Char) (d : SequenceDesc) (rest : PackedSequence)
    (k : Nat) (hk : k < d.wrapSize) :
    wrapUnpackSequenceLazy padChar (d :: rest) k
      = writePadded padChar (toInt32 (d.beg + d.step * (k : Int))) d.pad := by
  rw [wrapUnpackSequenceLazy, if_pos hk]

/-- The lazy text of a branch past the first slice. -/
theorem unpackSequenceLazy_tail (padChar : Char) (d : SequenceDesc) (rest : PackedSequence)
    (k : Nat) : wrapUnpackSequenceLazy padChar (d :: rest) (d.wrapSize + k)
      = wrapUnpackSequenceLazy padChar rest k := by
  rw [wrapUnpackSequenceLazy, if_neg (by omega), Nat.add_sub_cancel_left]

/-- When the eager loop over every slice of a token enumerates the lazy values
of the offsets below the cardinality of the slice, the eager expansion of the
token is the list of the lazy texts of the branches below the sum of the
cardinalities. -/
theorem unpackSequence_eq_lazy (padChar : Char) (seq : PackedSequence)
    (h : ∀ d ∈ seq, unpackSlice padChar d loopFuel d.beg
      = some ((List.range d.wrapSize).map (fun (k : Nat) =>
          writePadded padChar (toInt32 (d.beg + d.step * (k : Int))) d.pad))) :
    unpackSequence padChar seq
      = some ((List.range (wrapCardinality seq)).map (wrapUnpackSequenceLazy padChar seq)) := by
  induction seq with
  | nil => rfl
  | cons d l ih =>
    have h1 := h d (List.mem_cons_self _ _)
    have h2 := ih (fun x hx => h x (List.mem_cons_of_mem _ hx))
    rw [unpackSequence, h1, h2]
    simp only [wrapCardinality, List.map_cons, List.sum_cons]
    rw [List.range_add, List.map_append, List.map_map]
    congr 2
    · apply List.map_congr_left
      intro k hk
      rw [List.mem_range] at hk
      rw [unpackSequenceLazy_head padChar d l k hk]
    · apply List.map_congr_left
      intro k _
      simp only [Function.comp]
      rw [unpackSequenceLazy_tail]

/-- When the eager expansion of every sequence token is its lazy list, the
loop that fills `pathParts` gives the lazy lists. -/
theorem pathPartsOf_eq_lazyParts (padChar : Char) (ts : List Str)
    (h : ∀ t ∈ ts, ¬ (wrapParseToken t).isEmpty = true →
      unpackSequence padChar (wrapParseToken t) = some (wrapLazyPart padChar t (wrapParseToken t))) :
    pathPartsOf padChar ts (wrapParsePatterns ts)
      = some (wrapLazyParts padChar ts (wrapParsePatterns ts)) := by
  induction ts with
  | nil => rfl
  | cons t ts ih =>
    have h2 := ih (fun x hx => h x (List.mem_cons_of_mem _ hx))
    rw [pathPartsOf_cons, h2]
    have hl : wrapLazyParts padChar (t :: ts) (wrapParsePatterns (t :: ts))
        = wrapLazyPart padChar t (wrapParseToken t) :: wrapLazyParts padChar ts (wrapParsePatterns ts) := rfl
    rw [hl]
    by_cases he : (wrapParseToken t).isEmpty = true
    · rw [if_pos he]
      simp only [wrapLazyPart, if_pos he]
    · rw [if_neg he, h t (List.mem_cons_self _ _) he]

/-- On a pattern all of whose slices are direction-consistent and free of
overflow, and whose total is below `2 ^ 64`, the eager constructor leaves the
product of the lazy lists. -/
theorem eager_eq_lazy_product (pattern delimiters : Str) (padChar : Char)
    (hdir : ∀ tok ∈ splitOriginalPattern pattern (effectiveDelimiters delimiters),
      ∀ d ∈ wrapParseToken tok, 0 ≤ (d.end_ - d.beg) * d.step)
    (hno : ∀ tok ∈ splitOriginalPattern pattern (effectiveDelimiters delimiters),
      ∀ d ∈ wrapParseToken tok, sliceNoOverflow d = true)
    (htot : wrapTotal (wrapParsePatterns
      (splitOriginalPattern pattern (effectiveDelimiters delimiters))) < SIZE_MOD) :
    FileSequence.wrapCtor pattern delimiters padChar
      = some ⟨specCartesian (wrapLazyParts padChar
          (splitOriginalPattern pattern (effectiveDelimiters delimiters))
          (wrapParsePatterns (splitOriginalPattern pattern (effectiveDelimiters delimiters))))⟩ := by
  obtain ⟨hseq, hcp, _⟩ := no_overflow_of_specTotal _ (parsePatterns_isOk _) htot
  have hprod := prodLengths_lazyParts padChar
    (splitOriginalPattern pattern (effectiveDelimiters delimiters))
    (wrapParsePatterns (splitOriginalPattern pattern (effectiveDelimiters delimiters)))
    (parsePatterns_length _).symm
  rw [hcp] at hprod
  apply eager_ctor_of_parts pattern delimiters padChar _ _ (by rw [hprod]; exact htot)
  apply pathPartsOf_eq_lazyParts
  intro t ht hne
  have hmem : wrapParseToken t ∈ wrapParsePatterns
      (splitOriginalPattern pattern (effectiveDelimiters delimiters)) := by
    unfold wrapParsePatterns
    exact List.mem_map_of_mem _ ht
  rw [unpackSequence_eq_lazy padChar (wrapParseToken t) (fun d hd =>
    (slice_consistent padChar d (parseToken_step_ne_zero t d hd) (hdir t ht d hd)
      (hno t ht d hd)).2)]
  simp only [wrapLazyPart, if_neg hne, hseq _ hmem]

/-! ## The eager and the lazy expander agree -/

/-- On the wrapping quotient: for every pattern all of whose accepted slices are
direction-consistent, `(end - begin) * step >= 0`, with no integer overflow
(no `int32_t` computation on a slice overflows and the total is below
`2 ^ 64`): the eager loop comes back for every slice with as many values as
the slice's cardinality, which is `(end - begin) / step + 1`; the eager
constructor comes back; and the eager and the lazy expander have the same
`isOk()`, the same `size()`, and `eager[i] == lazy[i]` for every
`i < size()`. -/
theorem eager_lazy_agree_wrap (pattern delimiters : Str) (padChar : Char)
    (hdir : ∀ tok ∈ splitOriginalPattern pattern (effectiveDelimiters delimiters),
      ∀ d ∈ wrapParseToken tok, 0 ≤ (d.end_ - d.beg) * d.step)
    (hno : ∀ tok ∈ splitOriginalPattern pattern (effectiveDelimiters delimiters),
      ∀ d ∈ wrapParseToken tok, sliceNoOverflow d = true)
    (htot : wrapTotal (wrapParsePatterns
      (splitOriginalPattern pattern (effectiveDelimiters delimiters))) < SIZE_MOD) :
    (∀ tok ∈ splitOriginalPattern pattern (effectiveDelimiters delimiters),
      ∀ d ∈ wrapParseToken tok, ∃ vals, unpackSlice padChar d loopFuel d.beg = some vals
        ∧ vals.length = d.wrapSize
        ∧ d.wrapSize = (Int.tdiv (d.end_ - d.beg) d.step).toNat + 1)
    ∧ ∃ s, FileSequence.wrapCtor pattern delimiters padChar = some s
      ∧ s.isOk = (FileSequenceLazy.wrapCtor pattern delimiters padChar).isOk
      ∧ s.size = (FileSequenceLazy.wrapCtor pattern delimiters padChar).size
      ∧ ∀ i, i < s.size →
          (FileSequenceLazy.wrapCtor pattern delimiters padChar).wrapIndex i = some (s.index i) := by
  constructor
  · intro tok htok d hd
    obtain ⟨h1, h2⟩ := slice_consistent padChar d (parseToken_step_ne_zero tok d hd)
      (hdir tok htok d hd) (hno tok htok d hd)
    exact ⟨_, h2, by simp, h1⟩
  · obtain ⟨l1, l2, l3, l4⟩ := lazy_of_pattern pattern delimiters padChar htot
    have hlen : (specCartesian (wrapLazyParts padChar
        (splitOriginalPattern pattern (effectiveDelimiters delimiters))
        (wrapParsePatterns
          (splitOriginalPattern pattern (effectiveDelimiters delimiters))))).length
        = wrapTotal (wrapParsePatterns
          (splitOriginalPattern pattern (effectiveDelimiters delimiters))) := by
      rw [specCartesian_length, l3]
    refine ⟨_, eager_eq_lazy_product pattern delimiters padChar hdir hno htot, ?_, ?_, ?_⟩
    · rw [l1]
      simp only [FileSequence.isOk, hlen]
    · rw [l2]
      simp only [FileSequence.size, FileSequence.isOk, hlen, decide_eq_true_eq]
    · intro i hi
      simp only [FileSequence.size, FileSequence.isOk, hlen, decide_eq_true_eq] at hi
      have hi2 : i < (FileSequenceLazy.wrapCtor pattern delimiters padChar).size := by
        rw [l2]; exact hi
      rw [l4 i hi2]
      have hi3 : i < (specCartesian (wrapLazyParts padChar
          (splitOriginalPattern pattern (effectiveDelimiters delimiters))
          (wrapParsePatterns
            (splitOriginalPattern pattern (effectiveDelimiters delimiters))))).length := by
        rw [hlen]
        split at hi
        · exact hi
        · omega
      simp only [FileSequence.index, List.getElem?_eq_getElem hi3]

/-! ## A produced path as a pattern -/

/-- The slice parser on the plain decimal text of an `int32_t`: the
single-element slice of that value, with pad 0. -/
theorem parseSlice_intDigits (v : Int) (h1 : INT32_MIN ≤ v) (h2 : v ≤ INT32_MAX) :
    wrapParseSlice (intDigits v) = some ⟨v, v, 1, 0⟩ := by
  obtain ⟨c, cs, hc, n1, n2⟩ := intDigits_head v
  have hint : parseInteger (intDigits v) = some (v, []) := by
    have := parseInteger_intDigits v [] h1 h2 (by intro c cs h; simp at h)
    rwa [List.append_nil] at this
  have hstart : parsePatternStart (intDigits v) ⟨0, 0, 1, 0⟩ = some ([], ⟨v, v, 1, 0⟩) := by
    have hsi : parseStartInteger (intDigits v) ⟨0, 0, 1, 0⟩ = some ([], ⟨v, v, 1, 0⟩) := by
      unfold parseStartInteger
      rw [hint]
    rw [← hsi, hc]
    unfold parsePatternStart
    simp [n1, n2]
  have hok : (SequenceDesc.mk v v 1 0).wrapIsOk = true := by
    simp [SequenceDesc.wrapIsOk, SequenceDesc.wrapQuot, toInt32]
  unfold wrapParseSlice
  rw [hstart]
  simp only [parsePatternEnd, parsePatternStep, parsePatternPad, hok, if_true]

/-- The plain decimal text of an `int32_t` is a sequence token of one
single-element slice. -/
theorem parseToken_intDigits (v : Int) (h1 : INT32_MIN ≤ v) (h2 : v ≤ INT32_MAX) :
    wrapParseToken (intDigits v) = [⟨v, v, 1, 0⟩] := by
  obtain ⟨c, cs, hc, _, _⟩ := intDigits_head v
  have hchars : ∀ c ∈ intDigits v, c = '-' ∨ c.isDigit = true ∨ c = 'x' ∨ c = '@' ∨ c = '#' := by
    intro c hc
    rcases intDigits_charset v c hc with h | h
    · exact Or.inl h
    · exact Or.inr (Or.inl h)
  obtain ⟨hcs, hnc⟩ := charset_of_range_chars _ hchars
  exact parseToken_single _ _ hcs (by rw [hc]; simp) hnc (parseSlice_intDigits v h1 h2)

/-- When every token expands to the one-text list of its own text, the loop
that fills `pathParts` gives these lists. -/
theorem pathPartsOf_self (padChar : Char) (ts : List Str)
    (h : ∀ t ∈ ts, ¬ (wrapParseToken t).isEmpty = true →
      unpackSequence padChar (wrapParseToken t) = some [t]) :
    pathPartsOf padChar ts (wrapParsePatterns ts) = some (ts.map (fun t => [t])) := by
  induction ts with
  | nil => rfl
  | cons t ts ih =>
    rw [pathPartsOf_cons, ih (fun x hx => h x (List.mem_cons_of_mem _ hx))]
    by_cases he : (wrapParseToken t).isEmpty = true
    · rw [if_pos he]
      rfl
    · rw [if_neg he, h t (List.mem_cons_self _ _) he]
      rfl

/-- A text each of whose tokens is a literal or the plain decimal text of an
`int32_t` below `INT32_MAX` expands to itself: the eager expander holds the
text as its one path and is not ok, and the lazy expander is not ok. -/
theorem reparse_plain (q delimiters : Str) (padChar : Char)
    (h : ∀ tok ∈ splitOriginalPattern q (effectiveDelimiters delimiters),
      wrapParseToken tok = [] ∨ ∃ v, tok = intDigits v ∧ INT32_MIN ≤ v ∧ v < INT32_MAX) :
    FileSequence.wrapCtor q delimiters padChar = some ⟨[q]⟩
    ∧ (FileSequenceLazy.wrapCtor q delimiters padChar).isOk = false
    ∧ (FileSequenceLazy.wrapCtor q delimiters padChar).size = 0 := by
  constructor
  · have hparts := pathPartsOf_self padChar
      (splitOriginalPattern q (effectiveDelimiters delimiters)) (by
        intro t ht hne
        rcases h t ht with hl | ⟨v, rfl, v1, v2⟩
        · rw [hl] at hne
          exact absurd rfl hne
        · have v3 : v ≤ INT32_MAX := by omega
          rw [parseToken_intDigits v v1 v3]
          have := unpackSlice_single padChar ⟨v, v, 1, 0⟩ rfl (by simp)
            (by show INT32_MIN ≤ v + 1; omega)
            (by show v + 1 ≤ INT32_MAX; unfold INT32_MAX at *; omega)
          rw [unpackSequence_single padChar _ _ this]
          simp only [writePadded_zero])
    rw [eager_ctor_of_parts q delimiters padChar _ hparts
      (by rw [prodLengths_singletons]; decide), specCartesian_singletons,
      splitOriginalPattern_flatten]
  · apply lazy_not_ok_of_card_one
    intro t ht
    rcases h t ht with hl | ⟨v, rfl, v1, v2⟩
    · exact Or.inl hl
    · right
      have v3 : v ≤ INT32_MAX := by omega
      rw [parseToken_intDigits v v1 v3]
      have hs : (SequenceDesc.mk v v 1 0).wrapSize = 1 := size_single _ rfl
      rw [sequenceSize_single _ (by rw [hs]; decide), hs]

/-! ## The program against the wrapping quotient: slices -/

/-- At the trap `INT32_MIN / -1` the wrapping quotient is negative. -/
theorem wrapQuot_at_trap (d : SequenceDesc)
    (ht : toInt32 (d.end_ - d.beg) = INT32_MIN ∧ d.step = -1) : d.wrapQuot < 0 := by
  unfold SequenceDesc.wrapQuot
  rw [ht.1, ht.2]
  decide

/-- Where the division does not trap the quotient is the wrapping one. -/
theorem quot_eq_some (d : SequenceDesc) (hs : d.step ≠ 0)
    (ht : ¬ (toInt32 (d.end_ - d.beg) = INT32_MIN ∧ d.step = -1)) :
    d.quot = some d.wrapQuot := by
  unfold SequenceDesc.quot SequenceDesc.wrapQuot
  rw [if_neg (by
    intro h
    rcases h with h | h
    · exact hs h
    · exact ht h)]

/-- When `isOk()` comes back, the division did not trap, and the value is the
one on the wrapping quotient. -/
theorem isOk_eq_some (d : SequenceDesc) (b : Bool) (h : d.isOk = some b) :
    d.wrapIsOk = b ∧ d.step ≠ 0 ∧ d.quot = some d.wrapQuot := by
  unfold SequenceDesc.isOk at h
  by_cases hc : d.step = 0 ∨ (toInt32 (d.end_ - d.beg) = INT32_MIN ∧ d.step = -1)
  · have hq : d.quot = none := by
      unfold SequenceDesc.quot
      rw [if_pos hc]
    rw [hq] at h
    simp at h
  · have hs : d.step ≠ 0 := fun e => hc (Or.inl e)
    have hq := quot_eq_some d hs (fun e => hc (Or.inr e))
    rw [hq] at h
    simp only [Option.some.injEq] at h
    exact ⟨h, hs, hq⟩

/-- A slice with a step that is not 0 and a wrapping quotient of at least 0
passes `isOk()` without a trap, and `size()` is the size on the wrapping
quotient. -/
theorem isOk_of_wrapIsOk (d : SequenceDesc) (hs : d.step ≠ 0) (h : d.wrapIsOk = true) :
    d.isOk = some true ∧ d.size = some d.wrapSize := by
  have hq0 : 0 ≤ d.wrapQuot := by simpa [SequenceDesc.wrapIsOk] using h
  have hq := quot_eq_some d hs (fun e => by
    have := wrapQuot_at_trap d e
    omega)
  have hok : d.isOk = some true := by
    unfold SequenceDesc.isOk
    rw [hq]
    simp only [Option.some.injEq, decide_eq_true_eq]
    exact hq0
  refine ⟨hok, ?_⟩
  unfold SequenceDesc.size SequenceDesc.wrapSize
  rw [hok, hq, if_pos h]

/-- The four stages of the slice parser on a fresh `{ 0, 0, 1, 0 }`, before
`desc.isOk()`: the slice they leave, `none` when one of them fails. -/
theorem parseSlice_stages (buf : Str) :
    ∃ stages : Option SequenceDesc,
      parseSlice buf = (match stages with
        | none => some none
        | some d4 =>
          match d4.isOk with
          | none => none
          | some true => some (some d4)
          | some false => some none)
      ∧ wrapParseSlice buf = (match stages with
        | none => none
        | some d4 => if d4.wrapIsOk then some d4 else none) := by
  unfold parseSlice wrapParseSlice
  cases h1 : parsePatternStart buf ⟨0, 0, 1, 0⟩ with
  | none => exact ⟨none, rfl, rfl⟩
  | some r1 =>
    obtain ⟨p1, d1⟩ := r1
    dsimp only
    cases h2 : parsePatternEnd p1 d1 with
    | none => exact ⟨none, rfl, rfl⟩
    | some r2 =>
      obtain ⟨p2, d2⟩ := r2
      dsimp only
      cases h3 : parsePatternStep p2 d2 with
      | none => exact ⟨none, rfl, rfl⟩
      | some r3 =>
        obtain ⟨p3, d3⟩ := r3
        dsimp only
        cases h4 : parsePatternPad p3 d3 with
        | mk b r4 =>
          obtain ⟨p4, d4⟩ := r4
          cases b with
          | false => exact ⟨none, rfl, rfl⟩
          | true => exact ⟨some d4, rfl, rfl⟩

/-- When the slice parser comes back, its result is the one on the wrapping
quotient. -/
theorem parseSlice_eq_some (buf : Str) (r : Option SequenceDesc)
    (h : parseSlice buf = some r) : wrapParseSlice buf = r := by
  obtain ⟨stages, h1, h2⟩ := parseSlice_stages buf
  rw [h1] at h
  rw [h2]
  cases stages with
  | none => simpa using h
  | some d4 =>
    simp only at h ⊢
    cases hok : d4.isOk with
    | none => rw [hok] at h; simp at h
    | some b =>
      obtain ⟨hw, _, _⟩ := isOk_eq_some d4 b hok
      rw [hok] at h
      cases b with
      | false =>
        simp only [Option.some.injEq] at h
        rw [hw, ← h]
        rfl
      | true =>
        simp only [Option.some.injEq] at h
        rw [hw, ← h]
        rfl

/-- A slice accepted on the wrapping quotient is accepted by the slice parser,
without a trap. -/
theorem parseSlice_of_wrap (buf : Str) (d : SequenceDesc) (h : wrapParseSlice buf = some d) :
    parseSlice buf = some (some d) := by
  have hstep := parseSlice_step_ne_zero buf d h
  obtain ⟨stages, h1, h2⟩ := parseSlice_stages buf
  rw [h2] at h
  rw [h1]
  cases stages with
  | none => simp at h
  | some d4 =>
    simp only at h ⊢
    by_cases hw : d4.wrapIsOk = true
    · rw [if_pos hw, Option.some.injEq] at h
      subst h
      rw [(isOk_of_wrapIsOk d4 hstep hw).1]
    · rw [if_neg hw] at h
      simp at h

/-- When the loop over the alternatives comes back, its result is the one on
the wrapping quotient. -/
theorem parseSliceLoop_eq_some (bufs : List Str) (acc : PackedSequence)
    (r : Option PackedSequence) (h : parseSliceLoop bufs acc = some r) :
    wrapParseSliceLoop bufs acc = r := by
  induction bufs generalizing acc with
  | nil =>
    simp only [parseSliceLoop, Option.some.injEq] at h
    rw [← h]
    rfl
  | cons buf rest ih =>
    unfold parseSliceLoop at h
    unfold wrapParseSliceLoop
    by_cases hb : buf = []
    · rw [if_pos hb] at h ⊢
      simpa using h
    · rw [if_neg hb] at h ⊢
      cases hp : parseSlice buf with
      | none => rw [hp] at h; simp at h
      | some r1 =>
        rw [parseSlice_eq_some buf r1 hp]
        rw [hp] at h
        cases r1 with
        | none => simpa using h
        | some d => exact ih _ h

/-- Slices accepted on the wrapping quotient are accepted by the loop over the
alternatives, without a trap. -/
theorem parseSliceLoop_of_wrap (bufs : List Str) (acc slices : PackedSequence)
    (h : wrapParseSliceLoop bufs acc = some slices) :
    parseSliceLoop bufs acc = some (some slices) := by
  induction bufs generalizing acc with
  | nil =>
    simp only [wrapParseSliceLoop, Option.some.injEq] at h
    rw [← h]
    rfl
  | cons buf rest ih =>
    unfold wrapParseSliceLoop at h
    unfold parseSliceLoop
    by_cases hb : buf = []
    · rw [if_pos hb] at h
      simp at h
    · rw [if_neg hb] at h ⊢
      cases hp : wrapParseSlice buf with
      | none => rw [hp] at h; simp at h
      | some d =>
        rw [hp] at h
        rw [parseSlice_of_wrap buf d hp]
        exact ih _ h

/-- When `parsePatterns` comes back for a token, the slices are those on the
wrapping quotient. -/
theorem parseToken_eq_some (token : Str) (seq : PackedSequence)
    (h : parseToken token = some seq) : wrapParseToken token = seq := by
  unfold parseToken at h
  unfold wrapParseToken
  by_cases hc : checkPatternCharset token = true
  · rw [if_pos hc] at h ⊢
    cases hl : parseSliceLoop (getlineAll token) [] with
    | none => rw [hl] at h; simp at h
    | some r =>
      rw [parseSliceLoop_eq_some _ _ r hl]
      rw [hl] at h
      cases r with
      | none => simpa using h
      | some slices => simpa using h
  · rw [if_neg hc] at h ⊢
    simpa using h

/-- A token that is a sequence token on the wrapping quotient is parsed
without a trap, to the same slices. -/
theorem parseToken_of_wrap (token : Str) (hne : wrapParseToken token ≠ []) :
    parseToken token = some (wrapParseToken token) := by
  unfold wrapParseToken at hne ⊢
  unfold parseToken
  by_cases hc : checkPatternCharset token = true
  · rw [if_pos hc] at hne ⊢
    cases hl : wrapParseSliceLoop (getlineAll token) [] with
    | none => rw [hl] at hne; simp at hne
    | some slices =>
      rw [parseSliceLoop_of_wrap _ _ slices hl, if_pos hc]
  · rw [if_neg hc] at hne
    simp at hne

/-- When `parsePatterns` comes back, every token was parsed without a trap and
the result is the one on the wrapping quotient. -/
theorem parsePatterns_eq_some (tokens : List Str) (packed : PackedPath)
    (h : parsePatterns tokens = some packed) :
    packed = wrapParsePatterns tokens
    ∧ ∀ tok ∈ tokens, parseToken tok = some (wrapParseToken tok) := by
  induction tokens generalizing packed with
  | nil =>
    simp only [parsePatterns, Option.some.injEq] at h
    exact ⟨h.symm, by simp⟩
  | cons t ts ih =>
    unfold parsePatterns at h
    cases ht : parseToken t with
    | none => rw [ht] at h; simp at h
    | some seq =>
      cases hr : parsePatterns ts with
      | none => rw [ht, hr] at h; simp at h
      | some rest =>
        rw [ht, hr] at h
        simp only [Option.some.injEq] at h
        obtain ⟨i1, i2⟩ := ih rest hr
        have hseq := parseToken_eq_some t seq ht
        constructor
        · rw [← h, i1, ← hseq]
          rfl
        · intro tok htok
          rcases List.mem_cons.mp htok with rfl | htok
          · rw [ht, hseq]
          · exact i2 tok htok

/-- When no token traps, `parsePatterns` comes back with the result on the
wrapping quotient. -/
theorem parsePatterns_of_no_trap (tokens : List Str)
    (h : ∀ tok ∈ tokens, parseToken tok ≠ none) :
    parsePatterns tokens = some (wrapParsePatterns tokens) := by
  induction tokens with
  | nil => rfl
  | cons t ts ih =>
    unfold parsePatterns
    rw [ih (fun tok htok => h tok (List.mem_cons_of_mem _ htok))]
    cases ht : parseToken t with
    | none => exact absurd ht (h t (List.mem_cons_self _ _))
    | some seq =>
      rw [← parseToken_eq_some t seq ht]
      rfl

/-- A trap on one token is a trap of `parsePatterns`. -/
theorem parsePatterns_eq_none (tokens : List Str) (tok : Str) (hmem : tok ∈ tokens)
    (h : parseToken tok = none) : parsePatterns tokens = none := by
  cases hp : parsePatterns tokens with
  | none => rfl
  | some packed =>
    have := (parsePatterns_eq_some tokens packed hp).2 tok hmem
    rw [h] at this
    simp at this

/-! ## The program against the wrapping quotient: the expanders -/

/-- The slices of a parsed pattern pass `isOk()` without a trap, and their
`size()` is the size on the wrapping quotient. -/
theorem accepted_size (tokens : List Str) :
    ∀ seq ∈ wrapParsePatterns tokens, ∀ d ∈ seq,
      d.isOk = some true ∧ d.size = some d.wrapSize := by
  intro seq hseq d hd
  unfold wrapParsePatterns at hseq
  rw [List.mem_map] at hseq
  obtain ⟨tok, _, rfl⟩ := hseq
  exact isOk_of_wrapIsOk d (parseToken_step_ne_zero tok d hd) (parseToken_isOk tok d hd)

/-- When `parsePatterns` comes back, the eager constructor is the one on the
wrapping quotient. -/
theorem eager_ctor_eq_wrap (pattern delimiters : Str) (padChar : Char) (packed : PackedPath)
    (h : parsePatterns (splitOriginalPattern pattern (effectiveDelimiters delimiters))
      = some packed) :
    FileSequence.ctor pattern delimiters padChar
      = FileSequence.wrapCtor pattern delimiters padChar := by
  have hp := (parsePatterns_eq_some _ packed h).1
  unfold FileSequence.ctor FileSequence.wrapCtor
  simp only [h]
  rw [hp]

/-- When `parsePatterns` traps, the eager constructor does not come back. -/
theorem eager_ctor_eq_none (pattern delimiters : Str) (padChar : Char)
    (h : parsePatterns (splitOriginalPattern pattern (effectiveDelimiters delimiters)) = none) :
    FileSequence.ctor pattern delimiters padChar = none := by
  unfold FileSequence.ctor
  simp only [h]

/-- The lazy `sequenceSize` on slices whose `size()` does not trap. -/
theorem sequenceSize_eq_wrap (seq : PackedSequence)
    (hacc : ∀ d ∈ seq, d.size = some d.wrapSize) :
    sequenceSize seq = some (wrapSequenceSize seq) := by
  have key : ∀ (l : PackedSequence) (a : Nat), (∀ d ∈ l, d.size = some d.wrapSize) →
      sequenceSizeFrom l a
        = some (l.foldl (fun result slice => (result + slice.wrapSize) % SIZE_MOD) a) := by
    intro l
    induction l with
    | nil => intro a _; rfl
    | cons d l ih =>
      intro a hl
      unfold sequenceSizeFrom
      rw [hl d (List.mem_cons_self _ _)]
      simp only [List.foldl_cons]
      exact ih _ (fun x hx => hl x (List.mem_cons_of_mem _ hx))
  exact key seq 0 hacc

/-- The loop of the lazy constructor on slices whose `size()` does not trap. -/
theorem countPaths_eq_wrap (packed : PackedPath)
    (hacc : ∀ seq ∈ packed, ∀ d ∈ seq, d.size = some d.wrapSize) :
    countPaths packed = some (wrapCountPaths packed) := by
  have key : ∀ (l : PackedPath) (st : Nat × Bool),
      (∀ seq ∈ l, ∀ d ∈ seq, d.size = some d.wrapSize) →
      countPathsFrom l st = some (l.foldl wrapCountStep st) := by
    intro l
    induction l with
    | nil => intro st _; rfl
    | cons seq l ih =>
      intro st hl
      unfold countPathsFrom
      simp only [List.foldl_cons]
      have hl2 : ∀ s ∈ l, ∀ d ∈ s, d.size = some d.wrapSize :=
        fun s hs => hl s (List.mem_cons_of_mem _ hs)
      by_cases he : seq.isEmpty = true
      · rw [if_pos he, ih _ hl2]
        unfold wrapCountStep
        rw [if_pos he]
      · rw [if_neg he, sequenceSize_eq_wrap seq (hl seq (List.mem_cons_self _ _))]
        simp only
        rw [ih _ hl2]
        unfold wrapCountStep
        rw [if_neg he]
  exact key packed (1, false) hacc

/-- The lazy `unpackSequence` on slices whose `size()` does not trap. -/
theorem unpackSequenceLazy_eq_wrap (padChar : Char) (seq : PackedSequence) (branch : Nat)
    (hacc : ∀ d ∈ seq, d.size = some d.wrapSize) :
    unpackSequenceLazy padChar seq branch = some (wrapUnpackSequenceLazy padChar seq branch) := by
  induction seq generalizing branch with
  | nil => rfl
  | cons d l ih =>
    unfold unpackSequenceLazy wrapUnpackSequenceLazy
    rw [hacc d (List.mem_cons_self _ _)]
    simp only
    by_cases hb : branch < d.wrapSize
    · rw [if_pos hb, if_pos hb]
    · rw [if_neg hb, if_neg hb]
      exact ih _ (fun x hx => hacc x (List.mem_cons_of_mem _ hx))

/-- The slice a branch falls in, on slices whose `size()` does not trap. -/
theorem lazySlice_eq_wrap (seq : PackedSequence) (branch : Nat)
    (hacc : ∀ d ∈ seq, d.size = some d.wrapSize) :
    lazySlice seq branch = wrapLazySlice seq branch := by
  induction seq generalizing branch with
  | nil => rfl
  | cons d l ih =>
    unfold lazySlice wrapLazySlice
    rw [hacc d (List.mem_cons_self _ _)]
    simp only
    by_cases hb : branch < d.wrapSize
    · rw [if_pos hb, if_pos hb]
    · rw [if_neg hb, if_neg hb]
      exact ih _ (fun x hx => hacc x (List.mem_cons_of_mem _ hx))

/-- The loop of the lazy `operator[]` on slices whose `size()` does not trap. -/
theorem lazyPathOf_eq_wrap (padChar : Char) (toks : List Str) (packed : PackedPath)
    (b bl : Nat) (hacc : ∀ seq ∈ packed, ∀ d ∈ seq, d.size = some d.wrapSize) :
    lazyPathOf padChar toks packed b bl = wrapLazyPathOf padChar toks packed b bl := by
  induction toks generalizing packed b bl with
  | nil => simp [lazyPathOf, wrapLazyPathOf]
  | cons tok toks ih =>
    cases packed with
    | nil => simp [lazyPathOf, wrapLazyPathOf]
    | cons seq packed =>
      have hl2 : ∀ s ∈ packed, ∀ d ∈ s, d.size = some d.wrapSize :=
        fun s hs => hacc s (List.mem_cons_of_mem _ hs)
      unfold lazyPathOf wrapLazyPathOf
      by_cases he : seq.isEmpty = true
      · rw [if_pos he, if_pos he, ih _ _ _ hl2]
      · rw [if_neg he, if_neg he, sequenceSize_eq_wrap seq (hacc seq (List.mem_cons_self _ _))]
        simp only
        by_cases hz : bl = 0 ∨ wrapSequenceSize seq = 0 ∨ bl / wrapSequenceSize seq = 0
        · rw [if_pos hz, if_pos hz]
        · rw [if_neg hz, if_neg hz, ih _ _ _ hl2,
            unpackSequenceLazy_eq_wrap padChar seq _ (hacc seq (List.mem_cons_self _ _))]
          cases wrapLazyPathOf padChar toks packed (b % bl) (bl / wrapSequenceSize seq) with
          | none => rfl
          | some t => rfl

/-- The rounds of the lazy `operator[]` on slices whose `size()` does not
trap. -/
theorem lazyRounds_eq_wrap (packed : PackedPath) (b bl : Nat)
    (hacc : ∀ seq ∈ packed, ∀ d ∈ seq, d.size = some d.wrapSize) :
    lazyRounds packed b bl
      = some ((wrapLazyRounds packed b bl).map
          (fun r => (r.1, wrapSequenceSize r.1, r.2.1, r.2.2))) := by
  induction packed generalizing b bl with
  | nil => rfl
  | cons seq packed ih =>
    have hl2 : ∀ s ∈ packed, ∀ d ∈ s, d.size = some d.wrapSize :=
      fun s hs => hacc s (List.mem_cons_of_mem _ hs)
    unfold lazyRounds wrapLazyRounds
    by_cases he : seq.isEmpty = true
    · rw [if_pos he, if_pos he, ih _ _ hl2]
    · rw [if_neg he, if_neg he, sequenceSize_eq_wrap seq (hacc seq (List.mem_cons_self _ _))]
      simp only
      rw [ih _ _ hl2]
      rfl

/-- When `parsePatterns` comes back, the lazy constructor comes back with the
expander on the wrapping quotient. -/
theorem lazy_ctor_eq_wrap (pattern delimiters : Str) (padChar : Char) (packed : PackedPath)
    (h : parsePatterns (splitOriginalPattern pattern (effectiveDelimiters delimiters))
      = some packed) :
    FileSequenceLazy.ctor pattern delimiters padChar
      = some (FileSequenceLazy.wrapCtor pattern delimiters padChar) := by
  have hp := (parsePatterns_eq_some _ packed h).1
  have hc := countPaths_eq_wrap packed (by
    rw [hp]
    intro seq hseq d hd
    exact (accepted_size _ seq hseq d hd).2)
  unfold FileSequenceLazy.ctor FileSequenceLazy.wrapCtor
  simp only [h, hc]
  rw [hp]

/-- When `parsePatterns` traps, the lazy constructor does not come back. -/
theorem lazy_ctor_eq_none (pattern delimiters : Str) (padChar : Char)
    (h : parsePatterns (splitOriginalPattern pattern (effectiveDelimiters delimiters)) = none) :
    FileSequenceLazy.ctor pattern delimiters padChar = none := by
  unfold FileSequenceLazy.ctor
  simp only [h]

/-- A lazy expander that was built is the one on the wrapping quotient, and
`parsePatterns` came back with its slices. -/
theorem lazy_ctor_eq_some (pattern delimiters : Str) (padChar : Char) (s : FileSequenceLazy)
    (h : FileSequenceLazy.ctor pattern delimiters padChar = some s) :
    s = FileSequenceLazy.wrapCtor pattern delimiters padChar
    ∧ parsePatterns (splitOriginalPattern pattern (effectiveDelimiters delimiters))
      = some (wrapParsePatterns (splitOriginalPattern pattern (effectiveDelimiters delimiters)))
    ∧ s.m_packedPaths
      = wrapParsePatterns (splitOriginalPattern pattern (effectiveDelimiters delimiters))
    ∧ s.m_pathParts = splitOriginalPattern pattern (effectiveDelimiters delimiters)
    ∧ s.m_padChar = padChar := by
  cases hp : parsePatterns (splitOriginalPattern pattern (effectiveDelimiters delimiters)) with
  | none =>
    rw [lazy_ctor_eq_none pattern delimiters padChar hp] at h
    simp at h
  | some packed =>
    rw [lazy_ctor_eq_wrap pattern delimiters padChar packed hp, Option.some.injEq] at h
    have hpk := (parsePatterns_eq_some _ packed hp).1
    subst h
    exact ⟨rfl, by rw [hpk], rfl, rfl, rfl⟩

/-- The lazy `operator[]` of the expander on the wrapping quotient. -/
theorem lazy_index_eq_wrap (pattern delimiters : Str) (padChar : Char) (i : Nat) :
    (FileSequenceLazy.wrapCtor pattern delimiters padChar).index i
      = (FileSequenceLazy.wrapCtor pattern delimiters padChar).wrapIndex i := by
  unfold FileSequenceLazy.index FileSequenceLazy.wrapIndex
  apply lazyPathOf_eq_wrap
  intro seq hseq d hd
  exact (accepted_size _ seq hseq d hd).2

/-- The lazy `getFullPaths` and the iteration of the expander on the wrapping
quotient. -/
theorem lazy_getFullPaths_eq_wrap (pattern delimiters : Str) (padChar : Char) :
    (FileSequenceLazy.wrapCtor pattern delimiters padChar).getFullPaths
      = (FileSequenceLazy.wrapCtor pattern delimiters padChar).wrapGetFullPaths
    ∧ (FileSequenceLazy.wrapCtor pattern delimiters padChar).beginToEnd
      = (FileSequenceLazy.wrapCtor pattern delimiters padChar).wrapGetFullPaths := by
  have hf : (FileSequenceLazy.wrapCtor pattern delimiters padChar).index
      = (FileSequenceLazy.wrapCtor pattern delimiters padChar).wrapIndex :=
    funext (lazy_index_eq_wrap pattern delimiters padChar)
  unfold FileSequenceLazy.getFullPaths FileSequenceLazy.beginToEnd
    FileSequenceLazy.wrapGetFullPaths
  rw [hf]
  exact ⟨rfl, rfl⟩

/-! ## The reference definitions against the wrapping quotient -/

/-- The slices of a token pass `isOk()` without a trap, and their `size()` is
the size on the wrapping quotient. -/
theorem accepted_size_token (token : Str) :
    ∀ d ∈ wrapParseToken token, d.isOk = some true ∧ d.size = some d.wrapSize := by
  intro d hd
  exact isOk_of_wrapIsOk d (parseToken_step_ne_zero token d hd) (parseToken_isOk token d hd)

/-- When no token traps, `parsePatterns` and both constructors are those on
the wrapping quotient. -/
theorem ctors_of_tokens (pattern delimiters : Str) (padChar : Char)
    (h : ∀ tok ∈ splitOriginalPattern pattern (effectiveDelimiters delimiters),
      parseToken tok ≠ none) :
    parsePatterns (splitOriginalPattern pattern (effectiveDelimiters delimiters))
      = some (wrapParsePatterns (splitOriginalPattern pattern (effectiveDelimiters delimiters)))
    ∧ FileSequence.ctor pattern delimiters padChar
      = FileSequence.wrapCtor pattern delimiters padChar
    ∧ FileSequenceLazy.ctor pattern delimiters padChar
      = some (FileSequenceLazy.wrapCtor pattern delimiters padChar) := by
  have hp := parsePatterns_of_no_trap _ h
  exact ⟨hp, eager_ctor_eq_wrap pattern delimiters padChar _ hp,
    lazy_ctor_eq_wrap pattern delimiters padChar _ hp⟩

/-- The tokens around one sequence token do not trap when they are literals. -/
theorem no_trap_of_parts (pre post : List Str) (token : Str)
    (hpre : ∀ t ∈ pre, parseToken t = some []) (hpost : ∀ t ∈ post, parseToken t = some [])
    (htok : wrapParseToken token ≠ []) :
    ∀ tok ∈ pre ++ token :: post, parseToken tok ≠ none := by
  intro tok htok2
  rw [List.mem_append, List.mem_cons] at htok2
  rcases htok2 with h | h | h
  · rw [hpre tok h]; simp
  · rw [h, parseToken_of_wrap token htok]; simp
  · rw [hpost tok h]; simp

/-- The cardinality of a slice in the spec, on a slice whose `size()` does not
trap. -/
theorem specSliceCardinality_eq_wrap (d : SequenceDesc) (h : d.size = some d.wrapSize) :
    specSliceCardinality d = d.wrapSize := by
  unfold specSliceCardinality
  rw [h]
  rfl

/-- The cardinality of a token in the spec, on slices whose `size()` does not
trap. -/
theorem specCardinality_eq_wrap (seq : PackedSequence)
    (hacc : ∀ d ∈ seq, d.size = some d.wrapSize) :
    specCardinality seq = wrapCardinality seq := by
  unfold specCardinality wrapCardinality
  congr 1
  apply List.map_congr_left
  intro d hd
  exact specSliceCardinality_eq_wrap d (hacc d hd)

/-- The total of the spec, on slices whose `size()` does not trap. -/
theorem specTotal_eq_wrap (packed : PackedPath)
    (hacc : ∀ seq ∈ packed, ∀ d ∈ seq, d.size = some d.wrapSize) :
    specTotal packed = wrapTotal packed := by
  unfold specTotal wrapTotal
  congr 1
  apply List.map_congr_left
  intro seq hseq
  rw [specCardinality_eq_wrap seq (hacc seq hseq)]

/-- The digits of the spec, on slices whose `size()` does not trap. -/
theorem specDigits_eq_wrap (packed : PackedPath) (idx : Nat)
    (hacc : ∀ seq ∈ packed, ∀ d ∈ seq, d.size = some d.wrapSize) :
    specDigits packed idx = wrapDigits packed idx := by
  induction packed with
  | nil => rfl
  | cons seq packed ih =>
    have hl2 : ∀ s ∈ packed, ∀ d ∈ s, d.size = some d.wrapSize :=
      fun s hs => hacc s (List.mem_cons_of_mem _ hs)
    unfold specDigits wrapDigits
    rw [ih hl2, specTotal_eq_wrap packed hl2,
      specCardinality_eq_wrap seq (hacc seq (List.mem_cons_self _ _))]

/-- The slice a digit selects in the spec, on slices whose `size()` does not
trap. -/
theorem specSelect_eq_wrap (seq : PackedSequence) (d : Nat)
    (hacc : ∀ x ∈ seq, x.size = some x.wrapSize) :
    specSelect seq d = wrapLazySlice seq d := by
  induction seq generalizing d with
  | nil => rfl
  | cons x l ih =>
    unfold specSelect wrapLazySlice
    rw [specSliceCardinality_eq_wrap x (hacc x (List.mem_cons_self _ _)),
      ih _ (fun y hy => hacc y (List.mem_cons_of_mem _ hy))]

/-- The text of a digit in the spec, on slices whose `size()` does not trap. -/
theorem specSliceText_eq_wrap (padChar : Char) (seq : PackedSequence) (d : Nat)
    (hacc : ∀ x ∈ seq, x.size = some x.wrapSize) :
    specSliceText padChar seq d = wrapSliceText padChar seq d := by
  unfold specSliceText wrapSliceText
  rw [specSelect_eq_wrap seq d hacc]

/-- The path of the spec, on slices whose `size()` does not trap. -/
theorem specLazyPath_eq_wrap (padChar : Char) (toks : List Str) (packed : PackedPath)
    (idx : Nat) (hacc : ∀ seq ∈ packed, ∀ d ∈ seq, d.size = some d.wrapSize) :
    specLazyPath padChar toks packed idx = wrapSpecLazyPath padChar toks packed idx := by
  induction toks generalizing packed with
  | nil => simp [specLazyPath, wrapSpecLazyPath]
  | cons tok toks ih =>
    cases packed with
    | nil => simp [specLazyPath, wrapSpecLazyPath]
    | cons seq packed =>
      have hl2 : ∀ s ∈ packed, ∀ d ∈ s, d.size = some d.wrapSize :=
        fun s hs => hacc s (List.mem_cons_of_mem _ hs)
      have hl1 := hacc seq (List.mem_cons_self _ _)
      unfold specLazyPath wrapSpecLazyPath
      rw [ih _ hl2, specTotal_eq_wrap packed hl2, specCardinality_eq_wrap seq hl1,
        specSliceText_eq_wrap padChar seq _ hl1]

/-- The text of the lazy `unpackSequence` on the wrapping quotient is the text
of the digit, and empty when the digit selects no slice. -/
theorem wrapSliceText_getD (padChar : Char) (seq : PackedSequence) (d : Nat) :
    (wrapSliceText padChar seq d).getD [] = wrapUnpackSequenceLazy padChar seq d := by
  rw [unpackSequenceLazy_eq]
  unfold wrapSliceText
  cases wrapLazySlice seq d with
  | none => rfl
  | some p => rfl

/-- The per-token lists of the spec are the lazy lists on the wrapping
quotient, on slices whose `size()` does not trap, when no cardinality
overflows. -/
theorem specPathParts_eq_wrap (padChar : Char) (toks : List Str) (packed : PackedPath)
    (hacc : ∀ seq ∈ packed, ∀ d ∈ seq, d.size = some d.wrapSize)
    (hseq : ∀ seq ∈ packed, wrapSequenceSize seq = wrapCardinality seq) :
    specPathParts padChar toks packed = wrapLazyParts padChar toks packed := by
  induction toks generalizing packed with
  | nil => simp [specPathParts, wrapLazyParts]
  | cons tok toks ih =>
    cases packed with
    | nil => simp [specPathParts, wrapLazyParts]
    | cons seq packed =>
      have hl1 := hacc seq (List.mem_cons_self _ _)
      unfold specPathParts wrapLazyParts
      rw [ih _ (fun s hs => hacc s (List.mem_cons_of_mem _ hs))
        (fun s hs => hseq s (List.mem_cons_of_mem _ hs))]
      congr 1
      unfold specTokenTexts wrapLazyPart
      rw [specCardinality_eq_wrap seq hl1, hseq seq (List.mem_cons_self _ _)]
      by_cases he : seq.isEmpty = true
      · rw [if_pos he, if_pos he]
      · rw [if_neg he, if_neg he]
        apply List.map_congr_left
        intro d _
        rw [specSliceText_eq_wrap padChar seq d hl1, wrapSliceText_getD]

/-! ## Evaluations at concrete patterns -/

/-- C1 (fails on the code): for the pattern "5-1x7.1-2", with the default
delimiters and pad character, the token "5-1x7" is accepted as the slice
`{ 5, 1, 7, 0 }` (the truncating quotient `( 1 - 5 ) / 7` is 0); the eager loop
enumerates nothing for it, so the eager expander is not ok and has size 0,
while the lazy expander counts one value for it, is ok, and has the 2 paths
"5.1" and "5.2". -/
theorem C1_eager_lazy_disagree :
    parseToken "5-1x7".toList = some [⟨5, 1, 7, 0⟩]
    ∧ (FileSequence.ctor "5-1x7.1-2".toList [] '0').map
        (fun s => (s.isOk, s.size, s.getFullPaths)) = some (false, 0, [])
    ∧ (FileSequenceLazy.ctor "5-1x7.1-2".toList [] '0').map
        (fun s => (s.isOk, s.size, s.getFullPaths))
      = some (true, 2, some ["5.1".toList, "5.2".toList]) := by
  decide

/-- C5 (as stated it fails): neither expander gives the paths "0001.exr",
"0003.exr", "0005.exr" for the pattern "1,3,5#.exr". -/
theorem C5_counterexample :
    (FileSequence.ctor "1,3,5#.exr".toList [] '0').map FileSequence.getFullPaths
        ≠ some ["0001.exr".toList, "0003.exr".toList, "0005.exr".toList]
    ∧ (FileSequenceLazy.ctor "1,3,5#.exr".toList [] '0').bind FileSequenceLazy.getFullPaths
        ≠ some ["0001.exr".toList, "0003.exr".toList, "0005.exr".toList] := by
  decide

/-- C5 (amended): the pattern "1,3,5#.exr" (comma alternatives, no ranges,
default pad character) parses to three slices of which only the last carries
the pad width 4, and expands to exactly the 3 paths "1.exr", "3.exr",
"0005.exr", in that order, in both expanders, which are ok and of size 3. -/
theorem C5_comma_alternatives_pad_per_slice :
    parseToken "1,3,5#".toList = some [⟨1, 1, 1, 0⟩, ⟨3, 3, 1, 0⟩, ⟨5, 5, 1, 4⟩]
    ∧ (FileSequence.ctor "1,3,5#.exr".toList [] '0').map
        (fun s => (s.isOk, s.size, s.getFullPaths))
      = some (true, 3, ["1.exr".toList, "3.exr".toList, "0005.exr".toList])
    ∧ (FileSequenceLazy.ctor "1,3,5#.exr".toList [] '0').map
        (fun s => (s.isOk, s.size, s.getFullPaths))
      = some (true, 3, some ["1.exr".toList, "3.exr".toList, "0005.exr".toList]) := by
  decide

/-- C8 (fails on the code): the token "1,3," is made of sequence-charset
characters and ends in a comma, yet it is accepted as the two slices 1 and 3:
after "3" the stream is at its end, `std::getline` extracts nothing and the
loop stops with `success` still true.  The token has multiplicity 2 and its
text is in no path: "1,3,.exr" expands to "1.exr" and "3.exr". -/
theorem C8_trailing_comma_is_accepted :
    checkPatternCharset "1,3,".toList = true
    ∧ getlineAll "1,3,".toList = ["1".toList, "3".toList]
    ∧ parseToken "1,3,".toList = some [⟨1, 1, 1, 0⟩, ⟨3, 3, 1, 0⟩]
    ∧ (parseToken "1,3,".toList).bind sequenceSize = some 2
    ∧ (FileSequence.ctor "1,3,.exr".toList [] '0').map FileSequence.getFullPaths
      = some ["1.exr".toList, "3.exr".toList]
    ∧ (FileSequenceLazy.ctor "1,3,.exr".toList [] '0').bind FileSequenceLazy.getFullPaths
      = some ["1.exr".toList, "3.exr".toList] := by
  decide

/-- C17 (fails on the code): the alternative "5-1x7" passes all four stages
and `desc.isOk()` (the truncating quotient `( 1 - 5 ) / 7` is 0, so the
cardinality is 1) and is accepted as the slice `{ 5, 1, 7, 0 }`, whose begin 5
is above its end 1 while its step 7 is positive: `parsePatternStep` replaced
the step -1 that `parsePatternEnd` had set. -/
theorem C17_accepted_slice_against_direction :
    parseSlice "5-1x7".toList = some (some ⟨5, 1, 7, 0⟩)
    ∧ parsePatternEnd "-1x7".toList ⟨5, 5, 1, 0⟩ = some ("x7".toList, ⟨5, 1, -1, 0⟩)
    ∧ parsePatternStep "x7".toList ⟨5, 1, -1, 0⟩ = some ([], ⟨5, 1, 7, 0⟩)
    ∧ (SequenceDesc.mk 5 1 7 0).quot = some 0
    ∧ (SequenceDesc.mk 5 1 7 0).isOk = some true
    ∧ (SequenceDesc.mk 5 1 7 0).size = some 1
    ∧ (SequenceDesc.mk 5 1 7 0).end_ < (SequenceDesc.mk 5 1 7 0).beg
    ∧ ¬ (SequenceDesc.mk 5 1 7 0).step < 0 := by
  decide

/-- C18: for some slice accepted by the parser with a negative step and
`end - begin` not an exact multiple of the step, the cardinality formula
`( end - begin ) / step + 1` with truncating division is strictly smaller than
the number of values the eager loop `i = begin; i >= end; i += step`
enumerates: the alternative "-2--3x-2147483647" is accepted as the slice
`{ -2, -3, -2147483647, 0 }`, whose cardinality is `( -1 ) / -2147483647 + 1`,
that is 1, while the loop, whose `i += step` wraps around in `int32_t`, adds
the three texts "-2", "2147483647" and "0". -/
theorem C18_formula_under_counts :
    ∃ (buf : Str) (d : SequenceDesc) (n : Nat) (vals : List Str),
      parseSlice buf = some (some d) ∧ d.step < 0 ∧ ¬ (d.step ∣ d.end_ - d.beg)
      ∧ d.size = some n ∧ unpackSlice '0' d loopFuel d.beg = some vals
      ∧ n < vals.length
      ∧ buf = "-2--3x-2147483647".toList ∧ d = ⟨-2, -3, -2147483647, 0⟩ ∧ n = 1
      ∧ vals = ["-2".toList, "2147483647".toList, "0".toList] :=
  ⟨"-2--3x-2147483647".toList, ⟨-2, -3, -2147483647, 0⟩, 1,
    ["-2".toList, "2147483647".toList, "0".toList],
    by decide, by decide, by decide, by decide, by decide, by decide, rfl, rfl, rfl, rfl⟩

/-- C7 (as stated it fails): in the token "0--2147483648,1-#" the last `-` is
followed by "#", not by an integer, yet the token is not treated as a literal:
on its first alternative `desc.isOk()` divides `INT32_MIN` by -1, which traps,
so `parsePatterns` and with it both constructors never come back. -/
theorem C7_counterexample :
    (∃ pre rest, "0--2147483648,1-#".toList = pre ++ '-' :: rest ∧ parseInteger rest = none)
    ∧ parsePatternEnd "--2147483648".toList ⟨0, 0, 1, 0⟩ = some ([], ⟨0, -2147483648, -1, 0⟩)
    ∧ (SequenceDesc.mk 0 (-2147483648) (-1) 0).isOk = none
    ∧ parseToken "0--2147483648,1-#".toList = none
    ∧ FileSequence.ctor "0--2147483648,1-#".toList [] '0' = none
    ∧ FileSequenceLazy.ctor "0--2147483648,1-#".toList [] '0' = none :=
  ⟨⟨"0--2147483648,1".toList, "#".toList, by decide, by decide⟩, by decide, by decide, by decide,
    by decide, by decide⟩

set_option maxRecDepth 8000 in
/-- C10 (as stated it fails): the alternative "#5" starts with `#` and is
accepted, yet its slice has the explicit start 5 (after the failed padding
stage `parsePatternStart` goes on to `parseInteger` from where that stage
stopped); and the run of 64 `#`, of width 256, is accepted with pad 0,
because `pad` is a `uint8_t`. -/
theorem C10_counterexample :
    parseSlice "#5".toList = some (some ⟨5, 5, 1, 4⟩)
    ∧ specPadWidth (List.replicate 64 '#') = 256
    ∧ parseSlice (List.replicate 64 '#') = some (some ⟨0, 0, 1, 0⟩) := by
  decide

/-! ## Range tokens are parsed without a trap -/

/-- The token `B-E` followed by a pad run is a sequence token, for `B` and `E`
apart when nothing leaves `int32_t`. -/
theorem range_token_ne_nil (padChar : Char) (B E : Int) (run : Str)
    (hrun : ∀ c ∈ run, c = '@' ∨ c = '#') (hw : specPadWidth run < 256)
    (hB1 : INT32_MIN ≤ B) (hB2 : B ≤ INT32_MAX) (hE1 : INT32_MIN ≤ E) (hE2 : E ≤ INT32_MAX)
    (hne : B ≠ E) (hup : B < E → E < INT32_MAX) (hdown : E < B → INT32_MIN < E)
    (hspan1 : E - B < INT32_MAX) (hspan2 : B - E < INT32_MAX) :
    wrapParseToken (intDigits B ++ '-' :: (intDigits E ++ run)) ≠ [] := by
  have hmin : INT32_MIN = -2147483648 := rfl
  have hmax : INT32_MAX = 2147483647 := rfl
  by_cases hlt : B < E
  · have hfix : (fixStep ⟨B, E, 1, 0⟩).step = 1 := by
      unfold fixStep
      rw [if_neg (by simp only; omega)]
    have hE3 := hup hlt
    obtain ⟨hsize, _, _⟩ := slice_ascending padChar ⟨B, E, 1, specPadWidth run⟩
      (by simp only; omega) (by simp only; omega) (by simp only; omega)
      (by simp only; omega) (by simp only [Int.ediv_one]; omega)
      (by simp only [Int.ediv_one]; omega)
    rw [parseToken_range B E run 1 hB1 hB2 hE1 hE2 hrun hw hfix
      (isOk_of_size_pos _ (by rw [hsize]; omega))]
    simp
  · have hgt : E < B := by omega
    have hfix : (fixStep ⟨B, E, 1, 0⟩).step = -1 := by
      unfold fixStep
      rw [if_pos (by simp only; omega)]
    have hE3 := hdown hgt
    obtain ⟨hsize, _, _⟩ := slice_descending padChar ⟨B, E, -1, specPadWidth run⟩
      (by simp only; omega) (by simp only; omega) (by simp only; omega)
      (by simp only; omega) (by simp only [neg_neg, Int.ediv_one]; omega)
      (by simp only [neg_neg, Int.ediv_one]; omega)
    rw [parseToken_range B E run (-1) hB1 hB2 hE1 hE2 hrun hw hfix
      (isOk_of_size_pos _ (by rw [hsize]; omega))]
    simp

/-- The token `B-ExS` followed by a pad run is a sequence token, for `B <= E`
and a positive `S` when nothing leaves `int32_t`. -/
theorem range_step_token_ne_nil (padChar : Char) (B E S : Int) (run : Str)
    (hrun : ∀ c ∈ run, c = '@' ∨ c = '#') (hw : specPadWidth run < 256)
    (hBE : B ≤ E) (hS : 0 < S) (hS2 : S ≤ INT32_MAX) (hB1 : INT32_MIN ≤ B)
    (hE2 : E ≤ INT32_MAX) (hspan : E - B ≤ INT32_MAX) (hcount : (E - B) / S < INT32_MAX)
    (hpast : B + ((E - B) / S + 1) * S ≤ INT32_MAX) :
    wrapParseToken (intDigits B ++ '-' :: (intDigits E ++ 'x' :: (intDigits S ++ run))) ≠ [] := by
  have hmin : INT32_MIN = -2147483648 := rfl
  have hmax : INT32_MAX = 2147483647 := rfl
  obtain ⟨hsize, _, _⟩ := slice_ascending padChar ⟨B, E, S, specPadWidth run⟩
    (by simp only; omega) (by simp only; omega) (by simp only; omega)
    (by simp only; omega) (by simp only; exact hcount) (by simp only; exact hpast)
  simp only at hsize
  rw [parseToken_range_step B E S run hB1 (by omega) (by omega) (by omega) (by omega)
    (by omega) (by omega) hrun hw (isOk_of_size_pos _ (by rw [hsize]; omega))]
  simp

/-! ## Ranges `B-E` and `B-ExS` in both expanders -/

set_option maxRecDepth 8000 in
/-- C3 (as stated it fails): for `B = E = 3` and the pad run "#" the claim
gives exactly one path, "0003.exr", in both expanders, yet for "3-3#.exr" both
report `isOk() == false` and `size() == 0` and the lazy expander has no path;
for `B = 2147483646`, `E = 2147483647` the eager constructor never comes back
(`i <= INT32_MAX` holds for every `int32_t`); and behind a pad run of 64 `#`,
of total width 256, the values are written with width 0, `pad` being a
`uint8_t`. -/
theorem C3_counterexample :
    ((FileSequence.ctor "3-3#.exr".toList [] '0').map (fun s => (s.isOk, s.size))
        = some (false, 0)
      ∧ (FileSequenceLazy.ctor "3-3#.exr".toList [] '0').map
          (fun s => (s.isOk, s.size, s.getFullPaths)) = some (false, 0, some []))
    ∧ FileSequence.ctor "2147483646-2147483647".toList [] '0' = none
    ∧ (specPadWidth (List.replicate 64 '#') = 256
      ∧ (FileSequence.ctor ("1-2".toList ++ List.replicate 64 '#') [] '0').map
          FileSequence.getFullPaths = some ["1".toList, "2".toList]) := by
  refine ⟨by decide, ?_, by decide⟩
  have hparse : wrapParseToken "2147483646-2147483647".toList
      = [⟨2147483646, 2147483647, 1, 0⟩] := by decide
  have hp : parsePatterns (splitOriginalPattern "2147483646-2147483647".toList
      (effectiveDelimiters [])) = some [[⟨2147483646, 2147483647, 1, 0⟩]] := by decide
  rw [eager_ctor_eq_wrap _ _ _ _ hp]
  apply ctor_none_of_single _ _ "2147483646-2147483647".toList _ (by decide) (by decide)
  rw [hparse]
  exact unpackSequence_single_none '0' _
    (unpackSlice_diverges '0' _ (by decide) rfl _ _ (by decide) (by decide))

/-- C3 (amended): for every pair of `int32_t` values `B != E` with
`|E - B| < INT32_MAX`, `E < INT32_MAX` when `B < E` and `INT32_MIN < E` when
`E < B`, and every pad run of total width `p < 256`, a pattern whose only
sequence token is the decimal text of `B`, a `-`, the decimal text of `E` and
that pad run (the tokens before and after it are parsed as literals) expands
in both expanders to exactly `|E - B| + 1` paths (both constructors come back,
both expanders are ok and of that size), enumerating every integer from `B` to
`E` inclusive in order from `B` towards `E`, each formatted to width `p`
between the literal tokens. -/
theorem C3_range_expands_from_B_towards_E (pattern delimiters : Str) (padChar : Char)
    (pre post : List Str) (B E : Int) (run : Str)
    (hsplit : splitOriginalPattern pattern (effectiveDelimiters delimiters)
      = pre ++ (intDigits B ++ '-' :: (intDigits E ++ run)) :: post)
    (hpre : ∀ t ∈ pre, parseToken t = some []) (hpost : ∀ t ∈ post, parseToken t = some [])
    (hrun : ∀ c ∈ run, c = '@' ∨ c = '#') (hw : specPadWidth run < 256)
    (hB1 : INT32_MIN ≤ B) (hB2 : B ≤ INT32_MAX) (hE1 : INT32_MIN ≤ E) (hE2 : E ≤ INT32_MAX)
    (hne : B ≠ E) (hup : B < E → E < INT32_MAX) (hdown : E < B → INT32_MIN < E)
    (hspan1 : E - B < INT32_MAX) (hspan2 : B - E < INT32_MAX) :
    (∃ s, FileSequence.ctor pattern delimiters padChar = some s
      ∧ s.isOk = true ∧ s.size = (E - B).natAbs + 1
      ∧ s.getFullPaths = (specRangeValues B E).map
          (fun v => pre.flatten ++ (writePadded padChar v (specPadWidth run) ++ post.flatten)))
    ∧ (∃ l, FileSequenceLazy.ctor pattern delimiters padChar = some l
      ∧ l.isOk = true ∧ l.size = (E - B).natAbs + 1
      ∧ l.getFullPaths = some ((specRangeValues B E).map
          (fun v => pre.flatten
            ++ (writePadded padChar v (specPadWidth run) ++ post.flatten)))) := by
  obtain ⟨_, he, hl⟩ := ctors_of_tokens pattern delimiters padChar (by
    rw [hsplit]
    exact no_trap_of_parts pre post _ hpre hpost
      (range_token_ne_nil padChar B E run hrun hw hB1 hB2 hE1 hE2 hne hup hdown hspan1 hspan2))
  obtain ⟨w1, w2, w3, w4⟩ := range_pattern pattern delimiters padChar pre post B E run hsplit
    (fun t ht => parseToken_eq_some t [] (hpre t ht))
    (fun t ht => parseToken_eq_some t [] (hpost t ht))
    hrun hw hB1 hB2 hE1 hE2 hne hup hdown hspan1 hspan2
  rw [he]
  refine ⟨w1, _, hl, w2, w3, ?_⟩
  rw [(lazy_getFullPaths_eq_wrap pattern delimiters padChar).1]
  exact w4

/-- C3, witness: the pattern "5-1#.exr" (`B = 5`, `E = 1`, pad run "#",
literal tokens "." and "exr"); with it the two examples of the claim,
evaluated: "1-5#.exr" gives "0001.exr" .. "0005.exr" and "5-1#.exr" gives
"0005.exr" .. "0001.exr". -/
theorem C3_range_expands_from_B_towards_E_witness :
    (splitOriginalPattern "5-1#.exr".toList (effectiveDelimiters [])
        = [] ++ (intDigits 5 ++ '-' :: (intDigits 1 ++ "#".toList)) :: [".".toList, "exr".toList]
      ∧ (∀ t ∈ [".".toList, "exr".toList], parseToken t = some [])
      ∧ specPadWidth "#".toList < 256 ∧ (5 : Int) ≠ 1)
    ∧ ((∃ s, FileSequence.ctor "5-1#.exr".toList [] '0' = some s
        ∧ s.isOk = true ∧ s.size = ((1 : Int) - 5).natAbs + 1
        ∧ s.getFullPaths = (specRangeValues 5 1).map
            (fun v => ([] : List Str).flatten
              ++ (writePadded '0' v (specPadWidth "#".toList)
                ++ [".".toList, "exr".toList].flatten)))
      ∧ (∃ l, FileSequenceLazy.ctor "5-1#.exr".toList [] '0' = some l
        ∧ l.isOk = true ∧ l.size = ((1 : Int) - 5).natAbs + 1
        ∧ l.getFullPaths = some ((specRangeValues 5 1).map
            (fun v => ([] : List Str).flatten
              ++ (writePadded '0' v (specPadWidth "#".toList)
                ++ [".".toList, "exr".toList].flatten)))))
    ∧ ((FileSequence.ctor "1-5#.exr".toList [] '0').map FileSequence.getFullPaths
        = some ["0001.exr".toList, "0002.exr".toList, "0003.exr".toList, "0004.exr".toList,
          "0005.exr".toList]
      ∧ (FileSequenceLazy.ctor "1-5#.exr".toList [] '0').bind FileSequenceLazy.getFullPaths
        = some ["0001.exr".toList, "0002.exr".toList, "0003.exr".toList, "0004.exr".toList,
          "0005.exr".toList]
      ∧ (FileSequence.ctor "5-1#.exr".toList [] '0').map FileSequence.getFullPaths
        = some ["0005.exr".toList, "0004.exr".toList, "0003.exr".toList, "0002.exr".toList,
          "0001.exr".toList]
      ∧ (FileSequenceLazy.ctor "5-1#.exr".toList [] '0').bind FileSequenceLazy.getFullPaths
        = some ["0005.exr".toList, "0004.exr".toList, "0003.exr".toList, "0002.exr".toList,
          "0001.exr".toList]) :=
  ⟨⟨by decide, by decide, by decide, by decide⟩,
    C3_range_expands_from_B_towards_E "5-1#.exr".toList [] '0' [] [".".toList, "exr".toList]
      5 1 "#".toList (by decide) (by decide) (by decide) (by decide) (by decide)
      (by decide) (by decide) (by decide) (by decide) (by decide) (by decide) (by decide)
      (by decide) (by decide),
    by decide⟩

set_option maxRecDepth 8000 in
/-- C4 (as stated it fails): for `B = 2147483646`, `E = 2147483647`, `S = 1`
the eager constructor never comes back (`i <= INT32_MAX` holds for every
`int32_t`); behind a pad run of 64 `#`, of total width 256, the values are
written with width 0, `pad` being a `uint8_t`; and for "1-2x5@.exr", whose one
value is 1, both expanders report `isOk() == false` and `size() == 0` and the
lazy expander has no path. -/
theorem C4_counterexample :
    FileSequence.ctor "2147483646-2147483647x1".toList [] '0' = none
    ∧ (specPadWidth (List.replicate 64 '#') = 256
      ∧ (FileSequence.ctor ("1-3x2".toList ++ List.replicate 64 '#') [] '0').map
          FileSequence.getFullPaths = some ["1".toList, "3".toList])
    ∧ ((FileSequence.ctor "1-2x5@.exr".toList [] '0').map (fun s => (s.isOk, s.size))
        = some (false, 0)
      ∧ (FileSequenceLazy.ctor "1-2x5@.exr".toList [] '0').map
          (fun s => (s.isOk, s.size, s.getFullPaths)) = some (false, 0, some [])) := by
  refine ⟨?_, by decide, by decide⟩
  have hparse : wrapParseToken "2147483646-2147483647x1".toList
      = [⟨2147483646, 2147483647, 1, 0⟩] := by decide
  have hp : parsePatterns (splitOriginalPattern "2147483646-2147483647x1".toList
      (effectiveDelimiters [])) = some [[⟨2147483646, 2147483647, 1, 0⟩]] := by decide
  rw [eager_ctor_eq_wrap _ _ _ _ hp]
  apply ctor_none_of_single _ _ "2147483646-2147483647x1".toList _ (by decide) (by decide)
  rw [hparse]
  exact unpackSequence_single_none '0' _
    (unpackSlice_diverges '0' _ (by decide) rfl _ _ (by decide) (by decide))

/-- C4 (amended): for all `int32_t` values `B <= E` and every positive
`int32_t` step `S` such that the span `E - B`, the number of values
`(E - B) / S + 1` and the first value past `E`, `B + ((E - B) / S + 1) * S`, do
not exceed `INT32_MAX`, and every pad run of total width below 256, a pattern
whose only sequence token is the decimal texts `B-ExS` followed by that pad
run (the tokens before and after it are parsed as literals) makes both
constructors come back, the eager expander holding exactly the paths of the
values `B`, `B + S`, `B + 2S`, ... that do not exceed `E` (`E` itself is left
out when it is not reached), in that order, each formatted with the pad width
between the literal tokens.  When there are at least two such values
(`B + S <= E`) both expanders are ok, report that many paths and give the same
paths; when `B` is the only one, both report `isOk() == false` and
`size() == 0`. -/
theorem C4_stepped_range_expands (pattern delimiters : Str) (padChar : Char)
    (pre post : List Str) (B E S : Int) (run : Str)
    (hsplit : splitOriginalPattern pattern (effectiveDelimiters delimiters)
      = pre ++ (intDigits B ++ '-' :: (intDigits E ++ 'x' :: (intDigits S ++ run))) :: post)
    (hpre : ∀ t ∈ pre, parseToken t = some []) (hpost : ∀ t ∈ post, parseToken t = some [])
    (hrun : ∀ c ∈ run, c = '@' ∨ c = '#') (hw : specPadWidth run < 256)
    (hBE : B ≤ E) (hS : 0 < S) (hS2 : S ≤ INT32_MAX) (hB1 : INT32_MIN ≤ B)
    (hE2 : E ≤ INT32_MAX) (hspan : E - B ≤ INT32_MAX) (hcount : (E - B) / S < INT32_MAX)
    (hpast : B + ((E - B) / S + 1) * S ≤ INT32_MAX) :
    (∃ s, FileSequence.ctor pattern delimiters padChar = some s
      ∧ s.getFullPaths = (specStepValues B E S).map
          (fun v => pre.flatten ++ (writePadded padChar v (specPadWidth run) ++ post.flatten))
      ∧ (B + S ≤ E → s.isOk = true ∧ s.size = ((E - B) / S).toNat + 1)
      ∧ (E < B + S → s.isOk = false ∧ s.size = 0))
    ∧ (∃ l, FileSequenceLazy.ctor pattern delimiters padChar = some l
      ∧ (B + S ≤ E →
          l.isOk = true ∧ l.size = ((E - B) / S).toNat + 1
          ∧ l.getFullPaths = some ((specStepValues B E S).map
              (fun v => pre.flatten
                ++ (writePadded padChar v (specPadWidth run) ++ post.flatten))))
      ∧ (E < B + S → l.isOk = false ∧ l.size = 0)) := by
  obtain ⟨_, he, hl⟩ := ctors_of_tokens pattern delimiters padChar (by
    rw [hsplit]
    exact no_trap_of_parts pre post _ hpre hpost
      (range_step_token_ne_nil padChar B E S run hrun hw hBE hS hS2 hB1 hE2 hspan hcount hpast))
  obtain ⟨w1, w2, w3⟩ := step_pattern pattern delimiters padChar pre post B E S run hsplit
    (fun t ht => parseToken_eq_some t [] (hpre t ht))
    (fun t ht => parseToken_eq_some t [] (hpost t ht))
    hrun hw hBE hS hS2 hB1 hE2 hspan hcount hpast
  rw [he]
  refine ⟨w1, _, hl, ?_, w3⟩
  intro h2
  obtain ⟨x1, x2, x3⟩ := w2 h2
  refine ⟨x1, x2, ?_⟩
  rw [(lazy_getFullPaths_eq_wrap pattern delimiters padChar).1]
  exact x3

/-- C4, witness: the pattern "1-10x2@.exr" (`B = 1`, `E = 10`, `S = 2`, pad
run "@", literal tokens "." and "exr"); with it the example of the claim,
evaluated: it gives exactly "1.exr", "3.exr", "5.exr", "7.exr", "9.exr". -/
theorem C4_stepped_range_expands_witness :
    (splitOriginalPattern "1-10x2@.exr".toList (effectiveDelimiters [])
        = [] ++ (intDigits 1 ++ '-' :: (intDigits 10 ++ 'x' :: (intDigits 2 ++ "@".toList)))
          :: [".".toList, "exr".toList]
      ∧ (∀ t ∈ [".".toList, "exr".toList], parseToken t = some [])
      ∧ specPadWidth "@".toList < 256 ∧ (1 : Int) ≤ 10 ∧ (0 : Int) < 2
      ∧ (1 : Int) + ((10 - 1) / 2 + 1) * 2 ≤ INT32_MAX)
    ∧ ((∃ s, FileSequence.ctor "1-10x2@.exr".toList [] '0' = some s
        ∧ s.getFullPaths = (specStepValues 1 10 2).map
            (fun v => ([] : List Str).flatten
              ++ (writePadded '0' v (specPadWidth "@".toList)
                ++ [".".toList, "exr".toList].flatten))
        ∧ ((1 : Int) + 2 ≤ 10 → s.isOk = true ∧ s.size = (((10 : Int) - 1) / 2).toNat + 1)
        ∧ ((10 : Int) < 1 + 2 → s.isOk = false ∧ s.size = 0))
      ∧ (∃ l, FileSequenceLazy.ctor "1-10x2@.exr".toList [] '0' = some l
        ∧ ((1 : Int) + 2 ≤ 10 →
            l.isOk = true ∧ l.size = (((10 : Int) - 1) / 2).toNat + 1
            ∧ l.getFullPaths = some ((specStepValues 1 10 2).map
                (fun v => ([] : List Str).flatten
                  ++ (writePadded '0' v (specPadWidth "@".toList)
                    ++ [".".toList, "exr".toList].flatten))))
        ∧ ((10 : Int) < 1 + 2 → l.isOk = false ∧ l.size = 0)))
    ∧ ((FileSequence.ctor "1-10x2@.exr".toList [] '0').map
          (fun s => (s.isOk, s.size, s.getFullPaths))
        = some (true, 5, ["1.exr".toList, "3.exr".toList, "5.exr".toList, "7.exr".toList,
          "9.exr".toList])
      ∧ (FileSequenceLazy.ctor "1-10x2@.exr".toList [] '0').bind FileSequenceLazy.getFullPaths
        = some ["1.exr".toList, "3.exr".toList, "5.exr".toList, "7.exr".toList,
          "9.exr".toList]) :=
  ⟨⟨by decide, by decide, by decide, by decide, by decide, by decide⟩,
    C4_stepped_range_expands "1-10x2@.exr".toList [] '0' [] [".".toList, "exr".toList]
      1 10 2 "@".toList (by decide) (by decide) (by decide) (by decide) (by decide)
      (by decide) (by decide) (by decide) (by decide) (by decide) (by decide) (by decide)
      (by decide),
    by decide⟩

/-! ## Patterns that resolve to one path -/

/-- C6 (as stated it fails): the pattern "2147483647" is one sequence token
made of one single-element range (`beg == end == INT32_MAX`), yet the
constructor of the eager expander never comes back, because the loop condition
`i <= INT32_MAX` holds for every `int32_t`; so it reports nothing. -/
theorem C6_counterexample :
    parseToken "2147483647".toList = some [⟨2147483647, 2147483647, 1, 0⟩]
    ∧ FileSequence.ctor "2147483647".toList [] '0' = none := by
  have hparse : wrapParseToken "2147483647".toList = [⟨2147483647, 2147483647, 1, 0⟩] := by decide
  have hp : parsePatterns (splitOriginalPattern "2147483647".toList
      (effectiveDelimiters [])) = some [[⟨2147483647, 2147483647, 1, 0⟩]] := by decide
  refine ⟨by decide, ?_⟩
  rw [eager_ctor_eq_wrap _ _ _ _ hp]
  apply ctor_none_of_single _ _ "2147483647".toList _ (by decide) (by decide)
  rw [hparse]
  exact unpackSequence_single_none '0' _
    (unpackSlice_diverges '0' _ (by decide) rfl _ _ (by decide) (by decide))

/-- C6 (amended): for every pattern in which every token is a literal or a
sequence token made of one single-element range (`beg == end`) whose
`beg + step` stays inside `int32_t`, and so for every pattern with no sequence
token at all, the empty pattern included, both constructors come back and both
expanders report `isOk() == false` and `size() == 0`. -/
theorem C6_single_element_ranges_not_ok (pattern delimiters : Str) (padChar : Char)
    (h : ∀ tok ∈ splitOriginalPattern pattern (effectiveDelimiters delimiters),
      parseToken tok = some [] ∨ ∃ d, parseToken tok = some [d] ∧ d.beg = d.end_
        ∧ INT32_MIN ≤ d.beg + d.step ∧ d.beg + d.step ≤ INT32_MAX) :
    (∃ s, FileSequence.ctor pattern delimiters padChar = some s ∧ s.isOk = false ∧ s.size = 0)
    ∧ (∃ l, FileSequenceLazy.ctor pattern delimiters padChar = some l
      ∧ l.isOk = false ∧ l.size = 0) := by
  obtain ⟨_, he, hl⟩ := ctors_of_tokens pattern delimiters padChar (by
    intro tok htok
    rcases h tok htok with h0 | ⟨d, hd, _⟩
    · rw [h0]; simp
    · rw [hd]; simp)
  obtain ⟨w1, w2, w3⟩ := not_ok_of_single_elements pattern delimiters padChar (by
    intro tok htok
    rcases h tok htok with h0 | ⟨d, hd, hrest⟩
    · exact Or.inl (parseToken_eq_some tok [] h0)
    · exact Or.inr ⟨d, parseToken_eq_some tok [d] hd, hrest⟩)
  rw [he]
  exact ⟨w1, _, hl, w2, w3⟩

/-- C6, witness: the pattern "a/5#.exr" has the literal tokens "a", "/", ".",
"exr" and the single-element range "5#". -/
theorem C6_single_element_ranges_not_ok_witness :
    (∀ tok ∈ splitOriginalPattern "a/5#.exr".toList (effectiveDelimiters []),
      parseToken tok = some [] ∨ ∃ d, parseToken tok = some [d] ∧ d.beg = d.end_
        ∧ INT32_MIN ≤ d.beg + d.step ∧ d.beg + d.step ≤ INT32_MAX)
    ∧ ((∃ s, FileSequence.ctor "a/5#.exr".toList [] '0' = some s ∧ s.isOk = false ∧ s.size = 0)
      ∧ (∃ l, FileSequenceLazy.ctor "a/5#.exr".toList [] '0' = some l
        ∧ l.isOk = false ∧ l.size = 0)) := by
  have h : ∀ tok ∈ splitOriginalPattern "a/5#.exr".toList (effectiveDelimiters []),
      parseToken tok = some [] ∨ ∃ d, parseToken tok = some [d] ∧ d.beg = d.end_
        ∧ INT32_MIN ≤ d.beg + d.step ∧ d.beg + d.step ≤ INT32_MAX := by
    intro tok htok
    have hs : splitOriginalPattern "a/5#.exr".toList (effectiveDelimiters [])
        = ["a".toList, "/".toList, "5#".toList, ".".toList, "exr".toList] := by decide
    rw [hs] at htok
    simp only [List.mem_cons, List.mem_nil_iff, or_false] at htok
    rcases htok with rfl | rfl | rfl | rfl | rfl
    · left; decide
    · left; decide
    · right; exact ⟨⟨5, 5, 1, 4⟩, by decide, rfl, by decide, by decide⟩
    · left; decide
    · left; decide
  exact ⟨h, C6_single_element_ranges_not_ok _ _ _ h⟩

/-- C7 (amended): a token in which a `-` is not followed by an integer (such
as "1-#") fails slice parsing and, when `parsePatterns` comes back on it (no
alternative before the failing one divides `INT32_MIN` by -1), stays a plain
literal; so for every pattern in which every token is such a token or a
literal, as for "1-#.exr", every token is a literal, both constructors come
back, the eager expander holds the pattern text itself as its one path, and
both expanders report `isOk() == false` and `size() == 0`. -/
theorem C7_dash_without_integer_is_literal (pattern delimiters : Str) (padChar : Char)
    (h : ∀ tok ∈ splitOriginalPattern pattern (effectiveDelimiters delimiters),
      parseToken tok = some []
        ∨ (parseToken tok ≠ none
          ∧ ∃ pre rest, tok = pre ++ '-' :: rest ∧ parseInteger rest = none)) :
    (∀ tok ∈ splitOriginalPattern pattern (effectiveDelimiters delimiters),
      parseToken tok = some [])
    ∧ (∃ s, FileSequence.ctor pattern delimiters padChar = some s
        ∧ s.getFullPaths = [pattern] ∧ s.isOk = false ∧ s.size = 0)
    ∧ (∃ l, FileSequenceLazy.ctor pattern delimiters padChar = some l
        ∧ l.isOk = false ∧ l.size = 0) := by
  have hlit : ∀ tok ∈ splitOriginalPattern pattern (effectiveDelimiters delimiters),
      parseToken tok = some [] := by
    intro tok htok
    rcases h tok htok with h0 | ⟨hnt, pre, rest, rfl, hbad⟩
    · exact h0
    · cases hp : parseToken (pre ++ '-' :: rest) with
      | none => exact absurd hp hnt
      | some seq =>
        rw [← parseToken_eq_some _ seq hp, parseToken_bad_dash pre rest hbad]
  obtain ⟨_, he, hl⟩ := ctors_of_tokens pattern delimiters padChar (by
    intro tok htok
    rw [hlit tok htok]
    simp)
  obtain ⟨w1, w2, w3⟩ := not_ok_of_literals pattern delimiters padChar
    (fun tok htok => parseToken_eq_some tok [] (hlit tok htok))
  rw [he]
  exact ⟨hlit, ⟨⟨[pattern]⟩, w1, rfl, rfl, rfl⟩, _, hl, w2, w3⟩

/-- C7, witness: the pattern "1-#.exr" has the tokens "1-#", whose dash is
followed by "#" and on which `parsePatterns` comes back, and the literals "."
and "exr". -/
theorem C7_dash_without_integer_is_literal_witness :
    (∀ tok ∈ splitOriginalPattern "1-#.exr".toList (effectiveDelimiters []),
      parseToken tok = some []
        ∨ (parseToken tok ≠ none
          ∧ ∃ pre rest, tok = pre ++ '-' :: rest ∧ parseInteger rest = none))
    ∧ ((∀ tok ∈ splitOriginalPattern "1-#.exr".toList (effectiveDelimiters []),
        parseToken tok = some [])
      ∧ (∃ s, FileSequence.ctor "1-#.exr".toList [] '0' = some s
        ∧ s.getFullPaths = ["1-#.exr".toList] ∧ s.isOk = false ∧ s.size = 0)
      ∧ (∃ l, FileSequenceLazy.ctor "1-#.exr".toList [] '0' = some l
        ∧ l.isOk = false ∧ l.size = 0)) := by
  have h : ∀ tok ∈ splitOriginalPattern "1-#.exr".toList (effectiveDelimiters []),
      parseToken tok = some []
        ∨ (parseToken tok ≠ none
          ∧ ∃ pre rest, tok = pre ++ '-' :: rest ∧ parseInteger rest = none) := by
    intro tok htok
    have hs : splitOriginalPattern "1-#.exr".toList (effectiveDelimiters [])
        = ["1-#".toList, ".".toList, "exr".toList] := by decide
    rw [hs] at htok
    simp only [List.mem_cons, List.mem_nil_iff, or_false] at htok
    rcases htok with rfl | rfl | rfl
    · right; exact ⟨by decide, ['1'], ['#'], rfl, by decide⟩
    · left; decide
    · left; decide
  exact ⟨h, C7_dash_without_integer_is_literal _ _ _ h⟩

/-! ## The padding-only shorthand in both expanders -/

/-- C9: for every token that consists only of a pad run of `@` (width 1 each)
and `#` (width 4 each) with total width `p`, `1 <= p <= 9`, the token parses
(without a trap) to the one slice with begin 0, end `10^p - 1`, step 1 and
pad `p`; the eager expander unpacks it to the `10^p` values `0 .. 10^p - 1` in
ascending order, the lazy expander counts `10^p` values and writes the same
text for each, and each text has exactly `p` characters. -/
theorem C9_pad_only_token (token : Str) (padChar : Char) (p : Nat)
    (hpad : ∀ c ∈ token, c = '@' ∨ c = '#') (hw : specPadWidth token = p)
    (h1 : 1 ≤ p) (h9 : p ≤ 9) :
    parseToken token = some [⟨0, (10 : Int) ^ p - 1, 1, p⟩]
    ∧ unpackSequence padChar [⟨0, (10 : Int) ^ p - 1, 1, p⟩]
        = some ((List.range (10 ^ p)).map (fun (v : Nat) => writePadded padChar (v : Int) p))
    ∧ sequenceSize [⟨0, (10 : Int) ^ p - 1, 1, p⟩] = some (10 ^ p)
    ∧ (∀ v : Nat, v < 10 ^ p →
        unpackSequenceLazy padChar [⟨0, (10 : Int) ^ p - 1, 1, p⟩] v
          = some (writePadded padChar (v : Int) p))
    ∧ (∀ v : Nat, v < 10 ^ p → (writePadded padChar (v : Int) p).length = p) := by
  obtain ⟨w1, w2, w3, w4, w5⟩ := pad_only_token_wrap token padChar p hpad hw h1 h9
  have hacc := accepted_size_token token
  have hp := parseToken_of_wrap token (by rw [w1]; simp)
  rw [w1] at hacc w2 w3 w4 hp
  have hacc2 : ∀ d ∈ [SequenceDesc.mk 0 ((10 : Int) ^ p - 1) 1 p], d.size = some d.wrapSize :=
    fun d hd => (hacc d hd).2
  refine ⟨hp, w2, ?_, ?_, w5⟩
  · rw [sequenceSize_eq_wrap _ hacc2, w3]
  · intro v hv
    rw [unpackSequenceLazy_eq_wrap padChar _ v hacc2, w4 v hv]

/-- C9, witness: the token "#" has width 4 and stands for "0000" .. "9999". -/
theorem C9_pad_only_token_witness :
    ((∀ c ∈ "#".toList, c = '@' ∨ c = '#') ∧ specPadWidth "#".toList = 4
      ∧ 1 ≤ 4 ∧ 4 ≤ 9)
    ∧ (parseToken "#".toList = some [⟨0, (10 : Int) ^ 4 - 1, 1, 4⟩]
      ∧ unpackSequence '0' [⟨0, (10 : Int) ^ 4 - 1, 1, 4⟩]
          = some ((List.range (10 ^ 4)).map (fun (v : Nat) => writePadded '0' (v : Int) 4))
      ∧ sequenceSize [⟨0, (10 : Int) ^ 4 - 1, 1, 4⟩] = some (10 ^ 4)
      ∧ (∀ v : Nat, v < 10 ^ 4 →
          unpackSequenceLazy '0' [⟨0, (10 : Int) ^ 4 - 1, 1, 4⟩] v
            = some (writePadded '0' (v : Int) 4))
      ∧ (∀ v : Nat, v < 10 ^ 4 → (writePadded '0' (v : Int) 4).length = 4)) :=
  ⟨⟨by decide, by decide, by decide, by decide⟩,
    C9_pad_only_token "#".toList '0' 4 (by decide) (by decide) (by decide) (by decide)⟩

/-- C10 (amended): for every comma-separated alternative that is made of `#`
and `@` only, so that its leading pad run is the whole alternative, and which
the parser accepts, the resulting slice has no explicit start: its begin is 0,
its pad is the width of the pad run (each `@` counting 1, each `#` counting 4)
reduced modulo 256, its end is the value computed from that pad and its step
is 1. -/
theorem C10_pad_run_has_no_explicit_start (buf : Str) (d : SequenceDesc) (hne : buf ≠ [])
    (hpad : ∀ c ∈ buf, c = '@' ∨ c = '#') (hacc : parseSlice buf = some (some d)) :
    d.beg = 0 ∧ d.pad = specPadWidth buf % 256 ∧ d.end_ = powTenMinusOne d.pad ∧ d.step = 1 := by
  have hacc := parseSlice_eq_some buf (some d) hacc
  rw [parseSlice_pad_run buf hne hpad] at hacc
  split at hacc
  · simp only [Option.some.injEq] at hacc
    subst hacc
    exact ⟨rfl, rfl, rfl, rfl⟩
  · simp at hacc

/-- C10, witness: the alternative "#@" is accepted with begin 0 and pad 5. -/
theorem C10_pad_run_has_no_explicit_start_witness :
    ("#@".toList ≠ [] ∧ (∀ c ∈ "#@".toList, c = '@' ∨ c = '#')
      ∧ parseSlice "#@".toList = some (some ⟨0, 99999, 1, 5⟩))
    ∧ ((SequenceDesc.mk 0 99999 1 5).beg = 0
      ∧ (SequenceDesc.mk 0 99999 1 5).pad = specPadWidth "#@".toList % 256
      ∧ (SequenceDesc.mk 0 99999 1 5).end_ = powTenMinusOne (SequenceDesc.mk 0 99999 1 5).pad
      ∧ (SequenceDesc.mk 0 99999 1 5).step = 1) :=
  ⟨⟨by decide, by decide, by decide⟩,
    C10_pad_run_has_no_explicit_start "#@".toList ⟨0, 99999, 1, 5⟩ (by decide) (by decide)
      (by decide)⟩

/-! ## A produced path as a pattern, in both expanders -/

/-- C14 (as stated it fails): the pattern "1-2#.exr" produces the path
"0001.exr", which carries only literal text and a formatted number; the eager
expander built on "0001.exr" as a pattern is not ok, but its one path is
"1.exr", not "0001.exr" (the token "0001" is a sequence token of the single
value 1 with pad 0); and the lazy expander built on it has no path at all.
And the pattern "2147483647-2147483646" produces the path "2147483647", on
which the eager constructor never comes back. -/
theorem C14_counterexample :
    ((FileSequence.ctor "1-2#.exr".toList [] '0').map FileSequence.getFullPaths
      = some ["0001.exr".toList, "0002.exr".toList]
    ∧ (FileSequenceLazy.ctor "1-2#.exr".toList [] '0').bind FileSequenceLazy.getFullPaths
      = some ["0001.exr".toList, "0002.exr".toList]
    ∧ (FileSequence.ctor "0001.exr".toList [] '0').map (fun s => (s.isOk, s.getFullPaths))
      = some (false, ["1.exr".toList])
    ∧ (FileSequenceLazy.ctor "0001.exr".toList [] '0').map
        (fun s => (s.isOk, s.size, s.getFullPaths)) = some (false, 0, some []))
    ∧ (FileSequence.ctor "2147483647-2147483646".toList [] '0').map
        FileSequence.getFullPaths = some ["2147483647".toList, "2147483646".toList]
    ∧ FileSequence.ctor "2147483647".toList [] '0' = none := by
  refine ⟨by decide, by decide, ?_⟩
  have hp : parsePatterns (splitOriginalPattern "2147483647".toList
      (effectiveDelimiters [])) = some [[⟨2147483647, 2147483647, 1, 0⟩]] := by decide
  rw [eager_ctor_eq_wrap _ _ _ _ hp]
  apply ctor_none_of_single _ _ "2147483647".toList _ (by decide) (by decide)
  have hp : wrapParseToken "2147483647".toList = [⟨2147483647, 2147483647, 1, 0⟩] := by
    decide
  rw [hp]
  exact unpackSequence_single_none _ _
    (unpackSlice_diverges _ _ (by decide) (by decide) _ _ (by decide) (by decide))

/-- C14 (amended): for every text `q` (so for every path that expanding a
pattern produces) that carries only literal text and numbers in plain decimal
form, without pad characters and below `INT32_MAX`, that is, every token of
`q` is parsed as a literal or is the plain decimal text of such a number:
constructing an expander on `q` as a pattern comes back and yields
`isOk() == false` and `size() == 0`; the eager expander holds a single path,
which equals `q`, and the lazy expander holds no path. -/
theorem C14_plain_path_expands_to_itself (q delimiters : Str) (padChar : Char)
    (h : ∀ tok ∈ splitOriginalPattern q (effectiveDelimiters delimiters),
      parseToken tok = some [] ∨ ∃ v, tok = intDigits v ∧ INT32_MIN ≤ v ∧ v < INT32_MAX) :
    (∃ s, FileSequence.ctor q delimiters padChar = some s
      ∧ s.isOk = false ∧ s.size = 0 ∧ s.getFullPaths = [q])
    ∧ (∃ l, FileSequenceLazy.ctor q delimiters padChar = some l
      ∧ l.isOk = false ∧ l.size = 0 ∧ l.getFullPaths = some []) := by
  obtain ⟨_, he, hl⟩ := ctors_of_tokens q delimiters padChar (by
    intro tok htok
    rcases h tok htok with h0 | ⟨v, rfl, v1, v2⟩
    · rw [h0]; simp
    · rw [parseToken_of_wrap _ (by
        rw [parseToken_intDigits v v1 (by omega)]
        simp)]
      simp)
  obtain ⟨h1, h2, h3⟩ := reparse_plain q delimiters padChar (by
    intro tok htok
    rcases h tok htok with h0 | hv
    · exact Or.inl (parseToken_eq_some tok [] h0)
    · exact Or.inr hv)
  rw [he]
  refine ⟨⟨_, h1, rfl, rfl, rfl⟩, _, hl, h2, h3, ?_⟩
  rw [(lazy_getFullPaths_eq_wrap q delimiters padChar).1, lazy_getFullPaths_eq, h3]
  rfl

/-- C14, witness: the pattern "a.-3-2.b" produces the path "a.-3.b", whose
tokens are the literals "a", ".", "b" and the plain number "-3"; the eager
expander built on "a.-3.b" holds that one path. -/
theorem C14_plain_path_expands_to_itself_witness :
    (FileSequence.ctor "a.-3-2.b".toList [] '0').map (fun s => s.index 0)
      = some "a.-3.b".toList
    ∧ (∀ tok ∈ splitOriginalPattern "a.-3.b".toList (effectiveDelimiters []),
        parseToken tok = some [] ∨ ∃ v, tok = intDigits v ∧ INT32_MIN ≤ v ∧ v < INT32_MAX)
    ∧ ((∃ s, FileSequence.ctor "a.-3.b".toList [] '0' = some s
        ∧ s.isOk = false ∧ s.size = 0 ∧ s.getFullPaths = ["a.-3.b".toList])
      ∧ (∃ l, FileSequenceLazy.ctor "a.-3.b".toList [] '0' = some l
        ∧ l.isOk = false ∧ l.size = 0 ∧ l.getFullPaths = some [])) :=
  have hq : ∀ tok ∈ splitOriginalPattern "a.-3.b".toList (effectiveDelimiters []),
      parseToken tok = some [] ∨ ∃ v, tok = intDigits v ∧ INT32_MIN ≤ v ∧ v < INT32_MAX := by
    have hs : splitOriginalPattern "a.-3.b".toList (effectiveDelimiters [])
        = ["a".toList, ".".toList, "-3".toList, ".".toList, "b".toList] := by decide
    rw [hs]
    intro tok htok
    simp only [List.mem_cons, List.mem_singleton, List.not_mem_nil, or_false] at htok
    rcases htok with rfl | rfl | rfl | rfl | rfl
    · exact Or.inl (by decide)
    · exact Or.inl (by decide)
    · exact Or.inr ⟨-3, by decide, by decide, by decide⟩
    · exact Or.inl (by decide)
    · exact Or.inl (by decide)
  ⟨by decide, hq, C14_plain_path_expands_to_itself "a.-3.b".toList [] '0' hq⟩

/-! ## An expander that is not ok -/

/-- C15 (as stated it fails): the eager expander on the pattern "abc" is not
ok and has size 0, yet `getFullPaths()` is the one-path list "abc", iteration
from `begin()` to `end()` visits that path, and `operator[]` returns it at
index 0, not the empty sentinel. -/
theorem C15_counterexample :
    (FileSequence.ctor "abc".toList [] '0').map (fun s => (s.isOk, s.size))
      = some (false, 0)
    ∧ (FileSequence.ctor "abc".toList [] '0').map FileSequence.getFullPaths
      = some ["abc".toList]
    ∧ (FileSequence.ctor "abc".toList [] '0').map FileSequence.beginToEnd
      = some ["abc".toList]
    ∧ (FileSequence.ctor "abc".toList [] '0').map (fun s => s.index 0)
      = some "abc".toList := by
  decide

/-- C15 (amended): for every pattern on which an expander was built and
reports `isOk() == false`, `size()` is 0. The lazy expander then produces no
paths: `getFullPaths()` is the empty list and iteration from `begin()` to
`end()` visits nothing. The eager expander then holds at most one materialized
path: `getFullPaths()` and iteration show that path when there is one, and
`operator[]` returns the sentinel empty string at every index from 1 on, and
at index 0 too when there is no path. -/
theorem C15_not_ok_expander (pattern delimiters : Str) (padChar : Char) :
    (∀ s, FileSequence.ctor pattern delimiters padChar = some s → s.isOk = false →
      s.size = 0 ∧ s.getFullPaths.length ≤ 1 ∧ s.beginToEnd = s.getFullPaths
      ∧ (∀ i, 1 ≤ i → s.index i = [])
      ∧ (s.getFullPaths = [] → s.index 0 = []))
    ∧ (∀ l, FileSequenceLazy.ctor pattern delimiters padChar = some l → l.isOk = false →
      l.size = 0 ∧ l.getFullPaths = some [] ∧ l.beginToEnd = some []) := by
  constructor
  · intro s _ hok
    have hlen : s.m_paths.length ≤ 1 := by
      simpa [FileSequence.isOk] using hok
    refine ⟨?_, hlen, rfl, ?_, ?_⟩
    · simp [FileSequence.size, hok]
    · intro i hi
      unfold FileSequence.index
      rw [List.getElem?_eq_none (by omega)]
    · intro he
      unfold FileSequence.index
      unfold FileSequence.getFullPaths at he
      rw [he]
      rfl
  · intro l hl hok
    obtain ⟨rfl, _⟩ := lazy_ctor_eq_some pattern delimiters padChar l hl
    rw [lazy_isOk_eq] at hok
    have hsize : (FileSequenceLazy.wrapCtor pattern delimiters padChar).size = 0 := by
      rw [lazy_size_eq, hok]
      rfl
    have hm : (FileSequenceLazy.wrapCtor pattern delimiters padChar).m_size = 0 := hsize
    refine ⟨hsize, ?_, ?_⟩
    · unfold FileSequenceLazy.getFullPaths
      rw [hm]
      rfl
    · unfold FileSequenceLazy.beginToEnd
      rw [hm]
      rfl

/-- C15, witness: both expanders on the pattern "abc" are built and not ok. -/
theorem C15_not_ok_expander_witness :
    ∃ s l, FileSequence.ctor "abc".toList [] '0' = some s ∧ s.isOk = false
      ∧ FileSequenceLazy.ctor "abc".toList [] '0' = some l ∧ l.isOk = false
      ∧ (s.size = 0 ∧ s.getFullPaths.length ≤ 1 ∧ s.beginToEnd = s.getFullPaths
        ∧ (∀ i, 1 ≤ i → s.index i = [])
        ∧ (s.getFullPaths = [] → s.index 0 = []))
      ∧ (l.size = 0 ∧ l.getFullPaths = some [] ∧ l.beginToEnd = some []) :=
  ⟨⟨["abc".toList]⟩, ⟨'0', [[]], ["abc".toList], 0, false⟩, by decide, by decide, by decide,
    by decide,
    (C15_not_ok_expander "abc".toList [] '0').1 ⟨["abc".toList]⟩ (by decide) (by decide),
    (C15_not_ok_expander "abc".toList [] '0').2 ⟨'0', [[]], ["abc".toList], 0, false⟩
      (by decide) (by decide)⟩

/-! ## The product of the per-token lists, in the eager expander -/

/-- A relation that holds between two lists holds together with a property of
every element of the first. -/
theorem forall2_and_left {α β : Type} (R : α → β → Prop) (P : α → Prop) (l1 : List α)
    (l2 : List β) (hP : ∀ a ∈ l1, P a) (h : List.Forall₂ R l1 l2) :
    List.Forall₂ (fun a b => P a ∧ R a b) l1 l2 := by
  induction h with
  | nil => exact List.Forall₂.nil
  | cons hab _ ih =>
    exact List.Forall₂.cons ⟨hP _ (List.mem_cons_self _ _), hab⟩
      (ih (fun a ha => hP a (List.mem_cons_of_mem _ ha)))

/-- A property of the slices of a parsed pattern, token by token. -/
theorem slices_of_tokens (tokens : List Str) (P : SequenceDesc → Prop)
    (h : ∀ seq ∈ wrapParsePatterns tokens, ∀ d ∈ seq, P d) :
    ∀ tok ∈ tokens, ∀ d ∈ wrapParseToken tok, P d := by
  intro tok htok d hd
  apply h (wrapParseToken tok) _ d hd
  unfold wrapParsePatterns
  exact List.mem_map_of_mem _ htok

/-- C11 (as stated it fails): for the pattern "2147483646-2147483647" the
eager constructor does not come back, so there is no path list at all (the loop
over the slice never ends), and for the pattern "0--2147483648.1-2" it does
not come back either (`desc.isOk()` divides `INT32_MIN` by -1 on the first
token, which traps); and for the pattern "#.#.#.#.#" the five sequence
tokens expand to 10000 texts each, so the product of the lengths of the
per-token lists is `10 ^ 20`, which is above `2 ^ 64`: `totalPaths` is a
`size_t` and the number of paths is never `10 ^ 20`. -/
theorem C11_counterexample :
    FileSequence.ctor "2147483646-2147483647".toList [] '0' = none
    ∧ FileSequence.ctor "0--2147483648.1-2".toList [] '0' = none
    ∧ ((parsePatterns (splitOriginalPattern "#.#.#.#.#".toList (effectiveDelimiters []))).bind
        (pathPartsOf '0' (splitOriginalPattern "#.#.#.#.#".toList (effectiveDelimiters [])))).map
          prodLengths = some (10 ^ 20)
    ∧ (FileSequence.ctor "#.#.#.#.#".toList [] '0').map (fun s => s.m_paths.length)
        ≠ some (10 ^ 20) := by
  obtain ⟨w1, w2, w3⟩ := hash_product_wrap
  have hp1 : parsePatterns (splitOriginalPattern "2147483646-2147483647".toList
      (effectiveDelimiters [])) = some [[⟨2147483646, 2147483647, 1, 0⟩]] := by decide
  obtain ⟨hp2, he2, _⟩ := ctors_of_tokens "#.#.#.#.#".toList [] '0' (by decide)
  refine ⟨?_, by decide, ?_, ?_⟩
  · rw [eager_ctor_eq_wrap _ _ _ _ hp1]
    exact w1
  · rw [hp2, Option.some_bind]
    exact w2
  · rw [he2]
    exact w3

/-- C11 (amended): for every pattern on which `parsePatterns` comes back,
whose per-token expansion lists exist (`parts`: the one-element list of its
text for a literal token, the list `unpackSequence` returns for a sequence
token, so every loop over a slice ends) and for which the product of the
lengths of these lists is below `2 ^ 64`, the eager expander's path list is
the cartesian product of the lists, each path being the concatenation of one
expansion per token in pattern order, in row-major order: the entry at index
`i` takes from every list the element at the digit
`(i / product of the later lengths) mod own length`, so the first token varies
slowest and the last fastest; and the number of materialized paths is the
product of the lengths. -/
theorem C11_eager_paths_are_the_product (pattern delimiters : Str) (padChar : Char)
    (packed : PackedPath) (parts : List (List Str))
    (hp : parsePatterns (splitOriginalPattern pattern (effectiveDelimiters delimiters))
      = some packed)
    (hparts : pathPartsOf padChar (splitOriginalPattern pattern (effectiveDelimiters delimiters))
      packed = some parts)
    (hsize : prodLengths parts < SIZE_MOD) :
    List.Forall₂ (fun tok part =>
        ∃ seq, parseToken tok = some seq
          ∧ (if seq.isEmpty then part = [tok] else unpackSequence padChar seq = some part))
      (splitOriginalPattern pattern (effectiveDelimiters delimiters)) parts
    ∧ FileSequence.ctor pattern delimiters padChar = some ⟨specCartesian parts⟩
    ∧ (∀ i, i < prodLengths parts → (specCartesian parts)[i]? = specPick parts i)
    ∧ (specCartesian parts).length = prodLengths parts := by
  obtain ⟨hpk, htoks⟩ := parsePatterns_eq_some _ packed hp
  subst hpk
  refine ⟨?_, ?_, fun i hi => specCartesian_eq_specPick parts i hi, specCartesian_length parts⟩
  · have h2 := forall2_and_left _ (fun tok => parseToken tok = some (wrapParseToken tok)) _ _
      htoks ((pathPartsOf_eq_some_iff padChar _ parts).mp hparts)
    exact h2.imp (fun a b hab => ⟨wrapParseToken a, hab.1, hab.2⟩)
  · rw [eager_ctor_eq_wrap pattern delimiters padChar _ hp]
    exact eager_ctor_of_parts pattern delimiters padChar parts hparts hsize

/-- C11, witness: the pattern "1-2.7-9" has the per-token lists "1", "2" and
"." and "7", "8", "9", and the 6 paths "1.7", "1.8", "1.9", "2.7", "2.8",
"2.9". -/
theorem C11_eager_paths_are_the_product_witness :
    specCartesian [["1".toList, "2".toList], [".".toList],
        ["7".toList, "8".toList, "9".toList]]
      = ["1.7".toList, "1.8".toList, "1.9".toList, "2.7".toList, "2.8".toList, "2.9".toList]
    ∧ parsePatterns (splitOriginalPattern "1-2.7-9".toList (effectiveDelimiters []))
      = some [[⟨1, 2, 1, 0⟩], [], [⟨7, 9, 1, 0⟩]]
    ∧ (List.Forall₂ (fun tok part =>
          ∃ seq, parseToken tok = some seq
            ∧ (if seq.isEmpty then part = [tok] else unpackSequence '0' seq = some part))
        (splitOriginalPattern "1-2.7-9".toList (effectiveDelimiters []))
        [["1".toList, "2".toList], [".".toList], ["7".toList, "8".toList, "9".toList]]
      ∧ FileSequence.ctor "1-2.7-9".toList [] '0'
        = some ⟨specCartesian [["1".toList, "2".toList], [".".toList],
            ["7".toList, "8".toList, "9".toList]]⟩
      ∧ (∀ i, i < prodLengths [["1".toList, "2".toList], [".".toList],
            ["7".toList, "8".toList, "9".toList]] →
          (specCartesian [["1".toList, "2".toList], [".".toList],
            ["7".toList, "8".toList, "9".toList]])[i]?
          = specPick [["1".toList, "2".toList], [".".toList],
            ["7".toList, "8".toList, "9".toList]] i)
      ∧ (specCartesian [["1".toList, "2".toList], [".".toList],
            ["7".toList, "8".toList, "9".toList]]).length
        = prodLengths [["1".toList, "2".toList], [".".toList],
            ["7".toList, "8".toList, "9".toList]]) :=
  ⟨by decide, by decide,
    C11_eager_paths_are_the_product "1-2.7-9".toList [] '0'
      [[⟨1, 2, 1, 0⟩], [], [⟨7, 9, 1, 0⟩]]
      [["1".toList, "2".toList], [".".toList], ["7".toList, "8".toList, "9".toList]]
      (by decide) (by decide) (by decide)⟩

/-! ## The lazy path at an index, in the lazy expander -/

/-- The slices a lazy expander stores are those of the parsed pattern, and
none of their `size()` traps. -/
theorem lazy_stored (pattern delimiters : Str) (padChar : Char) (s : FileSequenceLazy)
    (hs : FileSequenceLazy.ctor pattern delimiters padChar = some s) :
    s = FileSequenceLazy.wrapCtor pattern delimiters padChar
    ∧ s.m_packedPaths
      = wrapParsePatterns (splitOriginalPattern pattern (effectiveDelimiters delimiters))
    ∧ s.m_pathParts = splitOriginalPattern pattern (effectiveDelimiters delimiters)
    ∧ (∀ seq ∈ s.m_packedPaths, ∀ d ∈ seq, d.size = some d.wrapSize)
    ∧ specTotal s.m_packedPaths
      = wrapTotal (wrapParsePatterns
          (splitOriginalPattern pattern (effectiveDelimiters delimiters))) := by
  obtain ⟨h1, _, h3, h4, _⟩ := lazy_ctor_eq_some pattern delimiters padChar s hs
  have hacc : ∀ seq ∈ s.m_packedPaths, ∀ d ∈ seq, d.size = some d.wrapSize := by
    rw [h3]
    intro seq hseq d hd
    exact (accepted_size _ seq hseq d hd).2
  refine ⟨h1, h3, h4, hacc, ?_⟩
  rw [specTotal_eq_wrap _ hacc, h3]

/-- C12 (as stated it fails): on the pattern "#.#.#.#.#" the lazy expander is
built and ok with the size `10 ^ 20 mod 2 ^ 64`, but `operator[]` at index 0
does not return the path "0000.0000.0000.0000.0000" of the formula: the radix
left for the last token is 776, below its cardinality 10000, and the division
`branchesLeft / seqSize` gives the divisor 0. -/
theorem C12_counterexample :
    (FileSequenceLazy.ctor "#.#.#.#.#".toList [] '0').map (fun s => (s.isOk, s.size))
      = some (true, 7766279631452241920)
    ∧ (FileSequenceLazy.ctor "#.#.#.#.#".toList [] '0').map
        (fun s => specLazyPath '0' s.m_pathParts s.m_packedPaths 0)
      = some (some "0000.0000.0000.0000.0000".toList)
    ∧ (FileSequenceLazy.ctor "#.#.#.#.#".toList [] '0').map (fun s => s.index 0) = some none
    ∧ (FileSequenceLazy.ctor "#.#.#.#.#".toList [] '0').map
        (fun s => (lazyRounds s.m_packedPaths 0 s.size).map
          (fun rs => rs.map (fun r => r.2.2.2)))
      = some (some [7766279631452241920, 776627963145224, 77662796314, 7766279, 776]) := by
  decide

/-- C12 (amended): for every pattern on which the lazy expander is built and
ok and whose total (the product of the cardinalities of its sequence tokens,
each the sum of the cardinalities of its slices) is below `2 ^ 64`, and for
every `idx < size()`, `lazy[idx]` is the concatenation over the tokens in
order of: the token's text for a literal token; and for a sequence token `k`
with cardinality `c_k` the text `writePadded( begin + step * offset, pad )`
(the value converted to `int32_t`) of the slice and offset that the digit
`d_k = (idx / (product of c_j for the sequence tokens j after k)) mod c_k`
selects by subtracting each earlier slice's cardinality from it. -/
theorem C12_lazy_index_is_mixed_radix (pattern delimiters : Str) (padChar : Char)
    (s : FileSequenceLazy) (idx : Nat)
    (hs : FileSequenceLazy.ctor pattern delimiters padChar = some s)
    (htot : specTotal s.m_packedPaths < SIZE_MOD)
    (hok : s.isOk = true) (hidx : idx < s.size) :
    ∃ text, s.index idx = some text
      ∧ specLazyPath padChar (splitOriginalPattern pattern (effectiveDelimiters delimiters))
          s.m_packedPaths idx = some text := by
  obtain ⟨h1, h3, _, hacc, htw⟩ := lazy_stored pattern delimiters padChar s hs
  rw [htw] at htot
  rw [specLazyPath_eq_wrap padChar _ _ idx hacc, h3]
  subst h1
  rw [lazy_index_eq_wrap]
  exact lazy_index_mixed_radix_wrap pattern delimiters padChar idx htot hok hidx

/-- C12, witness: on the pattern "1-2#.7,8-9" (total 6) the path at index 4 is
"0002.8": the digits of 4 are 1 and 1. -/
theorem C12_lazy_index_is_mixed_radix_witness :
    FileSequenceLazy.ctor "1-2#.7,8-9".toList [] '0'
      = some ⟨'0', [[⟨1, 2, 1, 4⟩], [], [⟨7, 7, 1, 0⟩, ⟨8, 9, 1, 0⟩]],
          ["1-2#".toList, ".".toList, "7,8-9".toList], 6, true⟩
    ∧ specDigits [[⟨1, 2, 1, 4⟩], [], [⟨7, 7, 1, 0⟩, ⟨8, 9, 1, 0⟩]] 4 = [1, 1]
    ∧ (FileSequenceLazy.mk '0' [[⟨1, 2, 1, 4⟩], [], [⟨7, 7, 1, 0⟩, ⟨8, 9, 1, 0⟩]]
          ["1-2#".toList, ".".toList, "7,8-9".toList] 6 true).index 4 = some "0002.8".toList
    ∧ ∃ text, (FileSequenceLazy.mk '0' [[⟨1, 2, 1, 4⟩], [], [⟨7, 7, 1, 0⟩, ⟨8, 9, 1, 0⟩]]
          ["1-2#".toList, ".".toList, "7,8-9".toList] 6 true).index 4 = some text
      ∧ specLazyPath '0' (splitOriginalPattern "1-2#.7,8-9".toList (effectiveDelimiters []))
          (FileSequenceLazy.mk '0' [[⟨1, 2, 1, 4⟩], [], [⟨7, 7, 1, 0⟩, ⟨8, 9, 1, 0⟩]]
            ["1-2#".toList, ".".toList, "7,8-9".toList] 6 true).m_packedPaths 4 = some text :=
  ⟨by decide, by decide, by decide,
    C12_lazy_index_is_mixed_radix "1-2#.7,8-9".toList [] '0' _ 4 (by decide) (by decide)
      (by decide) (by decide)⟩

/-! ## The lazy retrieval is well defined, in the lazy expander -/

/-- C19: for every pattern on which the lazy expander is built and ok and
whose total is below `2 ^ 64` (no `size_t` overflow), and every `idx` (below
`size()` or not, as `operator[]` reduces it modulo the radix), the lazy
indexed retrieval is well defined: every accepted slice has a step that is not
0 and a cardinality of at least 1 (its `size()` does not trap), so the
cardinality of every sequence token is at least 1; at every sequence token
the running radix `branchesLeft` is not 0 and is a multiple of the token's
cardinality, the quotient `branchesLeft / seqSize` it divides by is not 0, the
branch is strictly below the cardinality, and the loop of `unpackSequence`
stops at a slice instead of falling through; and `operator[]` comes back with
a path. -/
theorem C19_lazy_retrieval_is_well_defined (pattern delimiters : Str) (padChar : Char)
    (s : FileSequenceLazy) (idx : Nat)
    (hs : FileSequenceLazy.ctor pattern delimiters padChar = some s)
    (htot : specTotal s.m_packedPaths < SIZE_MOD)
    (hok : s.isOk = true) :
    (∀ seq ∈ s.m_packedPaths, ∀ d ∈ seq, d.step ≠ 0 ∧ ∃ n, d.size = some n ∧ 1 ≤ n)
    ∧ (∀ seq ∈ s.m_packedPaths, ¬ seq.isEmpty = true →
        ∃ n, sequenceSize seq = some n ∧ 1 ≤ n)
    ∧ (∃ rounds, lazyRounds s.m_packedPaths idx s.size = some rounds
        ∧ ∀ r ∈ rounds,
          r.2.2.2 ≠ 0 ∧ r.2.1 ∣ r.2.2.2 ∧ 1 ≤ r.2.1 ∧ r.2.2.2 / r.2.1 ≠ 0
          ∧ (r.2.2.1 % r.2.2.2) / (r.2.2.2 / r.2.1) < r.2.1
          ∧ (lazySlice r.1 ((r.2.2.1 % r.2.2.2) / (r.2.2.2 / r.2.1))).isSome = true)
    ∧ (s.index idx).isSome = true := by
  obtain ⟨h1, h3, _, hacc, htw⟩ := lazy_stored pattern delimiters padChar s hs
  rw [htw] at htot
  subst h1
  obtain ⟨w1, w2, w3, w4⟩ := lazy_well_defined_wrap pattern delimiters padChar idx htot hok
  have hmem : ∀ seq ∈ (FileSequenceLazy.wrapCtor pattern delimiters padChar).m_packedPaths,
      ∃ tok ∈ splitOriginalPattern pattern (effectiveDelimiters delimiters),
        seq = wrapParseToken tok := by
    intro seq hseq
    rw [h3] at hseq
    unfold wrapParsePatterns at hseq
    rw [List.mem_map] at hseq
    obtain ⟨tok, htok, rfl⟩ := hseq
    exact ⟨tok, htok, rfl⟩
  refine ⟨?_, ?_, ?_, ?_⟩
  · intro seq hseq d hd
    obtain ⟨tok, htok, rfl⟩ := hmem seq hseq
    obtain ⟨x1, x2⟩ := w1 tok htok d hd
    exact ⟨x1, d.wrapSize, hacc _ hseq d hd, x2⟩
  · intro seq hseq hne
    obtain ⟨tok, htok, rfl⟩ := hmem seq hseq
    exact ⟨_, sequenceSize_eq_wrap _ (hacc _ hseq), w2 tok htok hne⟩
  · refine ⟨_, lazyRounds_eq_wrap _ idx _ hacc, ?_⟩
    intro r hr
    rw [List.mem_map] at hr
    obtain ⟨r0, hr0, rfl⟩ := hr
    have hr1 : r0 ∈ wrapLazyRounds (wrapParsePatterns
        (splitOriginalPattern pattern (effectiveDelimiters delimiters))) idx
        (FileSequenceLazy.wrapCtor pattern delimiters padChar).size := by
      rw [← h3]
      exact hr0
    obtain ⟨y1, y2, y3, y4, y5, y6⟩ := w3 r0 hr1
    have hr0acc : ∀ d ∈ r0.1, d.size = some d.wrapSize := by
      have hsub : ∀ (packed : PackedPath) (b bl : Nat) (r : PackedSequence × Nat × Nat),
          r ∈ wrapLazyRounds packed b bl → r.1 ∈ packed := by
        intro packed
        induction packed with
        | nil => intro b bl r hr; simp [wrapLazyRounds] at hr
        | cons q packed ih =>
          intro b bl r hr
          unfold wrapLazyRounds at hr
          by_cases he : q.isEmpty = true
          · rw [if_pos he] at hr
            exact List.mem_cons_of_mem _ (ih _ _ r hr)
          · rw [if_neg he] at hr
            rcases List.mem_cons.mp hr with rfl | hr
            · exact List.mem_cons_self _ _
            · exact List.mem_cons_of_mem _ (ih _ _ r hr)
      exact hacc _ (hsub _ _ _ r0 hr0)
    refine ⟨y1, y2, y3, y4, y5, ?_⟩
    show (lazySlice r0.1 _).isSome = true
    rw [lazySlice_eq_wrap _ _ hr0acc]
    exact y6
  · rw [lazy_index_eq_wrap]
    exact w4

/-- C19, witness: on the pattern "1-2#.7,8-9" (total 6) the two rounds of the
retrieval at index 4 have the radix 6 and 3, the cardinalities 2 and 3 and the
branches 1 and 1. -/
theorem C19_lazy_retrieval_is_well_defined_witness :
    (FileSequenceLazy.ctor "1-2#.7,8-9".toList [] '0'
      = some ⟨'0', [[⟨1, 2, 1, 4⟩], [], [⟨7, 7, 1, 0⟩, ⟨8, 9, 1, 0⟩]],
          ["1-2#".toList, ".".toList, "7,8-9".toList], 6, true⟩
      ∧ (lazyRounds [[⟨1, 2, 1, 4⟩], [], [⟨7, 7, 1, 0⟩, ⟨8, 9, 1, 0⟩]] 4 6).map
          (fun rs => rs.map (fun r =>
            (r.2.2.2, r.2.1, (r.2.2.1 % r.2.2.2) / (r.2.2.2 / r.2.1))))
        = some [(6, 2, 1), (3, 3, 1)])
    ∧ ((FileSequenceLazy.mk '0' [[⟨1, 2, 1, 4⟩], [], [⟨7, 7, 1, 0⟩, ⟨8, 9, 1, 0⟩]]
          ["1-2#".toList, ".".toList, "7,8-9".toList] 6 true).index 4).isSome = true :=
  ⟨⟨by decide, by decide⟩,
    (C19_lazy_retrieval_is_well_defined "1-2#.7,8-9".toList [] '0' _ 4 (by decide) (by decide)
      (by decide)).2.2.2⟩

/-! ## The eager and the lazy expander agree -/

/-- C20: for every pattern all of whose accepted slices are
direction-consistent, `(end - begin) * step >= 0`, with no integer overflow
(`parsePatterns` comes back, so no `isOk()` divides `INT32_MIN` by -1, no
`int32_t` computation on an accepted slice overflows and the total is below
`2 ^ 64`): the eager loop comes back for every slice with as many values as
the slice's cardinality, which is `(end - begin) / step + 1`; both
constructors come back; and the eager and the lazy expander have the same
`isOk()`, the same `size()`, and `eager[i] == lazy[i]` for every
`i < size()`. -/
theorem C20_eager_and_lazy_agree (pattern delimiters : Str) (padChar : Char)
    (packed : PackedPath)
    (hp : parsePatterns (splitOriginalPattern pattern (effectiveDelimiters delimiters))
      = some packed)
    (hdir : ∀ seq ∈ packed, ∀ d ∈ seq, 0 ≤ (d.end_ - d.beg) * d.step)
    (hno : ∀ seq ∈ packed, ∀ d ∈ seq, sliceNoOverflow d = true)
    (htot : specTotal packed < SIZE_MOD) :
    (∀ seq ∈ packed, ∀ d ∈ seq, ∃ vals, unpackSlice padChar d loopFuel d.beg = some vals
        ∧ d.size = some vals.length
        ∧ vals.length = (Int.tdiv (d.end_ - d.beg) d.step).toNat + 1)
    ∧ ∃ s l, FileSequence.ctor pattern delimiters padChar = some s
      ∧ FileSequenceLazy.ctor pattern delimiters padChar = some l
      ∧ s.isOk = l.isOk ∧ s.size = l.size
      ∧ ∀ i, i < s.size → l.index i = some (s.index i) := by
  obtain ⟨hpk, _⟩ := parsePatterns_eq_some _ packed hp
  subst hpk
  have hacc : ∀ seq ∈ wrapParsePatterns
      (splitOriginalPattern pattern (effectiveDelimiters delimiters)),
      ∀ d ∈ seq, d.size = some d.wrapSize :=
    fun seq hseq d hd => (accepted_size _ seq hseq d hd).2
  rw [specTotal_eq_wrap _ hacc] at htot
  obtain ⟨w1, s, w2, w3, w4, w5⟩ := eager_lazy_agree_wrap pattern delimiters padChar
    (slices_of_tokens _ _ hdir) (slices_of_tokens _ _ hno) htot
  constructor
  · intro seq hseq d hd
    unfold wrapParsePatterns at hseq
    rw [List.mem_map] at hseq
    obtain ⟨tok, htok, rfl⟩ := hseq
    obtain ⟨vals, v1, v2, v3⟩ := w1 tok htok d hd
    refine ⟨vals, v1, ?_, ?_⟩
    · rw [(accepted_size_token tok d hd).2, v2]
    · rw [v2, v3]
  · refine ⟨s, _, ?_, lazy_ctor_eq_wrap pattern delimiters padChar _ hp, w3, w4, ?_⟩
    · rw [eager_ctor_eq_wrap pattern delimiters padChar _ hp]
      exact w2
    · intro i hi
      rw [lazy_index_eq_wrap]
      exact w5 i hi

/-- C20, witness: the pattern "1-5x2.9-7#" has the direction-consistent slices
`{ 1, 5, 2, 0 }` and `{ 9, 7, -1, 4 }`; both expanders are ok with the same 9
paths. -/
theorem C20_eager_and_lazy_agree_witness :
    ((FileSequence.ctor "1-5x2.9-7#".toList [] '0').map FileSequence.getFullPaths
      = some ["1.0009".toList, "1.0008".toList, "1.0007".toList, "3.0009".toList,
          "3.0008".toList, "3.0007".toList, "5.0009".toList, "5.0008".toList,
          "5.0007".toList]
      ∧ parsePatterns (splitOriginalPattern "1-5x2.9-7#".toList (effectiveDelimiters []))
        = some [[⟨1, 5, 2, 0⟩], [], [⟨9, 7, -1, 4⟩]])
    ∧ ((∀ seq ∈ [[SequenceDesc.mk 1 5 2 0], [], [SequenceDesc.mk 9 7 (-1) 4]], ∀ d ∈ seq,
        ∃ vals, unpackSlice '0' d loopFuel d.beg = some vals
          ∧ d.size = some vals.length
          ∧ vals.length = (Int.tdiv (d.end_ - d.beg) d.step).toNat + 1)
      ∧ ∃ s l, FileSequence.ctor "1-5x2.9-7#".toList [] '0' = some s
        ∧ FileSequenceLazy.ctor "1-5x2.9-7#".toList [] '0' = some l
        ∧ s.isOk = l.isOk ∧ s.size = l.size
        ∧ ∀ i, i < s.size → l.index i = some (s.index i)) :=
  ⟨⟨by decide, by decide⟩,
    C20_eager_and_lazy_agree "1-5x2.9-7#".toList [] '0'
      [[⟨1, 5, 2, 0⟩], [], [⟨9, 7, -1, 4⟩]] (by decide) (by decide) (by decide) (by decide)⟩

/-! ## Neighbouring tokens -/

/-- One round of the loop of `splitOriginalPattern` keeps: of two neighbouring
tokens one is a delimiter, and the last token is a delimiter. -/
theorem splitStep_chain (pattern delims : Str) (st : Nat × List Str) (i : Nat)
    (h1 : List.Chain' (fun t u => (∃ c ∈ delims, t = [c]) ∨ (∃ c ∈ delims, u = [c])) st.2)
    (h2 : ∀ t ∈ st.2.getLast?, ∃ c ∈ delims, t = [c]) :
    List.Chain' (fun t u => (∃ c ∈ delims, t = [c]) ∨ (∃ c ∈ delims, u = [c]))
      (splitStep pattern delims st i).2
    ∧ ∀ t ∈ (splitStep pattern delims st i).2.getLast?, ∃ c ∈ delims, t = [c] := by
  unfold splitStep
  cases hget : pattern[i]? with
  | none => exact ⟨h1, h2⟩
  | some c =>
    simp only
    by_cases hc : c ∈ delims
    · rw [if_pos hc]
      obtain ⟨hlt, hci⟩ := List.getElem?_eq_some.mp hget
      have hsub : substr pattern i 1 = [c] := by
        unfold substr
        rw [List.drop_eq_getElem_cons hlt, hci]
        rfl
      rw [hsub]
      simp only
      constructor
      · rw [List.chain'_append]
        refine ⟨?_, List.chain'_singleton _, ?_⟩
        · by_cases hs : st.1 < i
          · rw [if_pos hs, List.chain'_append]
            refine ⟨h1, List.chain'_singleton _, ?_⟩
            intro x hx y _
            exact Or.inl (h2 x hx)
          · rw [if_neg hs]
            exact h1
        · intro x _ y hy
          simp only [List.head?_cons, Option.mem_def, Option.some.injEq] at hy
          exact Or.inr ⟨c, hc, hy.symm⟩
      · intro t ht
        rw [List.getLast?_append] at ht
        simp only [List.getLast?_singleton, Option.or, Option.mem_def,
          Option.some.injEq] at ht
        exact ⟨c, hc, ht.symm⟩
    · rw [if_neg hc]
      exact ⟨h1, h2⟩

/-- Of two neighbouring tokens of `splitOriginalPattern` one is a delimiter. -/
theorem splitOriginalPattern_chain (pattern delims : Str) :
    List.Chain' (fun t u => (∃ c ∈ delims, t = [c]) ∨ (∃ c ∈ delims, u = [c]))
      (splitOriginalPattern pattern delims) := by
  have key : ∀ (l : List Nat) (st : Nat × List Str),
      List.Chain' (fun t u => (∃ c ∈ delims, t = [c]) ∨ (∃ c ∈ delims, u = [c])) st.2 →
      (∀ t ∈ st.2.getLast?, ∃ c ∈ delims, t = [c]) →
      List.Chain' (fun t u => (∃ c ∈ delims, t = [c]) ∨ (∃ c ∈ delims, u = [c]))
        (l.foldl (splitStep pattern delims) st).2
      ∧ ∀ t ∈ (l.foldl (splitStep pattern delims) st).2.getLast?, ∃ c ∈ delims, t = [c] := by
    intro l
    induction l with
    | nil => intro st h1 h2; exact ⟨h1, h2⟩
    | cons i l ih =>
      intro st h1 h2
      obtain ⟨g1, g2⟩ := splitStep_chain pattern delims st i h1 h2
      exact ih _ g1 g2
  obtain ⟨h1, h2⟩ := key (List.range pattern.length) (0, []) List.chain'_nil (by simp)
  unfold splitOriginalPattern
  simp only
  split
  · rw [List.chain'_append]
    refine ⟨h1, List.chain'_singleton _, ?_⟩
    intro x hx y _
    exact Or.inl (h2 x hx)
  · exact h1

/-! ## Formatted values side by side -/

/-- A formatted value is a run of characters that are no digits followed by a
run of digits that is not empty. -/
theorem writePadded_split (c : Char) (v : Int) (pad : Nat) :
    ∃ N D, writePadded c v pad = N ++ D ∧ (∀ x ∈ N, x.isDigit = false)
      ∧ (∀ x ∈ D, x.isDigit = true) ∧ D ≠ [] := by
  have hd := natDigits_isDigit v.natAbs
  have hn := natDigits_ne_nil v.natAbs
  unfold writePadded
  by_cases hc : c.isDigit = true
  · by_cases hv : v < 0
    · rw [if_pos hv]
      refine ⟨['-'], _, rfl, ?_, ?_, by simp [hn]⟩
      · intro x hx
        rw [List.mem_singleton.mp hx]
        rfl
      · intro x hx
        rcases List.mem_append.mp hx with h | h
        · rw [List.eq_of_mem_replicate h]; exact hc
        · exact hd x h
    · rw [if_neg hv]
      refine ⟨[], _, rfl, by simp, ?_, by simp [hn]⟩
      intro x hx
      rcases List.mem_append.mp hx with h | h
      · rw [List.eq_of_mem_replicate h]; exact hc
      · exact hd x h
  · have hc2 : c.isDigit = false := by simpa using hc
    by_cases hv : v < 0
    · rw [if_pos hv]
      refine ⟨'-' :: List.replicate (pad - ((natDigits v.natAbs).length + 1)) c, _, rfl, ?_,
        hd, hn⟩
      intro x hx
      rcases List.mem_cons.mp hx with h | h
      · rw [h]; rfl
      · rw [List.eq_of_mem_replicate h]; exact hc2
    · rw [if_neg hv]
      refine ⟨List.replicate (pad - (natDigits v.natAbs).length) c, _, rfl, ?_, hd, hn⟩
      intro x hx
      rw [List.eq_of_mem_replicate hx]; exact hc2

/-- When a formatted value goes on to a longer formatted value, the first
character past it is a digit. -/
theorem formatted_ext (a r : Str) (ch : Char)
    (ha : ∃ c v pad, a = writePadded c v pad)
    (hb : ∃ c v pad, a ++ ch :: r = writePadded c v pad) : ch.isDigit = true := by
  obtain ⟨c1, v1, p1, rfl⟩ := ha
  obtain ⟨c2, v2, p2, hb⟩ := hb
  obtain ⟨N, D, e1, n1, d1, ne1⟩ := writePadded_split c1 v1 p1
  obtain ⟨N2, D2, e2, n2, d2, _⟩ := writePadded_split c2 v2 p2
  rw [e1, e2, List.append_assoc] at hb
  rcases List.append_eq_append_iff.mp hb with ⟨r2, h1, h2⟩ | ⟨r2, h1, h2⟩
  · cases r2 with
    | nil =>
      rw [List.nil_append] at h2
      apply d2
      rw [← h2]
      simp
    | cons y ys =>
      cases D with
      | nil => exact absurd rfl ne1
      | cons x xs =>
        simp only [List.cons_append, List.cons.injEq] at h2
        have hx := d1 x (List.mem_cons_self _ _)
        have hy := n2 y (by rw [h1]; simp)
        rw [h2.1, hy] at hx
        simp at hx
  · apply d2
    rw [h2]
    simp

/-- Two formatted values, each followed by text that does not start with a
digit, give the same text only when they are the same. -/
theorem formatted_cancel (a b x y : Str)
    (ha : ∃ c v pad, a = writePadded c v pad) (hb : ∃ c v pad, b = writePadded c v pad)
    (hx : ∀ ch xs, x = ch :: xs → ch.isDigit = false)
    (hy : ∀ ch ys, y = ch :: ys → ch.isDigit = false)
    (h : a ++ x = b ++ y) : a = b := by
  rcases List.append_eq_append_iff.mp h with ⟨r, h1, h2⟩ | ⟨r, h1, h2⟩
  · cases r with
    | nil => simpa using h1.symm
    | cons ch rs =>
      have hd := formatted_ext a rs ch ha (by rw [← h1]; exact hb)
      rw [hx ch (rs ++ y) (by rw [h2]; rfl)] at hd
      simp at hd
  · cases r with
    | nil => simpa using h1
    | cons ch rs =>
      have hd := formatted_ext b rs ch hb (by rw [← h1]; exact ha)
      rw [hy ch (rs ++ x) (by rw [h2]; rfl)] at hd
      simp at hd

/-- The product list has no text twice when no list has a text twice and every
list of more than one text holds formatted values and is followed, if by
anything, by the list of one text that starts with a character that is no
digit. -/
theorem specCartesian_nodup (parts : List (List Str))
    (hnd : ∀ part ∈ parts, part.Nodup)
    (hfmt : ∀ part ∈ parts, part.length ≤ 1 ∨ ∀ a ∈ part, ∃ c v pad, a = writePadded c v pad)
    (hsep : List.Chain' (fun (A B : List Str) =>
      A.length ≤ 1 ∨ ∃ ch us, B = [ch :: us] ∧ ch.isDigit = false) parts) :
    (specCartesian parts).Nodup := by
  induction parts with
  | nil => simp [specCartesian]
  | cons A rest ih =>
    have ih2 := ih (fun p hp => hnd p (List.mem_cons_of_mem _ hp))
      (fun p hp => hfmt p (List.mem_cons_of_mem _ hp)) (List.Chain'.tail hsep)
    have hstart : A.length ≤ 1 ∨ ∀ p ∈ specCartesian rest, ∀ ch xs, p = ch :: xs →
        ch.isDigit = false := by
      cases rest with
      | nil =>
        right
        intro p hp ch xs he
        simp only [specCartesian, List.mem_singleton] at hp
        rw [hp] at he
        simp at he
      | cons B rest2 =>
        rcases (List.chain'_cons.mp hsep).1 with h | ⟨ch, us, hB, hch⟩
        · exact Or.inl h
        · right
          intro p hp c2 xs he
          rw [hB] at hp
          simp only [specCartesian, List.flatMap_cons, List.flatMap_nil, List.append_nil,
            List.mem_map] at hp
          obtain ⟨t, _, ht⟩ := hp
          rw [← ht, List.cons_append, List.cons.injEq] at he
          rw [← he.1]
          exact hch
    unfold specCartesian
    rw [List.nodup_flatMap]
    constructor
    · intro s _
      exact ih2.map (List.append_right_injective s)
    · have hA := hnd A (List.mem_cons_self _ _)
      apply List.Pairwise.imp_of_mem _ hA
      intro a b ha hb hne
      intro t hta htb
      rw [List.mem_map] at hta htb
      obtain ⟨p, hp, rfl⟩ := hta
      obtain ⟨q, hq, hpq⟩ := htb
      rcases hstart with hlen | hst
      · apply hne
        match A, hlen, ha, hb with
        | [], _, ha, _ => simp at ha
        | [z], _, ha, hb =>
          rw [List.mem_singleton.mp ha, List.mem_singleton.mp hb]
        | _ :: _ :: _, hlen, _, _ => simp at hlen
      · rcases hfmt A (List.mem_cons_self _ _) with hlen | hf
        · apply hne
          match A, hlen, ha, hb with
          | [], _, ha, _ => simp at ha
          | [z], _, ha, hb =>
            rw [List.mem_singleton.mp ha, List.mem_singleton.mp hb]
          | _ :: _ :: _, hlen, _, _ => simp at hlen
        · exact hne (formatted_cancel a b p q (hf a ha) (hf b hb) (hst p hp) (hst q hq)
            hpq.symm)

/-! ## Indices and concrete paths -/

/-- A delimiter that is no digit, `#` or `@` is a literal token. -/
theorem delimiter_token_literal (c : Char) (h1 : c.isDigit = false) (h2 : c ≠ '#')
    (h3 : c ≠ '@') : wrapParseToken [c] = [] := by
  by_cases hc : checkPatternCharset [c] = true
  · have hc2 := hc
    simp only [checkPatternCharset, List.all_cons, List.all_nil, Bool.and_true, Bool.or_eq_true,
      decide_eq_true_eq] at hc2
    rcases hc2 with ((((h | h) | h) | h) | h) | h
    · exact absurd h h2
    · rw [h]; decide
    · rw [h]; decide
    · rw [h1] at h; simp at h
    · exact absurd h h3
    · rw [h]; decide
  · unfold wrapParseToken
    rw [if_neg hc]

/-- A digit below the cardinality of a token selects a slice. -/
theorem specSelect_isSome (seq : PackedSequence) (d : Nat) (h : d < specCardinality seq) :
    ∃ p, specSelect seq d = some p := by
  induction seq generalizing d with
  | nil => simp [specCardinality] at h
  | cons x l ih =>
    unfold specSelect
    by_cases hd : d < specSliceCardinality x
    · rw [if_pos hd]
      exact ⟨_, rfl⟩
    · rw [if_neg hd]
      apply ih
      simp only [specCardinality, List.map_cons, List.sum_cons] at h
      unfold specCardinality
      omega

/-- The texts of a token are its own text, or formatted values. -/
theorem specTokenTexts_formatted (padChar : Char) (tok : Str) (seq : PackedSequence) :
    (specTokenTexts padChar tok seq).length ≤ 1
    ∨ ∀ a ∈ specTokenTexts padChar tok seq, ∃ c v pad, a = writePadded c v pad := by
  unfold specTokenTexts
  by_cases he : seq.isEmpty = true
  · rw [if_pos he]
    left
    simp
  · rw [if_neg he]
    right
    intro a ha
    rw [List.mem_map] at ha
    obtain ⟨d, hd, rfl⟩ := ha
    rw [List.mem_range] at hd
    obtain ⟨p, hp⟩ := specSelect_isSome seq d hd
    unfold specSliceText
    rw [hp]
    exact ⟨_, _, _, rfl⟩

/-- The lists of the tokens of a pattern: each is one text or holds formatted
values. -/
theorem specPathParts_formatted (padChar : Char) (toks : List Str) (packed : PackedPath) :
    ∀ part ∈ specPathParts padChar toks packed,
      part.length ≤ 1 ∨ ∀ a ∈ part, ∃ c v pad, a = writePadded c v pad := by
  induction toks generalizing packed with
  | nil => simp [specPathParts]
  | cons tok toks ih =>
    cases packed with
    | nil => simp [specPathParts]
    | cons seq packed =>
      intro part hpart
      unfold specPathParts at hpart
      rcases List.mem_cons.mp hpart with rfl | h
      · exact specTokenTexts_formatted padChar tok seq
      · exact ih packed part h

/-- When no delimiter is a digit, `#` or `@`, every list of more than one text
is followed, if by anything, by the one-text list of a delimiter. -/
theorem specPathParts_separated (padChar : Char) (delims : Str) (toks : List Str)
    (hd : ∀ c ∈ delims, c.isDigit = false ∧ c ≠ '#' ∧ c ≠ '@')
    (hch : List.Chain' (fun t u => (∃ c ∈ delims, t = [c]) ∨ (∃ c ∈ delims, u = [c])) toks) :
    List.Chain' (fun (A B : List Str) =>
        A.length ≤ 1 ∨ ∃ ch us, B = [ch :: us] ∧ ch.isDigit = false)
      (specPathParts padChar toks (wrapParsePatterns toks)) := by
  have hlit : ∀ c ∈ delims, ∀ (x : Str), specTokenTexts padChar [c] (wrapParseToken [c]) = [[c]] := by
    intro c hc _
    obtain ⟨h1, h2, h3⟩ := hd c hc
    rw [delimiter_token_literal c h1 h2 h3]
    rfl
  induction toks with
  | nil => simp [specPathParts, wrapParsePatterns]
  | cons t rest ih =>
    cases rest with
    | nil => simp [specPathParts, wrapParsePatterns]
    | cons u rest2 =>
      obtain ⟨hr, htail⟩ := List.chain'_cons.mp hch
      have ih2 := ih htail
      simp only [wrapParsePatterns, List.map_cons, specPathParts] at ih2 ⊢
      rw [List.chain'_cons]
      refine ⟨?_, ih2⟩
      rcases hr with ⟨c, hc, rfl⟩ | ⟨c, hc, rfl⟩
      · left
        rw [hlit c hc []]
        simp
      · right
        exact ⟨c, [], hlit c hc [], (hd c hc).1⟩

set_option maxRecDepth 8000 in
/-- C13 (as stated it fails): on the pattern "1,1.exr" the lazy expander is ok
with 2 paths, and the two distinct indices 0 and 1 return the same path
"1.exr"; with the delimiter set "5" the pattern "1,14-1652,49-60x3" has the
tokens "1,14-16", "5" and "2,49-60x3", none of which lists a text twice, and
the distinct indices 2 and 10 return the same path "1552" ("1" + "5" + "52"
and "15" + "5" + "2"); with the delimiter set "#" the pattern "1,11#3,13"
returns "1100013" at the indices 2001 and 20002, and with the delimiter set
"@" the pattern "1,11@3,13" returns "1113" at the indices 3 and 22; and on the
pattern "#.#.#.#.#", whose total `10 ^ 20` is above `2 ^ 64`, the lazy
expander is ok but `operator[]` returns no path at index 0, where it divides
by zero. -/
theorem C13_counterexample :
    ((FileSequenceLazy.ctor "1,1.exr".toList [] '0').map (fun s => (s.isOk, s.size))
        = some (true, 2)
      ∧ (FileSequenceLazy.ctor "1,1.exr".toList [] '0').map (fun s => s.index 0)
        = some (some "1.exr".toList)
      ∧ (FileSequenceLazy.ctor "1,1.exr".toList [] '0').map (fun s => s.index 1)
        = some (some "1.exr".toList))
    ∧ (splitOriginalPattern "1,14-1652,49-60x3".toList (effectiveDelimiters "5".toList)
        = ["1,14-16".toList, "5".toList, "2,49-60x3".toList]
      ∧ (FileSequenceLazy.ctor "1,14-1652,49-60x3".toList "5".toList '0').map
          (fun s => (s.isOk, s.size)) = some (true, 20)
      ∧ (FileSequenceLazy.ctor "1,14-1652,49-60x3".toList "5".toList '0').map
          (fun s => s.index 2) = some (some "1552".toList)
      ∧ (FileSequenceLazy.ctor "1,14-1652,49-60x3".toList "5".toList '0').map
          (fun s => s.index 10) = some (some "1552".toList))
    ∧ ((FileSequenceLazy.ctor "1,11#3,13".toList "#".toList '0').map
          (fun s => (s.isOk, s.size)) = some (true, 40000)
      ∧ (FileSequenceLazy.ctor "1,11#3,13".toList "#".toList '0').map
          (fun s => s.index 2001) = some (some "1100013".toList)
      ∧ (FileSequenceLazy.ctor "1,11#3,13".toList "#".toList '0').map
          (fun s => s.index 20002) = some (some "1100013".toList))
    ∧ ((FileSequenceLazy.ctor "1,11@3,13".toList "@".toList '0').map
          (fun s => (s.isOk, s.size)) = some (true, 40)
      ∧ (FileSequenceLazy.ctor "1,11@3,13".toList "@".toList '0').map
          (fun s => s.index 3) = some (some "1113".toList)
      ∧ (FileSequenceLazy.ctor "1,11@3,13".toList "@".toList '0').map
          (fun s => s.index 22) = some (some "1113".toList))
    ∧ ((FileSequenceLazy.ctor "#.#.#.#.#".toList [] '0').map
          (fun s => (s.isOk, decide (0 < s.size))) = some (true, true)
      ∧ (FileSequenceLazy.ctor "#.#.#.#.#".toList [] '0').map (fun s => s.index 0)
        = some none) := by
  decide

/-- C13 (amended): for every pattern on which the lazy expander is built and
ok and whose total is below `2 ^ 64`, `size()` is the total and indexed
retrieval maps the indices `[0, total)` onto the combinations of one text per
token: the paths `lazy[0]`, ..., `lazy[total - 1]` are the product list of the
per-token lists, so every concrete path is returned at some index; distinct
indices below the total have distinct digit tuples; and when no token lists a
text twice and no delimiter is a digit, `#` or `@`, `lazy[i] != lazy[j]` for
all distinct `i, j < total`. -/
theorem C13_lazy_index_enumerates_combinations (pattern delimiters : Str) (padChar : Char)
    (s : FileSequenceLazy)
    (hs : FileSequenceLazy.ctor pattern delimiters padChar = some s)
    (htot : specTotal s.m_packedPaths < SIZE_MOD)
    (hok : s.isOk = true) :
    s.size = specTotal s.m_packedPaths
    ∧ s.getFullPaths
      = some (specCartesian (specPathParts padChar
          (splitOriginalPattern pattern (effectiveDelimiters delimiters)) s.m_packedPaths))
    ∧ (∀ q ∈ specCartesian (specPathParts padChar
          (splitOriginalPattern pattern (effectiveDelimiters delimiters)) s.m_packedPaths),
        ∃ i, i < s.size ∧ s.index i = some q)
    ∧ (∀ i j, i < s.size → j < s.size → i ≠ j →
        specDigits s.m_packedPaths i ≠ specDigits s.m_packedPaths j)
    ∧ ((∀ part ∈ specPathParts padChar
          (splitOriginalPattern pattern (effectiveDelimiters delimiters)) s.m_packedPaths,
          part.Nodup) →
        (∀ c ∈ effectiveDelimiters delimiters, c.isDigit = false ∧ c ≠ '#' ∧ c ≠ '@') →
        ∀ i j, i < s.size → j < s.size → i ≠ j → s.index i ≠ s.index j) := by
  obtain ⟨h1, h3, _, hacc, htw⟩ := lazy_stored pattern delimiters padChar s hs
  rw [htw] at htot
  obtain ⟨hseq, _, _⟩ := no_overflow_of_specTotal _ (parsePatterns_isOk _) htot
  have hparts := specPathParts_eq_wrap padChar
    (splitOriginalPattern pattern (effectiveDelimiters delimiters)) s.m_packedPaths hacc
    (by rw [h3]; exact hseq)
  have hdig : ∀ i, specDigits s.m_packedPaths i = wrapDigits (wrapParsePatterns
      (splitOriginalPattern pattern (effectiveDelimiters delimiters))) i := by
    intro i
    rw [specDigits_eq_wrap _ i hacc, h3]
  have hidx : ∀ i, s.index i = (FileSequenceLazy.wrapCtor pattern delimiters padChar).wrapIndex i := by
    intro i
    rw [h1]
    exact lazy_index_eq_wrap pattern delimiters padChar i
  obtain ⟨l1, l2, _, _⟩ := lazy_of_pattern pattern delimiters padChar htot
  obtain ⟨w1, w2, w3, w4⟩ := lazy_enumerates_wrap pattern delimiters padChar htot
    (by rw [← h1]; exact hok)
  rw [← h3] at w1 w2 w4
  rw [← hparts] at w1 w2 w4
  rw [← h1] at w1 w2 w3 w4 l1 l2
  refine ⟨?_, ?_, ?_, ?_, ?_⟩
  · rw [htw, l2]
    rw [l1] at hok
    rw [if_pos (by simpa using hok)]
  · rw [h1, (lazy_getFullPaths_eq_wrap pattern delimiters padChar).1, ← h1]
    exact w1
  · intro q hq
    obtain ⟨i, hi, hq2⟩ := w2 q hq
    exact ⟨i, hi, by rw [hidx, ← h1]; exact hq2⟩
  · intro i j hi hj hne
    rw [hdig, hdig]
    exact w3 i j hi hj hne
  · intro hnd hdel i j hi hj hne
    rw [hidx, hidx, ← h1]
    apply w4.mpr _ i j hi hj hne
    apply specCartesian_nodup _ hnd (specPathParts_formatted padChar _ _)
    rw [h3]
    exact specPathParts_separated padChar _ _ hdel (splitOriginalPattern_chain _ _)

/-- C13, witness: on the pattern "1-2.7-9" the lazy expander is ok and returns
the 6 paths of the product list, which are pairwise distinct. -/
theorem C13_lazy_index_enumerates_combinations_witness :
    ∃ s, FileSequenceLazy.ctor "1-2.7-9".toList [] '0' = some s
      ∧ specTotal s.m_packedPaths = 6 ∧ s.isOk = true
      ∧ specPathParts '0' (splitOriginalPattern "1-2.7-9".toList (effectiveDelimiters []))
          s.m_packedPaths
        = [["1".toList, "2".toList], [".".toList], ["7".toList, "8".toList, "9".toList]]
      ∧ s.getFullPaths
        = some ["1.7".toList, "1.8".toList, "1.9".toList, "2.7".toList, "2.8".toList,
            "2.9".toList]
      ∧ ∀ i j, i < s.size → j < s.size → i ≠ j → s.index i ≠ s.index j :=
  ⟨⟨'0', [[⟨1, 2, 1, 0⟩], [], [⟨7, 9, 1, 0⟩]], ["1-2".toList, ".".toList, "7-9".toList], 6,
      true⟩,
    by decide, by decide, by decide, by decide, by decide,
    (C13_lazy_index_enumerates_combinations "1-2.7-9".toList [] '0'
      ⟨'0', [[⟨1, 2, 1, 0⟩], [], [⟨7, 9, 1, 0⟩]], ["1-2".toList, ".".toList, "7-9".toList], 6,
        true⟩
      (by decide) (by decide) (by decide)).2.2.2.2 (by decide) (by decide)⟩

end fileseqmini
